import Mathlib

/-! The streaming buffer, the LRU block cache and the source-block callback of
xdelta-py.

A shallow embedding of `buffer.c`, of `lru_cache.c` and of `get_source_block`
in `deltamodule.c`.

Conventions of the embedding.

* A C byte (`char`) is a `Char`; a region of memory is a `List Byte`.
* A pointer that may be `NULL` is an `Option`; a `(pointer, length)` pair that
  is read by `memcpy` is a list together with the length.
* `ulong` arithmetic of the buffer is written out modulo `2 ^ 64`.
* `malloc`, `calloc` and `realloc` succeed or fail according to a boolean
  passed by the caller of the model; fresh memory is filled with `NUL` bytes.
-/

set_option autoImplicit false

namespace XDelta

/-! ## C memory primitives -/

/-- One `char` of C memory. -/
abbrev Byte := Char

/-- The modulus of `unsigned long` arithmetic (`SIZEOF_SIZE_T` is 8). -/
def ULONG_MOD : Nat := 2 ^ 64

/-- Subtraction of two `ulong` values, wrapping around. -/
def usub (a b : Nat) : Nat := (a + ULONG_MOD - b % ULONG_MOD) % ULONG_MOD

/-- Addition of two `ulong` values, wrapping around. -/
def uadd (a b : Nat) : Nat := (a + b) % ULONG_MOD

/-- The content of freshly allocated memory of `n` bytes. -/
def malloc (n : Nat) : List Byte := List.replicate n (Char.ofNat 0)

/-- The block `realloc(p, n)` returns on success: the old content, cut or
extended to `n` bytes (`realloc(NULL, n)` is `malloc(n)`). -/
def realloc (p : Option (List Byte)) (n : Nat) : List Byte :=
  ((p.getD []) ++ malloc n).take n

/-- The memory `dest` after `memcpy(dest + pos, src, n)`. -/
def memcpy (dest : List Byte) (pos : Nat) (src : List Byte) (n : Nat) : List Byte :=
  dest.take pos ++ src.take n ++ dest.drop (pos + n)

/-! ## buffer.c -/

def MIN_WASTEAGE : Nat := 4096

def MAX_WASTEAGE : Nat := 16777216

/-- The record `struct buf`: `data` is `none` for a `NULL` pointer and
otherwise the content of the allocation. -/
structure buf where
  data : Option (List Byte)
  size : Nat
  offset : Nat
deriving DecidableEq, Repr

/-- The record `calloc(1, sizeof(struct buf))` yields. -/
def buf_zero : buf := { data := none, size := 0, offset := 0 }

/-- The function `buffer_append(buffer, data, len)`.  The argument `buffer` is
the `buffer_t **`: `none` when it is `NULL`, `some none` when `*buffer` is
`NULL`.  The result is the returned `int` and the `*buffer` afterwards. -/
def buffer_append (calloc_ok alloc_ok : Bool) (buffer : Option (Option buf))
    (data : List Byte) (len : Nat) : Int × Option (Option buf) :=
  match buffer with
  | none => (0, none)
  | some pb =>
    let allocated : Option buf :=
      match pb with
      | some b => some b
      | none => if calloc_ok then some buf_zero else none
    match allocated with
    | none => (0, some none)
    | some b =>
      if len ≠ 0 then
        if b.offset < MIN_WASTEAGE ∨ (b.offset < MAX_WASTEAGE ∧ b.offset > b.size >>> 2) then
          if alloc_ok then
            let dest := realloc b.data (uadd b.size len)
            (1, some (some { data := some (memcpy dest b.size data len),
                             size := uadd b.size len,
                             offset := b.offset }))
          else (0, some (some b))
        else
          let remaining := usub b.size b.offset
          if alloc_ok then
            let dest := memcpy (malloc (uadd remaining len)) 0
              ((b.data.getD []).drop b.offset) remaining
            (1, some (some { data := some (memcpy dest remaining data len),
                             size := uadd remaining len,
                             offset := 0 }))
          else (0, some (some b))
      else (1, some (some b))

/-- The function `buffer_take(buffer, dest, len)`: the returned count, the
memory at `dest` afterwards and the buffer afterwards. -/
def buffer_take (buffer : Option buf) (dest : List Byte) (len : Nat) :
    Nat × List Byte × Option buf :=
  match buffer with
  | none => (0, dest, none)
  | some b =>
    match b.data with
    | none => (0, dest, some b)
    | some d =>
      let remaining := usub b.size b.offset
      let taken := if remaining < len then remaining else len
      let dest1 := memcpy dest 0 (d.drop b.offset) taken
      let b1 : buf := { data := some d, size := b.size, offset := uadd b.offset taken }
      let b2 : buf := if b1.offset = b1.size then { data := none, size := 0, offset := 0 } else b1
      (taken, dest1, some b2)

/-- The function `buffer_remaining(buffer)`. -/
def buffer_remaining (buffer : Option buf) : Nat :=
  match buffer with
  | none => 0
  | some b => usub b.size b.offset

/-! ### Sequences of buffer calls -/

/-- One call on a buffer: an append (with the outcome of its allocations) or
a take into a fresh destination of `len` bytes. -/
inductive BufOp where
  | append (calloc_ok alloc_ok : Bool) (data : List Byte) (len : Nat)
  | take (len : Nat)
deriving DecidableEq, Repr

/-- A buffer handle together with the bytes handed to the successful appends
and the bytes the takes returned, both in call order. -/
structure BufTrace where
  buffer : Option buf
  appended : List Byte
  taken : List Byte
deriving DecidableEq, Repr

/-- The trace of a caller that holds a `NULL` buffer handle. -/
def BufTrace.init : BufTrace := { buffer := none, appended := [], taken := [] }

/-- Performs one call and records what went in or came out. -/
def BufTrace.step (t : BufTrace) : BufOp → BufTrace
  | .append calloc_ok alloc_ok data len =>
    let r := buffer_append calloc_ok alloc_ok (some t.buffer) data len
    { buffer := r.2.getD t.buffer,
      appended := if r.1 = 1 then t.appended ++ data.take len else t.appended,
      taken := t.taken }
  | .take len =>
    let r := buffer_take t.buffer (malloc len) len
    { buffer := r.2.2,
      appended := t.appended,
      taken := t.taken ++ r.2.1.take r.1 }

/-- Performs the calls from left to right. -/
def BufTrace.run (t : BufTrace) (ops : List BufOp) : BufTrace :=
  ops.foldl BufTrace.step t

/-- The bytes `data[0 .. len)` an append passes in; none for a take. -/
def BufOp.bytes : BufOp → List Byte
  | .append _ _ data len => data.take len
  | .take _ => []

/-- The number of bytes an operation asks to append. -/
def BufOp.appendLen : BufOp → Nat
  | .append _ _ _ len => len
  | .take _ => 0

/-- An append reads `len` bytes, so its source holds at least that many. -/
def BufOp.wellFormed : BufOp → Prop
  | .append _ _ data len => len ≤ data.length
  | .take _ => True

/-- Every allocation the operation performs succeeds. -/
def BufOp.allocOk : BufOp → Prop
  | .append calloc_ok alloc_ok _ _ => calloc_ok = true ∧ alloc_ok = true
  | .take _ => True

instance (op : BufOp) : Decidable op.wellFormed := by
  cases op <;> unfold BufOp.wellFormed <;> infer_instance

instance (op : BufOp) : Decidable op.allocOk := by
  cases op <;> unfold BufOp.allocOk <;> infer_instance


/-! ## lru_cache.c

A `block *` is `none` for `NULL` and otherwise the index of the slot in the
array `cache->blocks` it points to (the code only ever stores addresses of
slots of that array); comparing or subtracting two such pointers is comparing
or subtracting the indices.  A `char *` into the storage arena is the offset
of the byte it points to.  Array slots are read and written through total
list accessors: in every state with `max_blocks` slots the indices the code
computes lie inside the array.  Block counts are far below `2 ^ 63`, so the
`long` and `ptrdiff_t` arithmetic of the code is exact and written in `Int`. -/

/-- The ways a call can leave the defined behaviour of the program. -/
inductive Fault where
  /-- An `assert` failed. -/
  | assertion
  /-- A `NULL` pointer was dereferenced. -/
  | null_deref
  /-- A loop of the model used up its iteration bound. -/
  | fuel
deriving DecidableEq, Repr

/-- The record `lru_cache_entry_t`. -/
structure lru_cache_entry_t where
  id : Nat
  data : Nat
  size : Nat
deriving DecidableEq, Repr

/-- The record `struct blk`. -/
structure block where
  payload : lru_cache_entry_t
  next : Option Nat
  previous : Option Nat
deriving DecidableEq, Repr

/-- The record `struct lru_cache`, together with the content of the storage
arena that the `data` pointers of its slots point into. -/
structure lru_cache where
  blocks : List block
  head : Option Nat
  tail : Option Nat
  cur_blocks : Nat
  max_blocks : Nat
  block_size : Nat
  arena : List Byte
deriving DecidableEq, Repr

/-- The slot `lru_cache_init` writes at array position `i`. -/
def block_init (block_size i : Nat) : block :=
  { payload := { id := 0, data := i * block_size, size := 0 }, next := none, previous := none }

/-- The value of `cache->blocks[k]`. -/
def blk_at (cache : lru_cache) (k : Nat) : block :=
  cache.blocks.getD k (block_init 0 0)

/-- The assignment `cache->blocks[k] = b`. -/
def set_blk (cache : lru_cache) (k : Nat) (b : block) : lru_cache :=
  { cache with blocks := cache.blocks.set k b }

/-- The assignment `cache->blocks[k].next = v`. -/
def set_next (cache : lru_cache) (k : Nat) (v : Option Nat) : lru_cache :=
  set_blk cache k { blk_at cache k with next := v }

/-- The assignment `cache->blocks[k].previous = v`. -/
def set_previous (cache : lru_cache) (k : Nat) (v : Option Nat) : lru_cache :=
  set_blk cache k { blk_at cache k with previous := v }

/-- The assignment `cache->blocks[k].payload = e`. -/
def set_payload (cache : lru_cache) (k : Nat) (e : lru_cache_entry_t) : lru_cache :=
  set_blk cache k { blk_at cache k with payload := e }

/-- The state `lru_cache_init` builds when its three allocations succeed. -/
def cache_new (blocks block_size : Nat) : lru_cache :=
  { blocks := (List.range blocks).map (block_init block_size),
    head := none,
    tail := none,
    cur_blocks := 0,
    max_blocks := blocks,
    block_size := block_size,
    arena := malloc (blocks * block_size) }

/-- The function `lru_cache_init(blocks, block_size)`; the flags say which of
the allocations of the cache record, of the arena and of the slot array
succeed.  The result is `none` for a `NULL` return. -/
def lru_cache_init (cache_ok data_ok blocks_ok : Bool) (blocks block_size : Nat) :
    Except Fault (Option lru_cache) :=
  if blocks = 0 then .error .assertion
  else if block_size = 0 then .error .assertion
  else if cache_ok then
    if data_ok && blocks_ok then .ok (some (cache_new blocks block_size))
    else .ok none
  else .ok none

/-- The loop of `find_block`, run for at most the given number of iterations. -/
def find_block_loop (cache : lru_cache) (id : Nat) : Nat → Int → Int → Except Fault Int
  | 0, low, high => if low ≤ high then .error .fuel else .ok (-low - 1)
  | fuel + 1, low, high =>
    if low ≤ high then
      let mid := (low + high).tdiv 2
      let found_id := (blk_at cache mid.toNat).payload.id
      if found_id < id then find_block_loop cache id fuel (mid + 1) high
      else if found_id > id then find_block_loop cache id fuel low (mid - 1)
      else .ok mid
    else .ok (-low - 1)

/-- The function `find_block(cache, id)`.  The interval `[low, high]` starts
with `cur_blocks` elements and shrinks in every iteration, so `cur_blocks`
iterations are always enough. -/
def find_block (cache : lru_cache) (id : Nat) : Except Fault Int :=
  find_block_loop cache id cache.cur_blocks 0 ((cache.cur_blocks : Int) - 1)

/-- The statements that take the slot `blk` out of the usage list and link it
in front of the current head (the body of `if (block != cache->head)` in
`lru_cache_get`, and of `if (blk != cache->head)` in `lru_cache_put`). -/
def move_to_front (cache : lru_cache) (blk : Nat) : Except Fault lru_cache :=
  -- if (block->previous != NULL) block->previous->next = block->next;
  let c1 := match (blk_at cache blk).previous with
    | some p => set_next cache p (blk_at cache blk).next
    | none => cache
  -- if (block->next != NULL) block->next->previous = block->previous;
  let c2 := match (blk_at c1 blk).next with
    | some n => set_previous c1 n (blk_at c1 blk).previous
    | none => c1
  -- if (block == cache->tail) cache->tail = block->previous;
  let c3 := if some blk = c2.tail then { c2 with tail := (blk_at c2 blk).previous } else c2
  -- block->previous = NULL; block->next = cache->head;
  let c4 := set_previous c3 blk none
  let c5 := set_next c4 blk c4.head
  -- cache->head->previous = block;
  match c5.head with
  | none => .error .null_deref
  | some h => .ok (set_previous c5 h (some blk))

/-- The function `lru_cache_get(cache, id)`: the returned entry pointer (the
index of its slot, `none` for `NULL`) and the cache afterwards. -/
def lru_cache_get (cache : lru_cache) (id : Nat) : Except Fault (Option Nat × lru_cache) :=
  match find_block cache id with
  | .error e => .error e
  | .ok i =>
    if i < 0 then .ok (none, cache)
    else
      let block := i.toNat
      if some block ≠ cache.head then
        match move_to_front cache block with
        | .error e => .error e
        | .ok c => .ok (some block, { c with head := some block })
      else .ok (some block, cache)

/-- One iteration of a shifting loop of `lru_cache_put`: the slot `src` is
copied to the slot `dst`, and the links and the `head`/`tail` aliases that
pointed to `src` are redirected to `dst`. -/
def shift_block (cache : lru_cache) (dst src : Nat) : lru_cache :=
  -- cache->blocks[j] = cache->blocks[j + dir];
  let c1 := set_blk cache dst (blk_at cache src)
  -- if (cache->blocks[j].previous != NULL) cache->blocks[j].previous->next = &cache->blocks[j];
  let c2 := match (blk_at c1 dst).previous with
    | some p => set_next c1 p (some dst)
    | none => c1
  -- if (cache->blocks[j].next != NULL) cache->blocks[j].next->previous = &cache->blocks[j];
  let c3 := match (blk_at c2 dst).next with
    | some n => set_previous c2 n (some dst)
    | none => c2
  -- if (cache->head == &cache->blocks[j + dir]) cache->head = &cache->blocks[j];
  let c4 := if c3.head = some src then { c3 with head := some dst } else c3
  -- if (cache->tail == &cache->blocks[j + dir]) cache->tail = &cache->blocks[j];
  if c4.tail = some src then { c4 with tail := some dst } else c4

/-- The loop `while (j < i) { ...; j += dir; }` of the full case. -/
def put_full_loop (i dir : Int) : Nat → lru_cache → Int → Except Fault lru_cache
  | 0, cache, j => if j < i then .error .fuel else .ok cache
  | fuel + 1, cache, j =>
    if j < i then
      put_full_loop i dir fuel (shift_block cache j.toNat (j + dir).toNat) (j + dir)
    else .ok cache

/-- The loop `while (j > i) { ...; j--; }` of the case with free slots. -/
def put_grow_loop (i : Int) : Nat → lru_cache → Int → Except Fault lru_cache
  | 0, cache, j => if j > i then .error .fuel else .ok cache
  | fuel + 1, cache, j =>
    if j > i then
      put_grow_loop i fuel (shift_block cache j.toNat (j - 1).toNat) (j - 1)
    else .ok cache

/-- The branch `if (cache->cur_blocks == cache->max_blocks)` of
`lru_cache_put`, entered with the insertion slot `i`. -/
def put_full (cache : lru_cache) (i : Int) : Except Fault lru_cache :=
  let blk := i.toNat
  match cache.tail with
  | none => .error .null_deref
  | some t =>
    -- ptrdiff_t j = cache->tail - blk + i;
    let j : Int := (t : Int) - i + i
    -- const int dir = (cache->tail < blk) ? 1 : -1;
    let dir : Int := if t < blk then 1 else -1
    -- char *stale_data = cache->tail->payload.data;
    let stale_data := (blk_at cache t).payload.data
    -- cache->tail->previous->next = NULL;
    match (blk_at cache t).previous with
    | none => .error .null_deref
    | some p =>
      let c1 := set_next cache p none
      -- cache->tail = cache->tail->previous;
      let c2 := { c1 with tail := (blk_at c1 t).previous }
      match put_full_loop i dir c2.max_blocks c2 j with
      | .error e => .error e
      | .ok c3 =>
        -- blk->payload.data = stale_data; blk->next = cache->head; blk->previous = NULL;
        let c4 := set_payload c3 blk { (blk_at c3 blk).payload with data := stale_data }
        let c5 := set_next c4 blk c4.head
        let c6 := set_previous c5 blk none
        -- cache->head->previous = blk;
        match c6.head with
        | none => .error .null_deref
        | some h => .ok (set_previous c6 h (some blk))

/-- The `else` branch of the test for a full cache in `lru_cache_put`, entered
with the insertion slot `i`. -/
def put_grow (cache : lru_cache) (i : Int) : Except Fault lru_cache :=
  let blk := i.toNat
  let filled : Except Fault lru_cache :=
    if cache.cur_blocks > 0 then
      -- block *new_block = &cache->blocks[cache->cur_blocks];
      let new_block := cache.cur_blocks
      -- ptrdiff_t j = new_block - blk + i;
      let j : Int := (new_block : Int) - i + i
      -- char *stale_data = new_block->payload.data;
      let stale_data := (blk_at cache new_block).payload.data
      match put_grow_loop i cache.max_blocks cache j with
      | .error e => .error e
      | .ok c1 =>
        -- blk->payload.data = stale_data; blk->next = cache->head;
        let c2 := set_payload c1 blk { (blk_at c1 blk).payload with data := stale_data }
        let c3 := set_next c2 blk c2.head
        -- cache->head->previous = blk;
        match c3.head with
        | none => .error .null_deref
        | some h => .ok (set_previous c3 h (some blk))
    else
      -- cache->tail = blk;
      .ok { cache with tail := some blk }
  -- cache->cur_blocks++;
  match filled with
  | .error e => .error e
  | .ok c => .ok { c with cur_blocks := c.cur_blocks + 1 }

/-- The function `lru_cache_put(cache, id, data, length)`: the returned entry
pointer (the index of its slot) and the cache afterwards.  The argument `data`
is `none` for `NULL`. -/
def lru_cache_put (cache : lru_cache) (id : Nat) (data : Option (List Byte)) (length : Nat) :
    Except Fault (Nat × lru_cache) :=
  match find_block cache id with
  | .error e => .error e
  | .ok i0 =>
    -- assert((data != NULL) || (length == 0));
    if ¬ (data.isSome ∨ length = 0) then .error .assertion
    -- assert(length <= cache->block_size);
    else if ¬ (length ≤ cache.block_size) then .error .assertion
    else
      let placed : Except Fault (Nat × lru_cache) :=
        if i0 < 0 then
          -- i = -(i + 1); if (i == cache->max_blocks) i = cache->max_blocks - 1;
          let i1 : Int := -(i0 + 1)
          let i : Int := if i1 = cache.max_blocks then (cache.max_blocks : Int) - 1 else i1
          let r := if cache.cur_blocks = cache.max_blocks then put_full cache i
            else put_grow cache i
          match r with
          | .error e => .error e
          | .ok c => .ok (i.toNat, c)
        else
          let blk := i0.toNat
          if some blk ≠ cache.head then
            match move_to_front cache blk with
            | .error e => .error e
            | .ok c => .ok (blk, c)
          else .ok (blk, cache)
      match placed with
      | .error e => .error e
      | .ok (blk, c) =>
        -- cache->head = blk;
        let c1 := { c with head := some blk }
        -- memcpy(blk->payload.data, data, length);
        let dest := (blk_at c1 blk).payload.data
        let c2 := { c1 with arena := memcpy c1.arena dest (data.getD []) length }
        -- blk->payload.id = id; blk->payload.size = length;
        let c3 := set_payload c2 blk { (blk_at c2 blk).payload with id := id }
        let c4 := set_payload c3 blk { (blk_at c3 blk).payload with size := length }
        .ok (blk, c4)

/-- The function `lru_cache_first(cache)`: the slot of the returned entry. -/
def lru_cache_first (cache : lru_cache) : Option Nat :=
  if cache.cur_blocks > 0 then some 0 else none

/-- The function `lru_cache_last(cache)`: the slot of the returned entry. -/
def lru_cache_last (cache : lru_cache) : Option Nat :=
  if cache.cur_blocks > 0 then some (cache.cur_blocks - 1) else none

/-- The bytes `data[0 .. size)` an entry pointer gives access to. -/
def entry_bytes (cache : lru_cache) (k : Nat) : List Byte :=
  (cache.arena.drop (blk_at cache k).payload.data).take (blk_at cache k).payload.size

/-- The identifier read through an entry pointer. -/
def entry_id (cache : lru_cache) (k : Nat) : Nat := (blk_at cache k).payload.id

/-- The size read through an entry pointer. -/
def entry_size (cache : lru_cache) (k : Nat) : Nat := (blk_at cache k).payload.size

/-! ### Sequences of cache calls -/

/-- One call on a cache. -/
inductive CacheOp where
  | put (id : Nat) (data : List Byte) (length : Nat)
  | get (id : Nat)
deriving DecidableEq, Repr

/-- Performs one call, dropping the returned pointer. -/
def cache_step (cache : lru_cache) : CacheOp → Except Fault lru_cache
  | .put id data length =>
    match lru_cache_put cache id (some data) length with
    | .error e => .error e
    | .ok r => .ok r.2
  | .get id =>
    match lru_cache_get cache id with
    | .error e => .error e
    | .ok r => .ok r.2

/-- Performs the calls from left to right, stopping at the first fault. -/
def cache_run (cache : lru_cache) : List CacheOp → Except Fault lru_cache
  | [] => .ok cache
  | op :: ops =>
    match cache_step cache op with
    | .error e => .error e
    | .ok c => cache_run c ops

/-- Whether `lru_cache_get(cache, id)` returns an entry: `some true` for an
entry, `some false` for `NULL`, `none` when the call faults. -/
def get_hits (cache : lru_cache) (id : Nat) : Option Bool :=
  match lru_cache_get cache id with
  | .error _ => none
  | .ok r => some r.1.isSome

/-- The identifiers stored in the filled slots, in array order. -/
def array_ids (cache : lru_cache) : List Nat :=
  (List.range cache.cur_blocks).map (fun k => (blk_at cache k).payload.id)

/-! ## Specification vocabulary -/

/-- The unconsumed bytes `data[offset .. size)` of a buffer handle. -/
def live : Option buf → List Byte
  | none => []
  | some b => (b.data.getD []).drop b.offset

/-- The data model's invariant: `offset ≤ size`, the allocation holds exactly
`size` bytes (none when `data` is `NULL`), and `size` is a `ulong`. -/
def buf.wf (b : buf) : Prop :=
  b.offset ≤ b.size ∧ b.size < ULONG_MOD ∧ (b.data.getD []).length = b.size

instance (b : buf) : Decidable b.wf := by
  unfold buf.wf; infer_instance

/-- The invariant of a trace: the buffer is well formed, its consumed prefix is
no longer than what was taken, and what was taken followed by what is still
unconsumed is what was appended. -/
def BufTrace.Inv (t : BufTrace) : Prop :=
  (∀ b, t.buffer = some b → b.wf ∧ b.offset ≤ t.taken.length) ∧
    t.taken ++ live t.buffer = t.appended

/-- The `size` field behind a buffer handle, 0 for `NULL`. -/
def buf_size : Option buf → Nat
  | none => 0
  | some b => b.size

/-- No append of the sequence wraps `size + len` around: the bytes held and
the bytes passed in lie together in one 64-bit address space. -/
def BufTrace.fits : BufTrace → List BufOp → Prop
  | _, [] => True
  | t, op :: ops => buf_size t.buffer + op.appendLen < ULONG_MOD ∧ (t.step op).fits ops

/-- Decides `BufTrace.fits` by running the sequence. -/
def BufTrace.decFits : (t : BufTrace) → (ops : List BufOp) → Decidable (t.fits ops)
  | _, [] => isTrue trivial
  | t, op :: ops =>
    match Nat.decLt (buf_size t.buffer + op.appendLen) ULONG_MOD, decFits (t.step op) ops with
    | isTrue h1, isTrue h2 => isTrue ⟨h1, h2⟩
    | isFalse h1, _ => isFalse (fun h => h1 h.1)
    | _, isFalse h2 => isFalse (fun h => h2 h.2)

instance (t : BufTrace) (ops : List BufOp) : Decidable (t.fits ops) := BufTrace.decFits t ops

/-- The total number of bytes the appends of a sequence ask for. -/
def totalAppendLen (ops : List BufOp) : Nat := (ops.map BufOp.appendLen).sum

/-- The concatenation of the bytes passed to the appends of a sequence. -/
def allBytes (ops : List BufOp) : List Byte := (ops.map BufOp.bytes).flatten

/-- The calls of the worked example: append "HELLO", take 3, append " WORLD",
take 8. -/
def hello_ops : List BufOp :=
  [.append true true "HELLO".toList 5, .take 3, .append true true " WORLD".toList 6, .take 8]


/-- A buffer holding "HELLO", nothing consumed. -/
def hello_buf : buf := { data := some "HELLO".toList, size := 5, offset := 0 }

/-- A buffer holding "HELLO WORLD" of which "HEL" has been consumed. -/
def hello_world_buf : buf := { data := some "HELLO WORLD".toList, size := 11, offset := 3 }

/-- The `n` most recently touched identifiers of a history of touches, which
lists the touched identifiers oldest first. -/
def most_recent (n : Nat) (touched : List Nat) : List Nat :=
  (touched.dedup.reverse).take n

/-- What `f` observes in the cache the calls `ops` lead to from `cache`;
`none` when one of the calls faults. -/
def observe {α : Type} (cache : lru_cache) (ops : List CacheOp) (f : lru_cache → α) :
    Option α :=
  match cache_run cache ops with
  | .error _ => none
  | .ok c => some (f c)

/-- Whether `lru_cache_get(cache, id)` returns an entry after the calls `ops`
have been made on `cache`; `none` when a call faults. -/
def get_after (cache : lru_cache) (ops : List CacheOp) (id : Nat) : Option Bool :=
  match cache_run cache ops with
  | .error _ => none
  | .ok c => get_hits c id

/-- The fault a call ends in, if it does. -/
def fault_of {α : Type} : Except Fault α → Option Fault
  | .error e => some e
  | .ok _ => none

/-- The identifier, size and bytes read through the entry pointer that
`lru_cache_get(cache, id)` returns; `none` for `NULL` or a fault. -/
def get_entry (cache : lru_cache) (id : Nat) : Option (Nat × Nat × List Byte) :=
  match lru_cache_get cache id with
  | .ok (some k, c) => some (entry_id c k, entry_size c k, entry_bytes c k)
  | _ => none

/-- The identifier of the slot at the tail of the usage list. -/
def tail_id (cache : lru_cache) : Option Nat :=
  cache.tail.map (entry_id cache)

/-- Three puts with ascending identifiers. -/
def ascending_puts : List CacheOp :=
  [.put 1 "AA".toList 2, .put 3 "BB".toList 2, .put 5 "CC".toList 2]

/-- Three puts with descending identifiers. -/
def descending_puts : List CacheOp :=
  [.put 5 "CC".toList 2, .put 3 "BB".toList 2, .put 1 "AA".toList 2]

/-! ### Well-formed caches -/

/-- The slot at position `k` of an array of slots. -/
def slot_at (blocks : List block) (k : Nat) : block := blocks.getD k (block_init 0 0)

/-- The filled slots `[0, cur_blocks)` hold strictly ascending identifiers. -/
def ids_ascending (cache : lru_cache) : Prop :=
  (array_ids cache).Pairwise (fun a b => a < b)

instance (cache : lru_cache) : Decidable (ids_ascending cache) := by
  unfold ids_ascending; infer_instance

/-- The number of resident identifiers smaller than `id`. -/
def rank (cache : lru_cache) (id : Nat) : Nat :=
  ((array_ids cache).filter (fun x => x < id)).length

/-- The usage list of the cache visits exactly the slots `order`, most
recently used first: `head` is the first and `tail` the last of them, `next`
leads from each to the following one (and is `NULL` at the last), `previous`
leads back (and is `NULL` at the first), and no slot occurs twice. -/
def Linked (cache : lru_cache) (order : List Nat) : Prop :=
  order.Nodup ∧ cache.head = order.head? ∧ cache.tail = order.getLast? ∧
  ∀ k, k < order.length →
    order.getD k 0 < cache.blocks.length ∧
    (blk_at cache (order.getD k 0)).next = order[k + 1]? ∧
    (blk_at cache (order.getD k 0)).previous = (if k = 0 then none else order[k - 1]?)

instance (cache : lru_cache) (order : List Nat) : Decidable (Linked cache order) := by
  unfold Linked; infer_instance

/-- The storage regions of the slots: each slot owns `block_size` bytes inside
the arena, holds at most that many, and no two slots share a byte. -/
def regions_ok (cache : lru_cache) : Prop :=
  ∀ k, k < cache.blocks.length →
    (blk_at cache k).payload.data + cache.block_size ≤ cache.arena.length ∧
    (blk_at cache k).payload.size ≤ cache.block_size ∧
    ∀ j, j < cache.blocks.length → j ≠ k →
      (blk_at cache k).payload.data + cache.block_size ≤ (blk_at cache j).payload.data ∨
      (blk_at cache j).payload.data + cache.block_size ≤ (blk_at cache k).payload.data

instance (cache : lru_cache) : Decidable (regions_ok cache) := by
  unfold regions_ok; infer_instance

/-- The cache the calls `ops` lead to from `cache`; `cache` itself when one of
them faults. -/
def cache_after (cache : lru_cache) (ops : List CacheOp) : lru_cache :=
  match cache_run cache ops with
  | .ok c => c
  | .error _ => cache

/-- The statements at the end of `lru_cache_put`, which make the slot `blk`
the head and write the identifier, the size and the bytes into it. -/
def put_write (cache : lru_cache) (blk id : Nat) (data : Option (List Byte)) (length : Nat) :
    lru_cache :=
  let c1 := { cache with head := some blk }
  let dest := (blk_at c1 blk).payload.data
  let c2 := { c1 with arena := memcpy c1.arena dest (data.getD []) length }
  let c3 := set_payload c2 blk { (blk_at c2 blk).payload with id := id }
  set_payload c3 blk { (blk_at c3 blk).payload with size := length }

/-- The statement `if (blocks[k].previous != NULL) blocks[k].previous->next = &blocks[k];`
of the shifting loops. -/
def relink_previous (cache : lru_cache) (k : Nat) : lru_cache :=
  match (blk_at cache k).previous with
  | some p => set_next cache p (some k)
  | none => cache

/-- The statement `if (blocks[k].next != NULL) blocks[k].next->previous = &blocks[k];`
of the shifting loops. -/
def relink_next (cache : lru_cache) (k : Nat) : lru_cache :=
  match (blk_at cache k).next with
  | some n => set_previous cache n (some k)
  | none => cache

/-- The two statements of the shifting loops that redirect `head` and `tail`
from the slot `src` to the slot `dst`. -/
def realias (cache : lru_cache) (dst src : Nat) : lru_cache :=
  let c4 := if cache.head = some src then { cache with head := some dst } else cache
  if c4.tail = some src then { c4 with tail := some dst } else c4

/-- Two states agree in everything but the links, the payloads, `head` and
`tail`: the counters, the block size, the arena and the number of slots. -/
def same_frame (c d : lru_cache) : Prop :=
  d.cur_blocks = c.cur_blocks ∧ d.max_blocks = c.max_blocks ∧ d.block_size = c.block_size ∧
    d.arena = c.arena ∧ d.blocks.length = c.blocks.length

/-- The facts about the counters that hold in every state a sequence of calls
reaches from a new cache. -/
def counters_ok (cache : lru_cache) : Prop :=
  cache.blocks.length = cache.max_blocks ∧ cache.cur_blocks ≤ cache.max_blocks ∧
    (0 < cache.cur_blocks → cache.head.isSome)

instance (cache : lru_cache) : Decidable (counters_ok cache) := by
  unfold counters_ok; infer_instance

/-- The statement `if (block->previous != NULL) block->previous->next = block->next;`. -/
def unlink_previous (cache : lru_cache) (blk : Nat) : lru_cache :=
  match (blk_at cache blk).previous with
  | some p => set_next cache p (blk_at cache blk).next
  | none => cache

/-- The statement `if (block->next != NULL) block->next->previous = block->previous;`. -/
def unlink_next (cache : lru_cache) (blk : Nat) : lru_cache :=
  match (blk_at cache blk).next with
  | some n => set_previous cache n (blk_at cache blk).previous
  | none => cache

/-- The statement `if (block == cache->tail) cache->tail = block->previous;`. -/
def retail (cache : lru_cache) (blk : Nat) : lru_cache :=
  if some blk = cache.tail then { cache with tail := (blk_at cache blk).previous } else cache

/-- A full cache of three slots of four bytes: identifiers 1, 3, 5 in the
slots 0, 1, 2, put in this order, so that the usage list is 2, 1, 0. -/
def sample_full : lru_cache := cache_after (cache_new 3 4) ascending_puts

/-- A cache of four slots of four bytes that holds the identifiers 1 and 5. -/
def sample_free : lru_cache :=
  cache_after (cache_new 4 4) [.put 1 "AA".toList 2, .put 5 "CC".toList 2]
/-! ### More vocabulary for the buffer -/

/-- The invariant `0 ≤ offset ≤ size` of the data model, for fields of type
`ulong`. -/
def buf.offset_ok (b : buf) : Prop := b.offset ≤ b.size ∧ b.size < ULONG_MOD

instance (b : buf) : Decidable b.offset_ok := by
  unfold buf.offset_ok; infer_instance

/-- The invariant `0 ≤ offset ≤ size` behind a buffer handle; a `NULL` handle
has nothing to violate. -/
def handle_ok : Option buf → Prop
  | none => True
  | some b => b.offset_ok

/-- A buffer holding "HELLO" of which "HEL" has been consumed. -/
def hello_taken_buf : buf := { data := some "HELLO".toList, size := 5, offset := 3 }

/-- A buffer of 32 MiB of which 16 MiB have been consumed. -/
def half_taken_buf : buf :=
  { data := some (List.replicate 33554432 'x'), size := 33554432, offset := 16777216 }
/-! ### Caches in intended use -/

/-- The state of a cache as the intended use keeps it, with the slots of its
usage list in `order`, most recently used first: there are `max_blocks` slots
of which at most `cur_blocks` are filled, the filled slots hold strictly
ascending identifiers, the usage list is a well-formed doubly linked list over
exactly the filled slots, the storage regions of all slots are disjoint parts
of the arena, and the slots that were never filled still have the `NULL`
links that `lru_cache_init` gave them. -/
structure well_formed (c : lru_cache) (order : List Nat) : Prop where
  slots : c.blocks.length = c.max_blocks
  filled : c.cur_blocks ≤ c.max_blocks
  ascending : ids_ascending c
  linked : Linked c order
  covers : ∀ x, x ∈ order ↔ x < c.cur_blocks
  regions : regions_ok c
  unused : ∀ k, c.cur_blocks ≤ k → (blk_at c k).next = none ∧ (blk_at c k).previous = none
/-! ### Sequences of calls in intended use -/

/-- The `memcpy` of a put reads `length` bytes, so its source holds at least
that many. -/
def CacheOp.readable : CacheOp → Prop
  | .put _ data length => length ≤ data.length
  | .get _ => True

/-- The precondition `length ≤ block_size` of a put. -/
def CacheOp.fits (block_size : Nat) : CacheOp → Prop
  | .put _ _ length => length ≤ block_size
  | .get _ => True

instance (op : CacheOp) : Decidable op.readable := by
  cases op <;> unfold CacheOp.readable <;> infer_instance

instance (block_size : Nat) (op : CacheOp) : Decidable (op.fits block_size) := by
  cases op <;> unfold CacheOp.fits <;> infer_instance

/-- A call respects the ascending use of the cache: a put brings an identifier
that a filled slot holds already, or one greater than every identifier held. -/
def CacheOp.ascends (cache : lru_cache) : CacheOp → Prop
  | .put id _ _ => id ∈ array_ids cache ∨ ∀ x ∈ array_ids cache, x < id
  | .get _ => True

instance (cache : lru_cache) (op : CacheOp) : Decidable (op.ascends cache) := by
  cases op <;> unfold CacheOp.ascends <;> infer_instance

/-- Every put of the sequence that brings an identifier no filled slot holds
brings one greater than every identifier held at that moment. -/
def ascending_new : lru_cache → List CacheOp → Prop
  | _, [] => True
  | cache, op :: ops =>
    op.ascends cache ∧
    (match cache_step cache op with
      | .ok c => ascending_new c ops
      | .error _ => True)

/-- Decides `ascending_new` by running the sequence. -/
def decAscending : (cache : lru_cache) → (ops : List CacheOp) →
    Decidable (ascending_new cache ops)
  | _, [] => isTrue trivial
  | cache, op :: ops =>
    if h1 : op.ascends cache then
      match h : cache_step cache op with
      | .ok c =>
        match decAscending c ops with
        | isTrue h2 => isTrue ⟨h1, by rw [h]; exact h2⟩
        | isFalse h2 => isFalse (fun hh => h2 (by have := hh.2; rw [h] at this; exact this))
      | .error _ => isTrue ⟨h1, by rw [h]; trivial⟩
    else isFalse (fun hh => h1 hh.1)

instance (cache : lru_cache) (ops : List CacheOp) : Decidable (ascending_new cache ops) :=
  decAscending cache ops

/-- The identifier a call touches: a put touches its identifier, a get touches
it when it returns an entry. -/
def touch_of (cache : lru_cache) : CacheOp → List Nat
  | .put id _ _ => [id]
  | .get id => if get_hits cache id = some true then [id] else []

/-- The identifiers the calls `ops` touch when made on `cache`, oldest first. -/
def touches : lru_cache → List CacheOp → List Nat
  | _, [] => []
  | cache, op :: ops =>
    touch_of cache op ++
    (match cache_step cache op with
      | .ok c => touches c ops
      | .error _ => [])

/-- The identifiers of the puts of a sequence, in call order. -/
def put_ids : List CacheOp → List Nat
  | [] => []
  | .put id _ _ :: ops => id :: put_ids ops
  | .get _ :: ops => put_ids ops
/-- The calls of the worked example with three blocks of eight bytes: the puts
0, 1, 2, a get of 0, and the put 3. -/
def scenario_ops : List CacheOp :=
  [.put 0 "AAAAAAAA".toList 8, .put 1 "BBBBBBBB".toList 8, .put 2 "CCCCCCCC".toList 8,
   .get 0, .put 3 "DDDDDDDD".toList 8]

/-- The cache at the end of the worked example. -/
def scenario_cache : lru_cache := cache_after (cache_new 3 8) scenario_ops
/-! ## deltamodule.c: the callback that supplies blocks of the source

The callback `get_source_block` reads the source file through the `read`
method of a Python object and keeps the blocks in the cache.  The Python
runtime is outside the program: a file object is the sequence of the results
of its `read` calls, a result being `NULL` (the call raised) or an object, and
an object is a string with its bytes or something else.  The result code
`XD3_TOOFARBACK` is a macro of `xdelta3.h`, whose value is a parameter here. -/

/-- The capacity of the cache of source blocks. -/
def MAX_SOURCE_BLOCKS : Nat := 32

/-- A Python object as far as the callback looks at it. -/
inductive PyObject where
  /-- A string object with its bytes. -/
  | str (bytes : List Byte)
  /-- An object that is not a string. -/
  | other
deriving DecidableEq, Repr

/-- The macro `PyString_Check`. -/
def PyString_Check : PyObject → Bool
  | .str _ => true
  | .other => false

/-- The function `PyString_AsStringAndSize(obj, &bytes, &length)`: the bytes
and the length it stores, `none` when it returns -1. -/
def PyString_AsStringAndSize : PyObject → Option (List Byte × Nat)
  | .str bytes => some (bytes, bytes.length)
  | .other => none

/-- A file object: what its `read` method returns at the first, second, ...
call (`none` for `NULL`).  All calls of the callback pass the same
`max_length`. -/
abbrev PyFile := Nat → Option PyObject

/-- The function `read_from_file(file, offset, max_length)`, called when the
file object has served `calls` reads: the returned object, `none` for `NULL`. -/
def read_from_file (file : PyFile) (calls : Nat) : Option PyObject :=
  match file calls with
  | none => none
  | some block => if PyString_Check block then some block else none

/-- The fields of `xd3_source` that the callback writes. -/
structure xd3_source where
  curblkno : Nat
  onblk : Nat
  curblk : Nat
deriving DecidableEq, Repr

/-- The variables that the loop of `get_source_block` changes: the cache, the
pointer `entry` (the slot it points to), and the number of `read` calls the
file object has served; `puts` records the calls of `lru_cache_put` made so
far, in order. -/
structure source_walk where
  cache : lru_cache
  entry : Option Nat
  reads : Nat
  puts : List CacheOp
deriving DecidableEq, Repr

/-- The loop `for (; id <= block; id++)` of `get_source_block`, run for at most
the given number of iterations. -/
def source_loop (file : PyFile) (block : Nat) : Nat → Nat → source_walk → Except Fault source_walk
  | 0, id, w => if id ≤ block then .error .fuel else .ok w
  | fuel + 1, id, w =>
    if id ≤ block then
      -- data = read_from_file(source->ioh, -1, SOURCE_BLOCK_SIZE);
      match read_from_file file w.reads with
      | some data =>
        -- if (PyString_AsStringAndSize(data, &bytes, &length) == -1) break;
        match PyString_AsStringAndSize data with
        | none => .ok { w with reads := w.reads + 1 }
        | some (bytes, length) =>
          -- entry = lru_cache_put(cache, id, bytes, (ulong) length);
          match lru_cache_put w.cache id (some bytes) length with
          | .error e => .error e
          | .ok (k, c) =>
            source_loop file block fuel (uadd id 1)
              { cache := c, entry := some k, reads := w.reads + 1,
                puts := w.puts ++ [.put id bytes length] }
      -- else break;
      | none => .ok { w with reads := w.reads + 1 }
    else .ok w

/-- What a call of `get_source_block` leaves behind: the returned `int`, the
cache, the written fields of `*source`, the number of `read` calls the file
object has served, and the calls of `lru_cache_put` that were made, in order. -/
structure source_result where
  code : Int
  cache : lru_cache
  source : xd3_source
  reads : Nat
  puts : List CacheOp
deriving DecidableEq, Repr

/-- The function `get_source_block(stream, source, block)` for the cache
`cache` of the stream and the file object `source->ioh`, which has served
`reads` calls; the loop runs for at most `fuel` iterations. -/
def get_source_block (XD3_TOOFARBACK : Int) (fuel : Nat) (file : PyFile) (reads : Nat)
    (cache : lru_cache) (source : xd3_source) (block : Nat) : Except Fault source_result :=
  -- const lru_cache_entry_t *entry = lru_cache_get(cache, (ulong) block);
  match lru_cache_get cache block with
  | .error e => .error e
  | .ok (entry0, c0) =>
    let walked : Except Fault source_walk :=
      match entry0 with
      | none =>
        -- recent = lru_cache_last(cache); id = (recent != NULL) ? recent->id + 1 : 0;
        let id := match lru_cache_last c0 with
          | some recent => uadd (entry_id c0 recent) 1
          | none => 0
        match source_loop file block fuel id
            { cache := c0, entry := none, reads := reads, puts := [] } with
        | .error e => .error e
        | .ok w =>
          -- if ((entry != NULL) && (entry->id != block)) entry = NULL;
          match w.entry with
          | some k => if entry_id w.cache k ≠ block then .ok { w with entry := none } else .ok w
          | none => .ok w
      | some k => .ok { cache := c0, entry := some k, reads := reads, puts := [] }
    match walked with
    | .error e => .error e
    | .ok w =>
      match w.entry with
      | some k =>
        -- source->curblkno = entry->id; source->onblk = entry->size;
        -- source->curblk = (uint8_t *) entry->data; return 0;
        .ok { code := 0, cache := w.cache,
              source := { curblkno := entry_id w.cache k, onblk := entry_size w.cache k,
                          curblk := (blk_at w.cache k).payload.data },
              reads := w.reads, puts := w.puts }
      -- return XD3_TOOFARBACK;
      | none => .ok { code := XD3_TOOFARBACK, cache := w.cache, source := source,
                      reads := w.reads, puts := w.puts }

/-! ### Vocabulary for the callback -/

/-- The bytes of the string that the `read` call number `k` returns; none when
it returns no string. -/
def read_bytes (file : PyFile) (k : Nat) : List Byte :=
  match file k with
  | some (.str bytes) => bytes
  | _ => []

/-- The puts of `j` consecutive blocks, the first with the identifier `id`,
each with the bytes of one `read` call, the first of them call number `reads`. -/
def source_puts (file : PyFile) : Nat → Nat → Nat → List CacheOp
  | _, _, 0 => []
  | reads, id, j + 1 =>
    .put id (read_bytes file reads) (read_bytes file reads).length ::
      source_puts file (reads + 1) (id + 1) j

/-- Every call of the sequence is a put that returns, brings an identifier
greater than every identifier held at that moment, and puts it into the last
slot of the filled prefix. -/
def appends_at_end : lru_cache → List CacheOp → Prop
  | _, [] => True
  | c, .put id data length :: ops =>
    (∀ x ∈ array_ids c, x < id) ∧
    (match lru_cache_put c id (some data) length with
      | .ok (k, c1) => k + 1 = c1.cur_blocks ∧ entry_id c1 k = id ∧ appends_at_end c1 ops
      | .error _ => False)
  | _, .get _ :: _ => False

/-- A file object that has reached the end of its data: every `read` returns
the empty string. -/
def file_at_end : PyFile := fun _ => some (.str [])

/-- A file object whose `read` raises. -/
def file_failing : PyFile := fun _ => none

/-- A file object that holds "AAAA" and "BB" and then raises. -/
def file_two : PyFile := fun k =>
  if k = 0 then some (.str "AAAA".toList) else if k = 1 then some (.str "BB".toList) else none

/-- Some values of the fields of `xd3_source` before a call. -/
def source_zero : xd3_source := { curblkno := 0, onblk := 0, curblk := 0 }
/-- What the loop of `get_source_block` has done when it leaves the state `w`,
entered with the identifier `id`, as the state `w'` after `j` puts: the first
`j` reads returned strings, the loop ended because `block` was reached or
because the next read returned no string, the cache went through the `j` puts
of consecutive identifiers, each at the end of the filled prefix, and `entry`
points to the block put last. -/
structure walked (file : PyFile) (block id : Nat) (w w' : source_walk) (j : Nat) : Prop where
  bound : id + j ≤ block + 1
  good : ∀ k, k < j → file (w.reads + k) = some (.str (read_bytes file (w.reads + k)))
  stop : id + j ≤ block → read_from_file file (w.reads + j) = none
  max_eq : w'.cache.max_blocks = w.cache.max_blocks
  size_eq : w'.cache.block_size = w.cache.block_size
  puts_eq : w'.puts = w.puts ++ source_puts file w.reads id j
  reads_eq : w'.reads = w.reads + j + (if id + j ≤ block then 1 else 0)
  run_eq : cache_run w.cache (source_puts file w.reads id j) = .ok w'.cache
  at_end : appends_at_end w.cache (source_puts file w.reads id j)
  above : ∀ x ∈ array_ids w'.cache, x < id + j
  none_put : j = 0 → w'.entry = w.entry ∧ w'.cache = w.cache
  last_put : 0 < j → ∃ k, w'.entry = some k ∧ k + 1 = w'.cache.cur_blocks ∧
    entry_id w'.cache k = id + j - 1 ∧
    entry_size w'.cache k = (read_bytes file (w.reads + j - 1)).length ∧
    entry_bytes w'.cache k = read_bytes file (w.reads + j - 1)

/-- The identifier the loop of `get_source_block` starts with: the identifier
in the last filled slot plus one, or 0 for an empty cache. -/
def next_id (c : lru_cache) : Nat :=
  match lru_cache_last c with
  | some recent => entry_id c recent + 1
  | none => 0

/-- Successive calls of `get_source_block` on one stream, for the listed
blocks: the results of the calls, in order. -/
def source_calls (XD3_TOOFARBACK : Int) (fuel : Nat) (file : PyFile) :
    Nat → lru_cache → xd3_source → List Nat → Except Fault (List source_result)
  | _, _, _, [] => .ok []
  | reads, cache, source, block :: blocks =>
    match get_source_block XD3_TOOFARBACK fuel file reads cache source block with
    | .error e => .error e
    | .ok r =>
      match source_calls XD3_TOOFARBACK fuel file r.reads r.cache r.source blocks with
      | .error e => .error e
      | .ok rs => .ok (r :: rs)

/-- In a sequence of calls of `get_source_block` that starts with the cache
`c`, every put is a put at the end of the filled prefix of the cache of its
moment, and the identifiers put by one call are consecutive, the first being
the identifier after the last filled slot (0 for an empty cache). -/
def calls_append (file : PyFile) : Nat → lru_cache → List source_result → Prop
  | _, _, [] => True
  | reads, c, r :: rs =>
    appends_at_end c r.puts ∧ (∃ j, r.puts = source_puts file reads (next_id c) j) ∧
    calls_append file r.reads r.cache rs
/-! ### Well-formed buffers -/

theorem usub_of_le {a b : Nat} (h : b ≤ a) (ha : a < ULONG_MOD) : usub a b = a - b := by
  unfold usub
  have hb : b % ULONG_MOD = b := Nat.mod_eq_of_lt (lt_of_le_of_lt h ha)
  rw [hb]
  have : a + ULONG_MOD - b = (a - b) + ULONG_MOD := by omega
  rw [this, Nat.add_mod_right]
  exact Nat.mod_eq_of_lt (by omega)

theorem uadd_of_lt {a b : Nat} (h : a + b < ULONG_MOD) : uadd a b = a + b :=
  Nat.mod_eq_of_lt h

theorem malloc_length (n : Nat) : (malloc n).length = n := by
  simp [malloc]

theorem realloc_grow (d : List Byte) (n : Nat) :
    realloc (some d) (d.length + n) = d ++ malloc n := by
  simp [realloc, malloc, List.take_append_eq_append_take, List.take_replicate]

theorem realloc_null (n : Nat) : realloc none n = malloc n := by
  simp [realloc, malloc]

theorem memcpy_at_end (d fill src : List Byte) (n : Nat) (hf : fill.length = n) :
    memcpy (d ++ fill) d.length src n = d ++ src.take n := by
  simp [memcpy, List.take_append_eq_append_take, List.drop_append_eq_append_drop, hf]

theorem memcpy_at_start (dest src : List Byte) (n : Nat) :
    memcpy dest 0 src n = src.take n ++ dest.drop n := by
  simp [memcpy]

theorem realloc_extend (p : Option (List Byte)) (n : Nat) :
    realloc p ((p.getD []).length + n) = p.getD [] ++ malloc n := by
  cases p with
  | none => simp [realloc_null]
  | some d => simpa using realloc_grow d n

/-- What a successful append of `len` bytes does to a well-formed buffer: the
unconsumed bytes gain `data[0 .. len)` at the end. -/
theorem buffer_append_wf (calloc_ok : Bool) (b : buf) (data : List Byte) (len : Nat)
    (hwf : b.wf) (hlen : len ≤ data.length) (hsz : b.size + len < ULONG_MOD) :
    ∃ b1, buffer_append calloc_ok true (some (some b)) data len = (1, some (some b1)) ∧
      b1.wf ∧ live (some b1) = live (some b) ++ data.take len ∧ b1.offset ≤ b.offset := by
  obtain ⟨hos, hsM, hdl⟩ := hwf
  by_cases h0 : len = 0
  · subst h0
    exact ⟨b, by simp [buffer_append], ⟨hos, hsM, hdl⟩, by simp, le_refl _⟩
  · by_cases hg : b.offset < MIN_WASTEAGE ∨ (b.offset < MAX_WASTEAGE ∧ b.offset > b.size >>> 2)
    · have key : memcpy (realloc b.data (b.size + len)) b.size data len
          = b.data.getD [] ++ data.take len := by
        have h1 := realloc_extend b.data len
        have h2 := memcpy_at_end (b.data.getD []) (malloc len) data len (malloc_length len)
        rw [hdl] at h1 h2
        rw [h1, h2]
      refine ⟨{ data := some (b.data.getD [] ++ data.take len), size := b.size + len,
                offset := b.offset }, ?_, ⟨?_, ?_, ?_⟩, ?_, le_refl _⟩
      · simp only [buffer_append, ne_eq, h0, not_false_eq_true, if_true, hg,
          uadd_of_lt hsz, key]
      · show b.offset ≤ b.size + len
        omega
      · exact hsz
      · simp [hdl, hlen]
      · simp only [live, Option.getD_some]
        rw [List.drop_append_of_le_length (by omega)]
    · have hrem : usub b.size b.offset = b.size - b.offset := usub_of_le hos hsM
      have hsum : uadd (b.size - b.offset) len = b.size - b.offset + len :=
        uadd_of_lt (by omega)
      have hdrop : ((b.data.getD []).drop b.offset).length = b.size - b.offset := by
        simp [hdl]
      have key : memcpy (memcpy (malloc (b.size - b.offset + len)) 0
          ((b.data.getD []).drop b.offset) (b.size - b.offset)) (b.size - b.offset) data len
          = (b.data.getD []).drop b.offset ++ data.take len := by
        rw [memcpy_at_start]
        have e1 : List.take (b.size - b.offset) (List.drop b.offset (b.data.getD []))
            = List.drop b.offset (b.data.getD []) := List.take_of_length_le (by omega)
        have e2 : List.drop (b.size - b.offset) (malloc (b.size - b.offset + len))
            = malloc len := by
          simp [malloc, List.drop_replicate]
        rw [e1, e2]
        have := memcpy_at_end ((b.data.getD []).drop b.offset) (malloc len) data len
          (malloc_length len)
        rw [hdrop] at this
        exact this
      refine ⟨{ data := some ((b.data.getD []).drop b.offset ++ data.take len),
                size := b.size - b.offset + len, offset := 0 }, ?_, ⟨?_, ?_, ?_⟩, ?_,
              Nat.zero_le _⟩
      · simp only [buffer_append, ne_eq, h0, not_false_eq_true, if_true, hg, if_false,
          hrem, hsum, key]
      · exact Nat.zero_le _
      · show b.size - b.offset + len < ULONG_MOD
        omega
      · simp [hdl, hlen]
      · simp only [live, Option.getD_some, List.drop_zero]

/-- What a take of `len` bytes does to a well-formed buffer: it returns
`min (size - offset) len`, hands out that many unconsumed bytes from the front
and leaves the rest. -/
theorem buffer_take_wf (b : buf) (dest : List Byte) (len : Nat) (hwf : b.wf) :
    ∃ b1, (buffer_take (some b) dest len).2.2 = some b1 ∧ b1.wf ∧
      (buffer_take (some b) dest len).1 = min (b.size - b.offset) len ∧
      (buffer_take (some b) dest len).2.1.take (buffer_take (some b) dest len).1
        = (live (some b)).take (buffer_take (some b) dest len).1 ∧
      live (some b1) = (live (some b)).drop (buffer_take (some b) dest len).1 ∧
      b1.offset ≤ b.offset + (buffer_take (some b) dest len).1 := by
  obtain ⟨hos, hsM, hdl⟩ := hwf
  cases hd : b.data with
  | none =>
    have hs0 : b.size = 0 := by rw [← hdl, hd]; rfl
    refine ⟨b, by simp [buffer_take, hd], ⟨hos, hsM, hdl⟩, ?_, ?_, ?_, ?_⟩
    · simp [buffer_take, hd, hs0]
    · simp [buffer_take, hd]
    · simp [buffer_take, hd, live]
    · simp [buffer_take, hd]
  | some d =>
    have hdl1 : d.length = b.size := by rw [← hdl, hd]; rfl
    have hrem : usub b.size b.offset = b.size - b.offset := usub_of_le hos hsM
    have htk : (if b.size - b.offset < len then b.size - b.offset else len)
        = min (b.size - b.offset) len := by
      split <;> omega
    have hadd : uadd b.offset (min (b.size - b.offset) len)
        = b.offset + min (b.size - b.offset) len := uadd_of_lt (by omega)
    have hcopy : (memcpy dest 0 (d.drop b.offset) (min (b.size - b.offset) len)).take
        (min (b.size - b.offset) len) = (d.drop b.offset).take (min (b.size - b.offset) len) := by
      rw [memcpy_at_start]
      apply List.take_left'
      simp [hdl1]
    by_cases hfull : b.offset + min (b.size - b.offset) len = b.size
    · have hr : buffer_take (some b) dest len = (min (b.size - b.offset) len,
          memcpy dest 0 (d.drop b.offset) (min (b.size - b.offset) len),
          some { data := none, size := 0, offset := 0 }) := by
        simp only [buffer_take, hd, hrem, htk, hadd, hfull, if_true]
      rw [hr]
      refine ⟨_, rfl, ⟨le_refl _, by decide, rfl⟩, rfl, ?_, ?_, Nat.zero_le _⟩
      · simpa [live, hd] using hcopy
      · simp only [live, hd, Option.getD_some, Option.getD_none, List.drop_nil, List.drop_drop]
        symm
        apply List.drop_of_length_le
        omega
    · have hr : buffer_take (some b) dest len = (min (b.size - b.offset) len,
          memcpy dest 0 (d.drop b.offset) (min (b.size - b.offset) len),
          some { data := some d, size := b.size,
                 offset := b.offset + min (b.size - b.offset) len }) := by
        simp only [buffer_take, hd, hrem, htk, hadd, hfull, if_false]
      rw [hr]
      refine ⟨_, rfl, ⟨?_, hsM, hdl1⟩, rfl, ?_, ?_, le_refl _⟩
      · show b.offset + min (b.size - b.offset) len ≤ b.size
        omega
      · simpa [live, hd] using hcopy
      · simp only [live, hd, Option.getD_some, List.drop_drop]

theorem live_length (b : buf) (hwf : b.wf) : (live (some b)).length = b.size - b.offset := by
  simp [live, hwf.2.2]

theorem buffer_append_fresh (alloc_ok : Bool) (data : List Byte) (len : Nat) :
    buffer_append true alloc_ok (some none) data len
      = buffer_append true alloc_ok (some (some buf_zero)) data len := rfl

theorem buffer_append_no_calloc (alloc_ok : Bool) (data : List Byte) (len : Nat) :
    buffer_append false alloc_ok (some none) data len = (0, some none) := rfl

theorem buffer_append_no_alloc (calloc_ok : Bool) (b : buf) (data : List Byte) (len : Nat) :
    buffer_append calloc_ok false (some (some b)) data len
      = (if len ≠ 0 then 0 else 1, some (some b)) := by
  by_cases h0 : len = 0
  · simp [buffer_append, h0]
  · by_cases hg : b.offset < MIN_WASTEAGE ∨ (b.offset < MAX_WASTEAGE ∧ b.offset > b.size >>> 2)
    · simp [buffer_append, h0, hg]
    · simp only [buffer_append, ne_eq, h0, not_false_eq_true, if_true, hg, if_false]
      simp

theorem buf_zero_wf : buf_zero.wf := by decide

theorem BufTrace.init_inv : BufTrace.init.Inv := by
  constructor
  · intro b hb; cases hb
  · rfl

theorem BufTrace.size_le (t : BufTrace) (h : t.Inv) (b : buf) (hb : t.buffer = some b) :
    b.size ≤ t.appended.length := by
  obtain ⟨hwf, hoff⟩ := h.1 b hb
  have h2 := congrArg List.length h.2
  rw [hb, List.length_append, live_length b hwf] at h2
  have := hwf.1
  omega

theorem BufTrace.append_inv (t : BufTrace) (h : t.Inv) (b : buf) (b1 : buf)
    (data : List Byte) (len : Nat)
    (hb : live t.buffer = live (some b))
    (hwf : b1.wf) (hlive : live (some b1) = live (some b) ++ data.take len)
    (hoff : b1.offset ≤ t.taken.length) :
    BufTrace.Inv { buffer := some b1, appended := t.appended ++ data.take len,
                   taken := t.taken } := by
  constructor
  · intro b2 hb2
    cases hb2
    exact ⟨hwf, hoff⟩
  · show t.taken ++ live (some b1) = t.appended ++ data.take len
    rw [hlive, ← h.2, hb, List.append_assoc]

/-- One call keeps the trace invariant, and the appended bytes grow by at most
the requested length. -/
theorem BufTrace.step_inv (t : BufTrace) (op : BufOp) (h : t.Inv) (hop : op.wellFormed)
    (hsz : buf_size t.buffer + op.appendLen < ULONG_MOD) :
    (t.step op).Inv ∧ (t.step op).appended.length ≤ t.appended.length + op.appendLen := by
  cases op with
  | take len =>
    cases hbuf : t.buffer with
    | none =>
      have hs : t.step (.take len) =
          { buffer := none, appended := t.appended, taken := t.taken ++ [] } := by
        simp [BufTrace.step, hbuf, buffer_take]
      rw [hs, List.append_nil]
      have ht : ({ buffer := none, appended := t.appended, taken := t.taken } : BufTrace) = t := by
        cases t; simp_all
      rw [ht]
      exact ⟨h, Nat.le_add_right _ _⟩
    | some b =>
      obtain ⟨hwf, hoff⟩ := h.1 b hbuf
      obtain ⟨b1, h1, hwf1, hcnt, hcopy, hlive, hoff1⟩ := buffer_take_wf b (malloc len) len hwf
      have hll := live_length b hwf
      refine ⟨⟨?_, ?_⟩, Nat.le_add_right _ _⟩
      · intro b2 hb2
        simp only [BufTrace.step, hbuf, h1] at hb2
        cases hb2
        refine ⟨hwf1, ?_⟩
        simp only [BufTrace.step, hbuf, hcopy, List.length_append, List.length_take, hll]
        omega
      · simp only [BufTrace.step, hbuf, h1, hcopy, hlive, List.append_assoc,
          List.take_append_drop]
        rw [← hbuf]
        exact h.2
  | append calloc_ok alloc_ok data len =>
    have hlen : len ≤ data.length := hop
    have hsz1 : buf_size t.buffer + len < ULONG_MOD := hsz
    cases hbuf : t.buffer with
    | none =>
      rw [hbuf] at hsz1
      simp only [buf_size] at hsz1
      cases calloc_ok with
      | false =>
        have hs : t.step (.append false alloc_ok data len) = t := by
          cases t
          simp_all [BufTrace.step, buffer_append_no_calloc]
        rw [hs]
        exact ⟨h, Nat.le_add_right _ _⟩
      | true =>
        have hlive0 : live t.buffer = live (some buf_zero) := by rw [hbuf]; rfl
        cases alloc_ok with
        | false =>
          have hr := buffer_append_no_alloc true buf_zero data len
          rw [← buffer_append_fresh] at hr
          by_cases h0 : len = 0
          · subst h0
            have hs : t.step (.append true false data 0) =
              { buffer := some buf_zero, appended := t.appended ++ data.take 0, taken := t.taken } := by
              simp [BufTrace.step, hbuf, hr]
            rw [hs]
            exact ⟨BufTrace.append_inv t h buf_zero buf_zero data 0 hlive0 buf_zero_wf
              (by simp) (Nat.zero_le _), by simp⟩
          · have hs : t.step (.append true false data len) =
              { buffer := some buf_zero, appended := t.appended, taken := t.taken } := by
              simp [BufTrace.step, hbuf, hr, h0]
            rw [hs]
            refine ⟨⟨?_, ?_⟩, Nat.le_add_right _ _⟩
            · intro b2 hb2
              cases hb2
              exact ⟨buf_zero_wf, Nat.zero_le _⟩
            · have := h.2
              rw [hbuf] at this
              simpa [live, buf_zero] using this
        | true =>
          obtain ⟨b1, h1, hwf1, hlive1, hoff1⟩ := buffer_append_wf true buf_zero data len
            buf_zero_wf hlen (by simp only [buf_zero]; omega)
          rw [← buffer_append_fresh] at h1
          have hs : t.step (.append true true data len) =
              { buffer := some b1, appended := t.appended ++ data.take len, taken := t.taken } := by
            simp [BufTrace.step, hbuf, h1]
          rw [hs]
          refine ⟨BufTrace.append_inv t h buf_zero b1 data len hlive0 hwf1 hlive1 ?_, ?_⟩
          · have : b1.offset ≤ 0 := hoff1
            omega
          · simp [hlen, BufOp.appendLen]
    | some b =>
      obtain ⟨hwf, hoff⟩ := h.1 b hbuf
      rw [hbuf] at hsz1
      simp only [buf_size] at hsz1
      have hlive0 : live t.buffer = live (some b) := by rw [hbuf]
      cases alloc_ok with
      | false =>
        have hr := buffer_append_no_alloc calloc_ok b data len
        by_cases h0 : len = 0
        · subst h0
          have hs : t.step (.append calloc_ok false data 0) =
              { buffer := some b, appended := t.appended ++ data.take 0, taken := t.taken } := by
            simp [BufTrace.step, hbuf, hr]
          rw [hs]
          exact ⟨BufTrace.append_inv t h b b data 0 hlive0 hwf (by simp) hoff, by simp⟩
        · have hs : t.step (.append calloc_ok false data len) = t := by
            cases t
            simp_all [BufTrace.step]
          rw [hs]
          exact ⟨h, Nat.le_add_right _ _⟩
      | true =>
        obtain ⟨b1, h1, hwf1, hlive1, hoff1⟩ := buffer_append_wf calloc_ok b data len
          hwf hlen (by omega)
        have hs : t.step (.append calloc_ok true data len) =
              { buffer := some b1, appended := t.appended ++ data.take len, taken := t.taken } := by
          simp [BufTrace.step, hbuf, h1]
        rw [hs]
        refine ⟨BufTrace.append_inv t h b b1 data len hlive0 hwf1 hlive1 (by omega), ?_⟩
        simp [hlen, BufOp.appendLen]

theorem BufTrace.run_inv (ops : List BufOp) : ∀ (t : BufTrace), t.Inv →
    (∀ op ∈ ops, op.wellFormed) → t.fits ops → (t.run ops).Inv := by
  induction ops with
  | nil => intro t h _ _; exact h
  | cons op ops ih =>
    intro t h hwf hfit
    obtain ⟨hinv, -⟩ := BufTrace.step_inv t op h (hwf op (List.mem_cons_self _ _)) hfit.1
    exact ih (t.step op) hinv (fun o ho => hwf o (List.mem_cons_of_mem _ ho)) hfit.2

/-- When its allocations succeed an append is recorded with all its bytes. -/
theorem BufTrace.step_appended (t : BufTrace) (op : BufOp) (h : t.Inv) (hop : op.wellFormed)
    (hok : op.allocOk) (hsz : buf_size t.buffer + op.appendLen < ULONG_MOD) :
    (t.step op).appended = t.appended ++ op.bytes := by
  cases op with
  | take len => simp [BufTrace.step, BufOp.bytes]
  | append calloc_ok alloc_ok data len =>
    obtain ⟨hc, ha⟩ := hok
    subst hc ha
    have hlen : len ≤ data.length := hop
    have hsz1 : buf_size t.buffer + len < ULONG_MOD := hsz
    cases hbuf : t.buffer with
    | none =>
      rw [hbuf] at hsz1
      simp only [buf_size] at hsz1
      obtain ⟨b1, h1, -⟩ := buffer_append_wf true buf_zero data len
        buf_zero_wf hlen (by simp only [buf_zero]; omega)
      rw [← buffer_append_fresh] at h1
      simp [BufTrace.step, hbuf, h1, BufOp.bytes]
    | some b =>
      rw [hbuf] at hsz1
      simp only [buf_size] at hsz1
      obtain ⟨b1, h1, -⟩ := buffer_append_wf true b data len (h.1 b hbuf).1 hlen hsz1
      simp [BufTrace.step, hbuf, h1, BufOp.bytes]

theorem BufTrace.run_appended (ops : List BufOp) : ∀ (t : BufTrace), t.Inv →
    (∀ op ∈ ops, op.wellFormed) → (∀ op ∈ ops, op.allocOk) → t.fits ops →
    (t.run ops).appended = t.appended ++ allBytes ops := by
  induction ops with
  | nil => intro t _ _ _ _; simp [BufTrace.run, allBytes]
  | cons op ops ih =>
    intro t h hwf hok hfit
    have hop := hwf op (List.mem_cons_self _ _)
    obtain ⟨hinv, -⟩ := BufTrace.step_inv t op h hop hfit.1
    have hstep := BufTrace.step_appended t op h hop (hok op (List.mem_cons_self _ _)) hfit.1
    have := ih (t.step op) hinv (fun o ho => hwf o (List.mem_cons_of_mem _ ho))
      (fun o ho => hok o (List.mem_cons_of_mem _ ho)) hfit.2
    show ((t.step op).run ops).appended = _
    rw [this, hstep]
    simp [allBytes]

/-- A sequence whose appends ask for fewer than `2 ^ 64` bytes in total never
overflows `size + len`. -/
theorem BufTrace.fits_of_total (ops : List BufOp) : ∀ (t : BufTrace), t.Inv →
    (∀ op ∈ ops, op.wellFormed) → t.appended.length + totalAppendLen ops < ULONG_MOD →
    t.fits ops := by
  induction ops with
  | nil => intro t _ _ _; trivial
  | cons op ops ih =>
    intro t h hwf hsz
    have hsz1 : t.appended.length + (op.appendLen + totalAppendLen ops) < ULONG_MOD := by
      simpa [totalAppendLen] using hsz
    have hsize : buf_size t.buffer ≤ t.appended.length := by
      cases hbuf : t.buffer with
      | none => exact Nat.zero_le _
      | some b => exact BufTrace.size_le t h b hbuf
    have hfit1 : buf_size t.buffer + op.appendLen < ULONG_MOD := by omega
    obtain ⟨hinv, hlen⟩ := BufTrace.step_inv t op h (hwf op (List.mem_cons_self _ _)) hfit1
    exact ⟨hfit1, ih (t.step op) hinv (fun o ho => hwf o (List.mem_cons_of_mem _ ho))
      (by omega)⟩

/-! ### The claims about the buffer -/

/-- C2: for every sequence of appends and takes on an initially absent buffer
whose allocations all succeed (each append reading `len` bytes that its source
holds, and no `size + len` wrapping around), the bytes the takes return,
concatenated, are the prefix of the same length of the concatenation of the
bytes passed to the appends, whichever of growing in place and compacting each
append chose. -/
theorem buffer_take_fifo (ops : List BufOp) (hwf : ∀ op ∈ ops, op.wellFormed)
    (hok : ∀ op ∈ ops, op.allocOk) (hfit : BufTrace.init.fits ops) :
    (BufTrace.init.run ops).taken
      = (allBytes ops).take (BufTrace.init.run ops).taken.length := by
  have hinv := BufTrace.run_inv ops BufTrace.init BufTrace.init_inv hwf hfit
  have happ := BufTrace.run_appended ops BufTrace.init BufTrace.init_inv hwf hok hfit
  have h2 := hinv.2
  rw [happ] at h2
  have hnil : BufTrace.init.appended = [] := rfl
  rw [hnil, List.nil_append] at h2
  rw [← h2, List.take_left]

/-- C2 on the worked example: the first take returns "HEL", the second
"LO WORLD", and together they are a prefix of "HELLO WORLD". -/
theorem buffer_take_fifo_witness :
    ((∀ op ∈ hello_ops, op.wellFormed) ∧ (∀ op ∈ hello_ops, op.allocOk) ∧
      BufTrace.init.fits hello_ops) ∧
    (BufTrace.init.run (hello_ops.take 2)).taken = "HEL".toList ∧
    (BufTrace.init.run hello_ops).taken = "HEL".toList ++ "LO WORLD".toList ∧
    allBytes hello_ops = "HELLO WORLD".toList ∧
    (BufTrace.init.run hello_ops).taken
      = (allBytes hello_ops).take (BufTrace.init.run hello_ops).taken.length :=
  ⟨by decide, by decide, by decide, by decide,
    buffer_take_fifo hello_ops (by decide) (by decide) (by decide)⟩

/-- C8: after every sequence of appends and takes on an initially absent
buffer (allocations succeeding or failing, each append reading `len` bytes
that its source holds, and no `size + len` wrapping around),
`buffer_remaining` is `size - offset` (with `offset ≤ size`), which is the
number of bytes successfully appended minus the number of bytes the takes
returned; for an absent buffer, and for one that holds no storage, it is 0. -/
theorem buffer_remaining_count (ops : List BufOp) (hwf : ∀ op ∈ ops, op.wellFormed)
    (hfit : BufTrace.init.fits ops) :
    (∀ b, (BufTrace.init.run ops).buffer = some b →
      b.offset ≤ b.size ∧ buffer_remaining (some b) = b.size - b.offset ∧
      (b.data = none → buffer_remaining (some b) = 0)) ∧
    (BufTrace.init.run ops).taken.length ≤ (BufTrace.init.run ops).appended.length ∧
    buffer_remaining (BufTrace.init.run ops).buffer
      = (BufTrace.init.run ops).appended.length - (BufTrace.init.run ops).taken.length ∧
    buffer_remaining none = 0 := by
  have hinv := BufTrace.run_inv ops BufTrace.init BufTrace.init_inv hwf hfit
  have hlen := congrArg List.length hinv.2
  rw [List.length_append] at hlen
  have hb : ∀ b, (BufTrace.init.run ops).buffer = some b →
      b.offset ≤ b.size ∧ buffer_remaining (some b) = b.size - b.offset := by
    intro b hb
    obtain ⟨hw, -⟩ := hinv.1 b hb
    exact ⟨hw.1, usub_of_le hw.1 hw.2.1⟩
  refine ⟨?_, by omega, ?_, rfl⟩
  · intro b hbuf
    obtain ⟨hw, -⟩ := hinv.1 b hbuf
    refine ⟨(hb b hbuf).1, (hb b hbuf).2, ?_⟩
    intro hd
    have hs0 : b.size = 0 := by rw [← hw.2.2, hd]; rfl
    rw [(hb b hbuf).2, hs0, Nat.zero_sub]
  · cases hbuf : (BufTrace.init.run ops).buffer with
    | none =>
      rw [hbuf] at hlen
      simp only [live, List.length_nil] at hlen
      simp only [buffer_remaining]
      omega
    | some b =>
      obtain ⟨hw, -⟩ := hinv.1 b hbuf
      rw [hbuf, live_length b hw] at hlen
      rw [(hb b hbuf).2]
      omega

/-- C8 on the worked example, after the first three calls: 11 bytes appended,
3 taken, 8 remaining. -/
theorem buffer_remaining_count_witness :
    ((∀ op ∈ hello_ops.take 3, op.wellFormed) ∧ BufTrace.init.fits (hello_ops.take 3)) ∧
    buffer_remaining (BufTrace.init.run (hello_ops.take 3)).buffer = 8 ∧
    (BufTrace.init.run (hello_ops.take 3)).appended.length = 11 ∧
    (BufTrace.init.run (hello_ops.take 3)).taken.length = 3 ∧
    buffer_remaining (BufTrace.init.run (hello_ops.take 3)).buffer
      = (BufTrace.init.run (hello_ops.take 3)).appended.length
        - (BufTrace.init.run (hello_ops.take 3)).taken.length :=
  ⟨by decide, by decide, by decide, by decide,
    (buffer_remaining_count (hello_ops.take 3) (by decide) (by decide)).2.2.1⟩

/-- C9, as stated, fails where a take drains the buffer: taking 5 bytes from a
buffer holding "HELLO" returns 5 and copies "HELLO", but `offset` is 0
afterwards, not `0 + 5`, because the drained buffer is reset. -/
theorem buffer_take_offset_counterexample :
    hello_buf.wf ∧
    buffer_take (some hello_buf) (malloc 5) 5 = (5, "HELLO".toList, some buf_zero) ∧
    buf_zero.offset ≠ hello_buf.offset + 5 := by
  decide

/-- C9, amended: `buffer_take` returns `min (remaining, len)`; on a well-formed
buffer it writes the bytes `data[offset .. offset + min (remaining, len))` to
the start of `dest`, leaves the rest of `dest` alone, and advances `offset` by
that count, unless this brings `offset` to `size`, in which case the buffer is
reset to the empty state; on an absent buffer or one without storage it
returns 0 and changes neither `dest` nor the buffer. -/
theorem buffer_take_spec (buffer : Option buf) (dest : List Byte) (len : Nat) :
    ((buffer = none ∨ ∃ b, buffer = some b ∧ b.data = none) →
      buffer_take buffer dest len = (0, dest, buffer)) ∧
    (∀ b d, buffer = some b → b.data = some d →
      (buffer_take buffer dest len).1 = min (buffer_remaining buffer) len) ∧
    (∀ b d, buffer = some b → b.data = some d → b.wf →
      buffer_remaining buffer = b.size - b.offset ∧
      buffer_take buffer dest len =
        (min (b.size - b.offset) len,
         (d.drop b.offset).take (min (b.size - b.offset) len)
           ++ dest.drop (min (b.size - b.offset) len),
         some (if b.offset + min (b.size - b.offset) len = b.size then buf_zero
               else { b with offset := b.offset + min (b.size - b.offset) len }))) := by
  refine ⟨?_, ?_, ?_⟩
  · rintro (h | ⟨b, hb, hd⟩)
    · subst h; rfl
    · subst hb; simp [buffer_take, hd]
  · intro b d hb hd
    subst hb
    have htk : ∀ r : Nat, (if r < len then r else len) = min r len := by
      intro r; split <;> omega
    simp only [buffer_take, hd, buffer_remaining, htk]
  · intro b d hb hd hwf
    subst hb
    obtain ⟨hos, hsM, hdl⟩ := hwf
    have hrem : usub b.size b.offset = b.size - b.offset := usub_of_le hos hsM
    have htk : (if b.size - b.offset < len then b.size - b.offset else len)
        = min (b.size - b.offset) len := by
      split <;> omega
    have hadd : uadd b.offset (min (b.size - b.offset) len)
        = b.offset + min (b.size - b.offset) len := uadd_of_lt (by omega)
    refine ⟨hrem, ?_⟩
    simp only [buffer_take, hd, hrem, htk, hadd, memcpy_at_start]
    by_cases hfull : b.offset + min (b.size - b.offset) len = b.size
    · simp only [hfull, if_true]
      rfl
    · simp only [hfull, if_false]

/-- C9, amended, on "HELLO WORLD" with "HEL" consumed: a take of 4 bytes
returns 4, writes "LO W" and moves `offset` from 3 to 7. -/
theorem buffer_take_spec_witness :
    buffer_remaining (some hello_world_buf) = 11 - 3 ∧
    buffer_take (some hello_world_buf) (malloc 4) 4 =
      (min (11 - 3) 4,
       ("HELLO WORLD".toList.drop 3).take (min (11 - 3) 4) ++ (malloc 4).drop (min (11 - 3) 4),
       some (if 3 + min (11 - 3) 4 = 11 then buf_zero
             else { hello_world_buf with offset := 3 + min (11 - 3) 4 })) :=
  (buffer_take_spec (some hello_world_buf) (malloc 4) 4).2.2 hello_world_buf
    "HELLO WORLD".toList rfl rfl (by decide)

/-- C10: when a take brings `offset` to `size`, the buffer is left in the
empty state (no storage, `size = 0`, `offset = 0`) and `buffer_remaining` is
0; an append that follows does exactly what it does on a fresh buffer, and
when its allocation succeeds the buffer then has `size = n`, `offset = 0` and
holds the bytes `data[0 .. n)`. -/
theorem buffer_drain_reset (b : buf) (d dest : List Byte) (len : Nat) (hd : b.data = some d)
    (hdrain : uadd b.offset (buffer_take (some b) dest len).1 = b.size) :
    (buffer_take (some b) dest len).2.2 = some { data := none, size := 0, offset := 0 } ∧
    buffer_remaining (buffer_take (some b) dest len).2.2 = 0 ∧
    (∀ (calloc_ok alloc_ok : Bool) (data : List Byte) (n : Nat),
      buffer_append calloc_ok alloc_ok (some (buffer_take (some b) dest len).2.2) data n
        = buffer_append true alloc_ok (some none) data n) ∧
    (∀ (calloc_ok : Bool) (data : List Byte) (n : Nat), n ≤ data.length → n < ULONG_MOD →
      ∃ b1, buffer_append calloc_ok true (some (buffer_take (some b) dest len).2.2) data n
          = (1, some (some b1)) ∧
        b1.size = n ∧ b1.offset = 0 ∧ b1.data.getD [] = data.take n) := by
  have hreset : (buffer_take (some b) dest len).2.2
      = some { data := none, size := 0, offset := 0 } := by
    have hcnt : (buffer_take (some b) dest len).1
        = if usub b.size b.offset < len then usub b.size b.offset else len := by
      simp only [buffer_take, hd]
    rw [hcnt] at hdrain
    simp only [buffer_take, hd, hdrain, if_true]
  rw [hreset]
  refine ⟨rfl, by decide, ?_, ?_⟩
  · intro calloc_ok alloc_ok data n
    cases calloc_ok <;> rfl
  · intro calloc_ok data n hn hnM
    obtain ⟨b1, h1, hwf1, hlive1, hoff1⟩ := buffer_append_wf calloc_ok buf_zero data n
      buf_zero_wf hn (by simpa [buf_zero] using hnM)
    have hoff0 : b1.offset = 0 := by
      have : b1.offset ≤ 0 := hoff1
      omega
    have hdata : b1.data.getD [] = data.take n := by
      have := hlive1
      simpa [live, hoff0, buf_zero] using this
    refine ⟨b1, h1, ?_, hoff0, hdata⟩
    rw [← hwf1.2.2, hdata]
    simp [hn]

/-- C10 on the worked example: the take of 8 bytes drains "HELLO WORLD" with
"HEL" consumed, and appending "AB" afterwards gives the buffer a fresh buffer
would get. -/
theorem buffer_drain_reset_witness :
    uadd hello_world_buf.offset (buffer_take (some hello_world_buf) (malloc 8) 8).1
      = hello_world_buf.size ∧
    (buffer_take (some hello_world_buf) (malloc 8) 8).2.2
      = some { data := none, size := 0, offset := 0 } ∧
    buffer_append true true (some (buffer_take (some hello_world_buf) (malloc 8) 8).2.2)
        "AB".toList 2
      = (1, some (some { data := some "AB".toList, size := 2, offset := 0 })) :=
  ⟨by decide,
    (buffer_drain_reset hello_world_buf "HELLO WORLD".toList (malloc 8) 8 rfl (by decide)).1,
    by decide⟩

/-! ### The claims about the cache -/

/-- C1 at a failing input: with two slots and the puts 2, 1, 0 (pairwise
distinct, three of them), the two most recently touched identifiers are 0 and
1, but afterwards `lru_cache_get` misses 1 and still finds 2. -/
theorem lru_put_any_order_failure :
    most_recent 2 [2, 1, 0] = [0, 1] ∧
    get_after (cache_new 2 4)
      [.put 2 "AA".toList 2, .put 1 "BB".toList 2, .put 0 "CC".toList 2] 1 = some false ∧
    get_after (cache_new 2 4)
      [.put 2 "AA".toList 2, .put 1 "BB".toList 2, .put 0 "CC".toList 2] 2 = some true := by
  decide

/-- C3 at a failing input: in the cache with three slots reached by the puts
1, 3, 5, the call `lru_cache_put(4, "AB", 2)` leaves the array in the order
3, 5, 4, and the `lru_cache_get(4)` that follows returns `NULL`. -/
theorem lru_get_after_put_failure :
    observe (cache_new 3 4) (ascending_puts ++ [.put 4 "AB".toList 2]) array_ids
      = some [3, 5, 4] ∧
    observe (cache_new 3 4) (ascending_puts ++ [.put 4 "AB".toList 2])
      (fun c => get_entry c 4) = some none := by
  decide

/-- C4 at a failing input: in a cache with three slots holding 1, 3, 5, where
1 was touched last, a single put of the new identifier 0 removes 1. -/
theorem lru_touched_evicted_failure :
    observe (cache_new 3 4) descending_puts array_ids = some [1, 3, 5] ∧
    observe (cache_new 3 4) descending_puts (fun c => c.head.map (entry_id c))
      = some (some 1) ∧
    get_after (cache_new 3 4) descending_puts 1 = some true ∧
    get_after (cache_new 3 4) (descending_puts ++ [.put 0 "ZZ".toList 2]) 1 = some false := by
  decide

/-- C5 at two failing inputs, both on a full cache with three slots holding 1,
3, 5.  Tail before the insertion point: the tail is 1, and after putting 4
the identifier 4 is not found.  Tail after the insertion point: the tail is
5, and after putting 0 the tail 5 is still found, the head 1 is gone, and the
bytes of 5 have become those of the new entry. -/
theorem lru_put_full_failure :
    observe (cache_new 3 4) ascending_puts tail_id = some (some 1) ∧
    get_after (cache_new 3 4) (ascending_puts ++ [.put 4 "ZZ".toList 2]) 4 = some false ∧
    observe (cache_new 3 4) descending_puts tail_id = some (some 5) ∧
    get_after (cache_new 3 4) (descending_puts ++ [.put 0 "ZZ".toList 2]) 5 = some true ∧
    get_after (cache_new 3 4) (descending_puts ++ [.put 0 "ZZ".toList 2]) 1 = some false ∧
    observe (cache_new 3 4) descending_puts (fun c => get_entry c 5)
      = some (some (5, 2, "CC".toList)) ∧
    observe (cache_new 3 4) (descending_puts ++ [.put 0 "ZZ".toList 2])
      (fun c => get_entry c 5) = some (some (5, 2, "ZZ".toList)) := by
  decide

/-- C6 at a failing input: after the puts 1, 3, 5, 4 on a cache with three
slots, `lru_cache_last` returns the entry with identifier 4 although 5 is
resident. -/
theorem lru_last_not_max_failure :
    observe (cache_new 3 4) (ascending_puts ++ [.put 4 "ZZ".toList 2])
      (fun c => (lru_cache_last c).map (entry_id c)) = some (some 4) ∧
    get_after (cache_new 3 4) (ascending_puts ++ [.put 4 "ZZ".toList 2]) 5 = some true := by
  decide

/-- C7 at a failing input: on a cache with one slot that holds identifier 0,
`lru_cache_put(1, "B", 1)` dereferences the `NULL` link `tail->previous` and
returns no entry. -/
theorem lru_put_single_slot_failure :
    observe (cache_new 1 4) [.put 0 "A".toList 1] array_ids = some [0] ∧
    observe (cache_new 1 4) [.put 0 "A".toList 1]
      (fun c => fault_of (lru_cache_put c 1 (some "B".toList) 1))
      = some (some Fault.null_deref) := by
  decide

/-! ### The binary search -/

/-- The loop of `find_block` ends within `high - low + 1` iterations, for any
content of the array; what it returns is either an index inside `[low, high]`
whose slot holds `id`, or `-p - 1` with `low ≤ p ≤ high + 1`. -/
theorem find_block_loop_total (cache : lru_cache) (id : Nat) :
    ∀ (fuel : Nat) (low high : Int), 0 ≤ low → low ≤ high + 1 → high - low + 1 ≤ fuel →
    ∃ r, find_block_loop cache id fuel low high = .ok r ∧
      ((0 ≤ r ∧ low ≤ r ∧ r ≤ high ∧ entry_id cache r.toNat = id) ∨
       (∃ p : Int, r = -p - 1 ∧ low ≤ p ∧ p ≤ high + 1)) := by
  intro fuel
  induction fuel with
  | zero =>
    intro low high h0 hle hf
    have : ¬ low ≤ high := by omega
    exact ⟨-low - 1, by simp [find_block_loop, this], Or.inr ⟨low, rfl, le_refl _, hle⟩⟩
  | succ fuel ih =>
    intro low high h0 hle hf
    by_cases hlh : low ≤ high
    · have hmid : (low + high).tdiv 2 = (low + high) / 2 :=
        Int.tdiv_eq_ediv (by omega) (by omega)
      simp only [find_block_loop, hlh, if_true, hmid]
      by_cases h1 : (blk_at cache ((low + high) / 2).toNat).payload.id < id
      · simp only [h1, if_true]
        obtain ⟨r, hr, hcase⟩ := ih ((low + high) / 2 + 1) high (by omega) (by omega) (by omega)
        refine ⟨r, hr, ?_⟩
        rcases hcase with ⟨a, b, c, d⟩ | ⟨p, hp, hp1, hp2⟩
        · exact Or.inl ⟨a, by omega, c, d⟩
        · exact Or.inr ⟨p, hp, by omega, hp2⟩
      · by_cases h2 : (blk_at cache ((low + high) / 2).toNat).payload.id > id
        · simp only [h1, if_false, h2, if_true]
          obtain ⟨r, hr, hcase⟩ := ih low ((low + high) / 2 - 1) h0 (by omega) (by omega)
          refine ⟨r, hr, ?_⟩
          rcases hcase with ⟨a, b, c, d⟩ | ⟨p, hp, hp1, hp2⟩
          · exact Or.inl ⟨a, b, by omega, d⟩
          · exact Or.inr ⟨p, hp, hp1, by omega⟩
        · simp only [h1, if_false, h2]
          refine ⟨(low + high) / 2, rfl, Or.inl ⟨by omega, by omega, by omega, ?_⟩⟩
          simp only [entry_id]
          omega
    · exact ⟨-low - 1, by simp [find_block_loop, hlh], Or.inr ⟨low, rfl, le_refl _, hle⟩⟩

/-- The function `find_block` returns for every cache state and every
identifier: an index below `cur_blocks` whose slot holds the identifier, or a
negative number `-p - 1` with `p ≤ cur_blocks`. -/
theorem find_block_total (cache : lru_cache) (id : Nat) :
    ∃ r, find_block cache id = .ok r ∧
      ((0 ≤ r ∧ r < cache.cur_blocks ∧ entry_id cache r.toNat = id) ∨
       (∃ p : Nat, r = -(p : Int) - 1 ∧ p ≤ cache.cur_blocks)) := by
  obtain ⟨r, hr, hcase⟩ := find_block_loop_total cache id cache.cur_blocks 0
    ((cache.cur_blocks : Int) - 1) (le_refl _) (by omega) (by omega)
  refine ⟨r, hr, ?_⟩
  rcases hcase with ⟨a, b, c, d⟩ | ⟨p, hp, hp1, hp2⟩
  · exact Or.inl ⟨a, by omega, d⟩
  · exact Or.inr ⟨p.toNat, by omega, by omega⟩


theorem array_ids_length (cache : lru_cache) : (array_ids cache).length = cache.cur_blocks := by
  simp [array_ids]

theorem array_ids_getElem? (cache : lru_cache) (k : Nat) (hk : k < cache.cur_blocks) :
    (array_ids cache)[k]? = some (entry_id cache k) := by
  simp [array_ids, List.getElem?_map, List.getElem?_range hk, entry_id]

theorem ids_ascending_lt (cache : lru_cache) (h : ids_ascending cache) (a b : Nat)
    (hab : a < b) (hb : b < cache.cur_blocks) : entry_id cache a < entry_id cache b := by
  have := (List.pairwise_iff_getElem.mp h) a b (by rw [array_ids_length]; omega)
    (by rw [array_ids_length]; exact hb) hab
  simpa [array_ids, entry_id] using this

/-- On a sorted prefix the loop of `find_block`, entered with every slot below
`low` holding a smaller and every slot above `high` a larger identifier,
returns the slot that holds `id`, or `-p - 1` where `p` splits the prefix into
the smaller and the larger identifiers. -/
theorem find_block_loop_sorted (cache : lru_cache) (id : Nat) (hs : ids_ascending cache) :
    ∀ (fuel : Nat) (low high : Int), 0 ≤ low → low ≤ high + 1 → high < cache.cur_blocks →
    high - low + 1 ≤ fuel →
    (∀ k : Nat, (k : Int) < low → entry_id cache k < id) →
    (∀ k : Nat, high < (k : Int) → k < cache.cur_blocks → id < entry_id cache k) →
    ∃ r, find_block_loop cache id fuel low high = .ok r ∧
      ((0 ≤ r ∧ r < cache.cur_blocks ∧ entry_id cache r.toNat = id) ∨
       (∃ p : Nat, r = -(p : Int) - 1 ∧ p ≤ cache.cur_blocks ∧
          (∀ k : Nat, k < p → entry_id cache k < id) ∧
          (∀ k : Nat, p ≤ k → k < cache.cur_blocks → id < entry_id cache k))) := by
  intro fuel
  induction fuel with
  | zero =>
    intro low high h0 hle hhi hf hlo hup
    have hnot : ¬ low ≤ high := by omega
    refine ⟨-low - 1, by simp [find_block_loop, hnot], Or.inr ⟨low.toNat, by omega, by omega,
      fun k hk => hlo k (by omega), fun k hk hk2 => hup k (by omega) hk2⟩⟩
  | succ fuel ih =>
    intro low high h0 hle hhi hf hlo hup
    by_cases hlh : low ≤ high
    · have hmid : (low + high).tdiv 2 = (low + high) / 2 :=
        Int.tdiv_eq_ediv (by omega) (by omega)
      simp only [find_block_loop, hlh, if_true, hmid]
      have hm0 : 0 ≤ (low + high) / 2 := by omega
      have hmc : ((low + high) / 2).toNat < cache.cur_blocks := by omega
      by_cases h1 : (blk_at cache ((low + high) / 2).toNat).payload.id < id
      · simp only [h1, if_true]
        refine ih ((low + high) / 2 + 1) high (by omega) (by omega) hhi (by omega) ?_ hup
        intro k hk
        by_cases hkm : k = ((low + high) / 2).toNat
        · subst hkm; exact h1
        · exact lt_trans (ids_ascending_lt cache hs k _ (by omega) hmc) h1
      · by_cases h2 : (blk_at cache ((low + high) / 2).toNat).payload.id > id
        · simp only [h1, if_false, h2, if_true]
          refine ih low ((low + high) / 2 - 1) h0 (by omega) (by omega) (by omega) hlo ?_
          intro k hk hk2
          by_cases hkm : k = ((low + high) / 2).toNat
          · subst hkm; exact h2
          · exact lt_trans h2 (ids_ascending_lt cache hs _ k (by omega) hk2)
        · simp only [h1, if_false, h2]
          refine ⟨(low + high) / 2, rfl, Or.inl ⟨hm0, by omega, ?_⟩⟩
          simp only [entry_id]
          omega
    · refine ⟨-low - 1, by simp [find_block_loop, hlh], Or.inr ⟨low.toNat, by omega, by omega,
        fun k hk => hlo k (by omega), fun k hk hk2 => hup k (by omega) hk2⟩⟩


theorem rank_le (cache : lru_cache) (id : Nat) : rank cache id ≤ cache.cur_blocks := by
  unfold rank
  calc ((array_ids cache).filter (fun x => x < id)).length
      ≤ (array_ids cache).length := List.length_filter_le _ _
    _ = cache.cur_blocks := array_ids_length cache

theorem mem_array_ids (cache : lru_cache) (x : Nat) :
    x ∈ array_ids cache ↔ ∃ k, k < cache.cur_blocks ∧ entry_id cache k = x := by
  simp [array_ids, entry_id]

/-- A split point of the prefix into smaller and larger identifiers is the
rank of the identifier. -/
theorem rank_of_split (cache : lru_cache) (id p : Nat) (hp : p ≤ cache.cur_blocks)
    (hlo : ∀ k : Nat, k < p → entry_id cache k < id)
    (hup : ∀ k : Nat, p ≤ k → k < cache.cur_blocks → id < entry_id cache k) :
    rank cache id = p := by
  have hsplit : array_ids cache
      = (List.range p).map (entry_id cache)
        ++ (List.range (cache.cur_blocks - p)).map (fun k => entry_id cache (p + k)) := by
    apply List.ext_getElem?
    intro n
    by_cases hn : n < p
    · rw [List.getElem?_append_left (by simpa using hn),
        array_ids_getElem? cache n (by omega)]
      simp [List.getElem?_map, List.getElem?_range hn]
    · rw [List.getElem?_append_right (by simpa using hn)]
      by_cases hn2 : n < cache.cur_blocks
      · rw [array_ids_getElem? cache n hn2]
        have : n - p < cache.cur_blocks - p := by omega
        simp only [List.length_map, List.length_range, List.getElem?_map,
          List.getElem?_range this, Option.map_some']
        congr 2
        omega
      · have h1 : (array_ids cache)[n]? = none := by
          apply List.getElem?_eq_none
          rw [array_ids_length]; omega
        rw [h1]
        symm
        apply List.getElem?_eq_none
        simp only [List.length_map, List.length_range]
        omega
  unfold rank
  rw [hsplit, List.filter_append]
  have h1 : ((List.range p).map (entry_id cache)).filter (fun x => x < id)
      = (List.range p).map (entry_id cache) := by
    apply List.filter_eq_self.mpr
    intro a ha
    simp only [List.mem_map, List.mem_range] at ha
    obtain ⟨k, hk, rfl⟩ := ha
    simpa using hlo k hk
  have h2 : ((List.range (cache.cur_blocks - p)).map
      (fun k => entry_id cache (p + k))).filter (fun x => x < id) = [] := by
    apply List.filter_eq_nil_iff.mpr
    intro a ha
    simp only [List.mem_map, List.mem_range] at ha
    obtain ⟨k, hk, rfl⟩ := ha
    have := hup (p + k) (by omega) (by omega)
    simp only [decide_eq_true_eq]
    omega
  rw [h1, h2]
  simp

/-- C20: on a cache whose filled prefix is strictly ascending, `find_block`
returns (its loop ends): the index of the slot that holds `id` when a filled
slot holds it, and otherwise `-p - 1` where `p` is the number of resident
identifiers smaller than `id`, with `0 ≤ p ≤ cur_blocks`; for an empty cache
that is `-1`. -/
theorem find_block_sorted (cache : lru_cache) (id : Nat) (hs : ids_ascending cache) :
    (∀ k, k < cache.cur_blocks → entry_id cache k = id →
      find_block cache id = .ok (k : Int)) ∧
    (id ∉ array_ids cache → find_block cache id = .ok (-(rank cache id : Int) - 1)) ∧
    rank cache id ≤ cache.cur_blocks ∧
    (cache.cur_blocks = 0 → find_block cache id = .ok (-1)) := by
  obtain ⟨r, hr, hcase⟩ := find_block_loop_sorted cache id hs cache.cur_blocks 0
    ((cache.cur_blocks : Int) - 1) (le_refl _) (by omega) (by omega) (by omega)
    (fun k hk => by omega) (fun k hk hk2 => by omega)
  have hfb : find_block cache id = .ok r := hr
  have hnotin : id ∉ array_ids cache → find_block cache id
      = .ok (-(rank cache id : Int) - 1) := by
    intro hni
    rcases hcase with ⟨h0, hlt, hid⟩ | ⟨p, hp, hpc, hlo, hup⟩
    · exact absurd ((mem_array_ids cache id).mpr ⟨r.toNat, by omega, hid⟩) hni
    · rw [hfb, hp, rank_of_split cache id p hpc hlo hup]
  refine ⟨?_, hnotin, rank_le cache id, ?_⟩
  · intro k hk hid
    rcases hcase with ⟨h0, hlt, hid2⟩ | ⟨p, hp, hpc, hlo, hup⟩
    · have hrk : r.toNat = k := by
        by_contra hne
        rcases Nat.lt_or_gt_of_ne hne with h | h
        · have := ids_ascending_lt cache hs _ _ h hk
          omega
        · have := ids_ascending_lt cache hs _ _ h (by omega)
          omega
      rw [hfb]
      congr 1
      omega
    · exfalso
      by_cases hkp : k < p
      · have := hlo k hkp
        omega
      · have := hup k (by omega) hk
        omega
  · intro h0
    have hni : id ∉ array_ids cache := by
      rw [mem_array_ids]
      rintro ⟨k, hk, -⟩
      omega
    have hr0 : rank cache id = 0 := by
      have := rank_le cache id
      omega
    rw [hnotin hni, hr0]
    rfl


/-! ### Reading slots after an assignment -/

theorem blk_at_set_blk (c : lru_cache) (k : Nat) (b : block) (x : Nat) :
    blk_at (set_blk c k b) x = if x = k ∧ k < c.blocks.length then b else blk_at c x := by
  unfold blk_at set_blk
  simp only [List.getD_eq_getElem?_getD, List.getElem?_set]
  by_cases hk : k = x
  · subst hk
    by_cases hl : k < c.blocks.length
    · simp [hl]
    · simp [hl, List.getElem?_eq_none (not_lt.mp hl)]
  · have : ¬ x = k := fun h => hk h.symm
    simp [hk, this]

@[simp] theorem set_blk_length (c : lru_cache) (k : Nat) (b : block) :
    (set_blk c k b).blocks.length = c.blocks.length := by
  simp [set_blk]

@[simp] theorem set_next_length (c : lru_cache) (k : Nat) (v : Option Nat) :
    (set_next c k v).blocks.length = c.blocks.length := by
  simp [set_next]

@[simp] theorem set_previous_length (c : lru_cache) (k : Nat) (v : Option Nat) :
    (set_previous c k v).blocks.length = c.blocks.length := by
  simp [set_previous]

@[simp] theorem set_payload_length (c : lru_cache) (k : Nat) (e : lru_cache_entry_t) :
    (set_payload c k e).blocks.length = c.blocks.length := by
  simp [set_payload]

@[simp] theorem set_next_head (c : lru_cache) (k : Nat) (v : Option Nat) :
    (set_next c k v).head = c.head := rfl

@[simp] theorem set_next_tail (c : lru_cache) (k : Nat) (v : Option Nat) :
    (set_next c k v).tail = c.tail := rfl

@[simp] theorem set_next_cur (c : lru_cache) (k : Nat) (v : Option Nat) :
    (set_next c k v).cur_blocks = c.cur_blocks := rfl

@[simp] theorem set_next_max (c : lru_cache) (k : Nat) (v : Option Nat) :
    (set_next c k v).max_blocks = c.max_blocks := rfl

@[simp] theorem set_next_block_size (c : lru_cache) (k : Nat) (v : Option Nat) :
    (set_next c k v).block_size = c.block_size := rfl

@[simp] theorem set_next_arena (c : lru_cache) (k : Nat) (v : Option Nat) :
    (set_next c k v).arena = c.arena := rfl

@[simp] theorem set_previous_head (c : lru_cache) (k : Nat) (v : Option Nat) :
    (set_previous c k v).head = c.head := rfl

@[simp] theorem set_previous_tail (c : lru_cache) (k : Nat) (v : Option Nat) :
    (set_previous c k v).tail = c.tail := rfl

@[simp] theorem set_previous_cur (c : lru_cache) (k : Nat) (v : Option Nat) :
    (set_previous c k v).cur_blocks = c.cur_blocks := rfl

@[simp] theorem set_previous_max (c : lru_cache) (k : Nat) (v : Option Nat) :
    (set_previous c k v).max_blocks = c.max_blocks := rfl

@[simp] theorem set_previous_block_size (c : lru_cache) (k : Nat) (v : Option Nat) :
    (set_previous c k v).block_size = c.block_size := rfl

@[simp] theorem set_previous_arena (c : lru_cache) (k : Nat) (v : Option Nat) :
    (set_previous c k v).arena = c.arena := rfl

@[simp] theorem set_payload_head (c : lru_cache) (k : Nat) (e : lru_cache_entry_t) :
    (set_payload c k e).head = c.head := rfl

@[simp] theorem set_payload_tail (c : lru_cache) (k : Nat) (e : lru_cache_entry_t) :
    (set_payload c k e).tail = c.tail := rfl

@[simp] theorem set_payload_cur (c : lru_cache) (k : Nat) (e : lru_cache_entry_t) :
    (set_payload c k e).cur_blocks = c.cur_blocks := rfl

@[simp] theorem set_payload_max (c : lru_cache) (k : Nat) (e : lru_cache_entry_t) :
    (set_payload c k e).max_blocks = c.max_blocks := rfl

@[simp] theorem set_payload_block_size (c : lru_cache) (k : Nat) (e : lru_cache_entry_t) :
    (set_payload c k e).block_size = c.block_size := rfl

@[simp] theorem set_payload_arena (c : lru_cache) (k : Nat) (e : lru_cache_entry_t) :
    (set_payload c k e).arena = c.arena := rfl

theorem next_set_next (c : lru_cache) (k : Nat) (v : Option Nat) (x : Nat) :
    (blk_at (set_next c k v) x).next
      = if x = k ∧ k < c.blocks.length then v else (blk_at c x).next := by
  unfold set_next
  rw [blk_at_set_blk]
  split <;> rfl

@[simp] theorem previous_set_next (c : lru_cache) (k : Nat) (v : Option Nat) (x : Nat) :
    (blk_at (set_next c k v) x).previous = (blk_at c x).previous := by
  unfold set_next
  rw [blk_at_set_blk]
  split
  · rename_i h; rw [h.1]
  · rfl

@[simp] theorem payload_set_next (c : lru_cache) (k : Nat) (v : Option Nat) (x : Nat) :
    (blk_at (set_next c k v) x).payload = (blk_at c x).payload := by
  unfold set_next
  rw [blk_at_set_blk]
  split
  · rename_i h; rw [h.1]
  · rfl

theorem previous_set_previous (c : lru_cache) (k : Nat) (v : Option Nat) (x : Nat) :
    (blk_at (set_previous c k v) x).previous
      = if x = k ∧ k < c.blocks.length then v else (blk_at c x).previous := by
  unfold set_previous
  rw [blk_at_set_blk]
  split <;> rfl

@[simp] theorem next_set_previous (c : lru_cache) (k : Nat) (v : Option Nat) (x : Nat) :
    (blk_at (set_previous c k v) x).next = (blk_at c x).next := by
  unfold set_previous
  rw [blk_at_set_blk]
  split
  · rename_i h; rw [h.1]
  · rfl

@[simp] theorem payload_set_previous (c : lru_cache) (k : Nat) (v : Option Nat) (x : Nat) :
    (blk_at (set_previous c k v) x).payload = (blk_at c x).payload := by
  unfold set_previous
  rw [blk_at_set_blk]
  split
  · rename_i h; rw [h.1]
  · rfl

theorem payload_set_payload (c : lru_cache) (k : Nat) (e : lru_cache_entry_t) (x : Nat) :
    (blk_at (set_payload c k e) x).payload
      = if x = k ∧ k < c.blocks.length then e else (blk_at c x).payload := by
  unfold set_payload
  rw [blk_at_set_blk]
  split <;> rfl

@[simp] theorem next_set_payload (c : lru_cache) (k : Nat) (e : lru_cache_entry_t) (x : Nat) :
    (blk_at (set_payload c k e) x).next = (blk_at c x).next := by
  unfold set_payload
  rw [blk_at_set_blk]
  split
  · rename_i h; rw [h.1]
  · rfl

@[simp] theorem previous_set_payload (c : lru_cache) (k : Nat) (e : lru_cache_entry_t)
    (x : Nat) : (blk_at (set_payload c k e) x).previous = (blk_at c x).previous := by
  unfold set_payload
  rw [blk_at_set_blk]
  split
  · rename_i h; rw [h.1]
  · rfl

/-- A slot read depends on the array only. -/
theorem blk_at_congr (c d : lru_cache) (h : c.blocks = d.blocks) (x : Nat) :
    blk_at c x = blk_at d x := by
  unfold blk_at; rw [h]

@[simp] theorem blk_at_mk (bl : List block) (h t : Option Nat) (cu m bs : Nat)
    (a : List Byte) (x : Nat) :
    blk_at { blocks := bl, head := h, tail := t, cur_blocks := cu, max_blocks := m,
             block_size := bs, arena := a } x = slot_at bl x := rfl

@[simp] theorem slot_at_blocks (c : lru_cache) (x : Nat) :
    slot_at c.blocks x = blk_at c x := rfl

/-! ### The usage list -/

theorem Linked.at {c : lru_cache} {L : List Nat} (h : Linked c L) (k x : Nat)
    (hx : L[k]? = some x) :
    x < c.blocks.length ∧ (blk_at c x).next = L[k + 1]? ∧
      (blk_at c x).previous = (if k = 0 then none else L[k - 1]?) := by
  obtain ⟨hk, hxe⟩ := List.getElem?_eq_some.mp hx
  have := h.2.2.2 k hk
  rw [List.getD_eq_getElem _ _ hk, hxe] at this
  exact this

theorem Linked.of_at {c : lru_cache} {L : List Nat} (hnd : L.Nodup) (hh : c.head = L.head?)
    (ht : c.tail = L.getLast?)
    (h : ∀ k x, L[k]? = some x → x < c.blocks.length ∧ (blk_at c x).next = L[k + 1]? ∧
      (blk_at c x).previous = (if k = 0 then none else L[k - 1]?)) : Linked c L := by
  refine ⟨hnd, hh, ht, ?_⟩
  intro k hk
  rw [List.getD_eq_getElem _ _ hk]
  exact h k L[k] (List.getElem?_eq_getElem hk)

theorem Linked.inj {c : lru_cache} {L : List Nat} (h : Linked c L) (i j x : Nat)
    (hi : L[i]? = some x) (hj : L[j]? = some x) : i = j := by
  obtain ⟨hi1, hi2⟩ := List.getElem?_eq_some.mp hi
  obtain ⟨hj1, hj2⟩ := List.getElem?_eq_some.mp hj
  exact (List.Nodup.getElem_inj_iff h.1).mp (hi2.trans hj2.symm)

/-- The links after `move_to_front`, for a slot `blk` whose `previous` is the
slot `p`, in a cache whose head is the slot `h`. -/
theorem move_to_front_fields (c : lru_cache) (blk p h : Nat) (onext : Option Nat)
    (hp : (blk_at c blk).previous = some p) (hn : (blk_at c blk).next = onext)
    (hh : c.head = some h) (hbp : blk ≠ p) (hbn : onext ≠ some blk)
    (hlb : blk < c.blocks.length) (hlp : p < c.blocks.length) (hlh : h < c.blocks.length)
    (hln : ∀ n, onext = some n → n < c.blocks.length) (hbh : blk ≠ h) :
    ∃ c1, move_to_front c blk = .ok c1 ∧
      (∀ x, (blk_at c1 x).next
        = if x = blk then some h else if x = p then onext else (blk_at c x).next) ∧
      (∀ x, (blk_at c1 x).previous
        = if x = h then some blk else if x = blk then none
          else if onext = some x then some p else (blk_at c x).previous) ∧
      (∀ x, (blk_at c1 x).payload = (blk_at c x).payload) ∧
      c1.head = c.head ∧
      c1.tail = (if c.tail = some blk then some p else c.tail) ∧
      c1.cur_blocks = c.cur_blocks ∧ c1.max_blocks = c.max_blocks ∧
      c1.block_size = c.block_size ∧ c1.arena = c.arena ∧
      c1.blocks.length = c.blocks.length := by
  have htl : ∀ t : Option Nat, (¬ some blk = t) → ¬ t = some blk := fun t h1 h2 => h1 h2.symm
  unfold move_to_front
  simp only [hp, next_set_next, hbp, false_and, if_false, hn]
  cases onext with
  | none =>
    by_cases ht : some blk = c.tail
    · simp only [set_next_tail, if_pos ht, set_previous_head, set_next_head, hh]
      refine ⟨_, rfl, ?_, ?_, ?_, ?_, ?_, ?_, ?_, ?_, ?_, ?_⟩
      · intro x
        simp only [next_set_previous, next_set_next]
        by_cases hxb : x = blk
        · subst hxb; simp [hlb]
        · by_cases hxp : x = p <;> simp [hxb, hxp, hlp, hbp, hbp.symm, next_set_next]
      · intro x
        simp only [previous_set_previous, previous_set_next]
        by_cases hxh : x = h
        · simp [hxh, hlh]
        · by_cases hxb : x = blk <;> simp [hxh, hxb, hlb, hbh, previous_set_previous]
      · intro x; simp
      · simp [hh]
      · simp [ht.symm, hp]
      · simp
      · simp
      · simp
      · simp
      · simp
    · simp only [set_next_tail, if_neg ht, set_previous_head, set_next_head, hh]
      refine ⟨_, rfl, ?_, ?_, ?_, ?_, ?_, ?_, ?_, ?_, ?_, ?_⟩
      · intro x
        simp only [next_set_previous, next_set_next]
        by_cases hxb : x = blk
        · subst hxb; simp [hlb]
        · by_cases hxp : x = p <;> simp [hxb, hxp, hlp, hbp, hbp.symm, next_set_next]
      · intro x
        simp only [previous_set_previous, previous_set_next]
        by_cases hxh : x = h
        · simp [hxh, hlh]
        · by_cases hxb : x = blk <;> simp [hxh, hxb, hlb, hbh, previous_set_previous]
      · intro x; simp
      · simp [hh]
      · simp [htl _ ht]
      · simp
      · simp
      · simp
      · simp
      · simp
  | some n =>
    have hnb : n ≠ blk := fun h => hbn (by rw [h])
    have hlnn := hln n rfl
    by_cases ht : some blk = c.tail
    · simp only [set_next_tail, set_previous_tail, if_pos ht, set_previous_head, set_next_head, hh]
      refine ⟨_, rfl, ?_, ?_, ?_, ?_, ?_, ?_, ?_, ?_, ?_, ?_⟩
      · intro x
        simp only [next_set_previous, next_set_next]
        by_cases hxb : x = blk
        · subst hxb; simp [hlb]
        · by_cases hxp : x = p <;> simp [hxb, hxp, hlp, hbp, hbp.symm, next_set_next]
      · intro x
        simp only [previous_set_previous, previous_set_next]
        by_cases hxh : x = h
        · simp [hxh, hlh]
        · by_cases hxb : x = blk
          · simp [hxh, hxb, hlb, hbh, previous_set_previous]
          · by_cases hxn : x = n
            · subst hxn
              simp [hxh, hxb, hlnn, hp, previous_set_previous]
            · have hnx : ¬ n = x := fun h => hxn h.symm
              simp [hxh, hxb, hxn, hnx, previous_set_previous]
      · intro x; simp
      · simp [hh]
      · simp [ht.symm, hp, hnb.symm, previous_set_previous]
      · simp
      · simp
      · simp
      · simp
      · simp
    · simp only [set_next_tail, set_previous_tail, if_neg ht, set_previous_head, set_next_head, hh]
      refine ⟨_, rfl, ?_, ?_, ?_, ?_, ?_, ?_, ?_, ?_, ?_, ?_⟩
      · intro x
        simp only [next_set_previous, next_set_next]
        by_cases hxb : x = blk
        · subst hxb; simp [hlb]
        · by_cases hxp : x = p <;> simp [hxb, hxp, hlp, hbp, hbp.symm, next_set_next]
      · intro x
        simp only [previous_set_previous, previous_set_next]
        by_cases hxh : x = h
        · simp [hxh, hlh]
        · by_cases hxb : x = blk
          · simp [hxh, hxb, hlb, hbh, previous_set_previous]
          · by_cases hxn : x = n
            · subst hxn
              simp [hxh, hxb, hlnn, hp, previous_set_previous]
            · have hnx : ¬ n = x := fun h => hxn h.symm
              simp [hxh, hxb, hxn, hnx, previous_set_previous]
      · intro x; simp
      · simp [hh]
      · simp [htl _ ht]
      · simp
      · simp
      · simp
      · simp
      · simp

theorem getElem?_front_eraseIdx (L : List Nat) (k blk m : Nat) :
    (blk :: L.eraseIdx k)[m]?
      = if m = 0 then some blk else if m - 1 < k then L[m - 1]? else L[m]? := by
  cases m with
  | zero => simp
  | succ m =>
    simp only [List.getElem?_cons_succ, List.getElem?_eraseIdx, Nat.add_sub_cancel]
    by_cases h : m < k <;> simp [h]

/-- Moving a slot that is in the usage list, but not at its head, to the
front: the call returns, the list afterwards is the old one with the slot
taken out and put in front, and nothing but links and `tail` has changed. -/
theorem move_to_front_linked (c : lru_cache) (L : List Nat) (k blk : Nat) (hL : Linked c L)
    (hk : L[k]? = some blk) (hk0 : k ≠ 0) :
    ∃ c1, move_to_front c blk = .ok c1 ∧
      Linked { c1 with head := some blk } (blk :: L.eraseIdx k) ∧
      c1.tail = (if c.tail = some blk then (blk_at c blk).previous else c.tail) ∧
      (∀ x, (blk_at c1 x).payload = (blk_at c x).payload) ∧
      c1.cur_blocks = c.cur_blocks ∧ c1.max_blocks = c.max_blocks ∧
      c1.block_size = c.block_size ∧ c1.arena = c.arena ∧
      c1.blocks.length = c.blocks.length := by
  obtain ⟨hkl, hke⟩ := List.getElem?_eq_some.mp hk
  obtain ⟨p, hpe⟩ : ∃ p, L[k - 1]? = some p :=
    ⟨L[k - 1], List.getElem?_eq_getElem (by omega)⟩
  obtain ⟨h, hhe⟩ : ∃ h, L[0]? = some h := ⟨L[0], List.getElem?_eq_getElem (by omega)⟩
  have hhead : c.head = some h := by rw [hL.2.1, List.head?_eq_getElem?, hhe]
  obtain ⟨hlb, hnb, hpb⟩ := hL.at k blk hk
  obtain ⟨hlp, -, -⟩ := hL.at (k - 1) p hpe
  obtain ⟨hlh, -, -⟩ := hL.at 0 h hhe
  rw [if_neg hk0, hpe] at hpb
  have hbp : blk ≠ p := by
    intro e
    have := hL.inj k (k - 1) blk hk (by rw [hpe, e])
    omega
  have hbh : blk ≠ h := by
    intro e
    have := hL.inj k 0 blk hk (by rw [hhe, e])
    omega
  have hbn : L[k + 1]? ≠ some blk := by
    intro e
    have := hL.inj (k + 1) k blk e hk
    omega
  have hln : ∀ n, L[k + 1]? = some n → n < c.blocks.length := fun n hn => (hL.at (k + 1) n hn).1
  obtain ⟨c1, hc1, hnext, hprev, hpay, hhd, htl, hcur, hmax, hbs, har, hlen⟩ :=
    move_to_front_fields c blk p h L[k + 1]? hpb hnb hhead hbp hbn hlb hlp hlh hln hbh
  refine ⟨c1, hc1, ?_, by rw [htl, hpb], hpay, hcur, hmax, hbs, har, hlen⟩
  have hlen' : (blk :: L.eraseIdx k).length = L.length := by
    rw [List.length_cons, List.length_eraseIdx_of_lt hkl]
    omega
  apply Linked.of_at
  · have he : L.eraseIdx k = L.erase blk := by
      rw [← hke]; exact (List.Nodup.erase_getElem hL.1 k hkl).symm
    rw [he, List.nodup_cons]
    exact ⟨fun hmem => ((List.Nodup.mem_erase_iff hL.1).mp hmem).1 rfl, hL.1.erase blk⟩
  · rfl
  · show c1.tail = (blk :: L.eraseIdx k).getLast?
    rw [htl, List.getLast?_eq_getElem?, hlen', getElem?_front_eraseIdx, hL.2.2.1,
      List.getLast?_eq_getElem?]
    have h1 : ¬ L.length - 1 = 0 := by omega
    rw [if_neg h1]
    by_cases hlast : k = L.length - 1
    · have h2 : L.length - 1 - 1 < k := by omega
      have e1 : L[L.length - 1]? = some blk := by
        have : L.length - 1 = k := hlast.symm
        rw [this]; exact hk
      have e2 : L[L.length - 1 - 1]? = some p := by
        have : L.length - 1 - 1 = k - 1 := by omega
        rw [this]; exact hpe
      rw [if_pos h2, if_pos e1, e2]
    · have h2 : ¬ L.length - 1 - 1 < k := by omega
      rw [if_neg h2]
      have h3 : ¬ L[L.length - 1]? = some blk := by
        intro e
        have := hL.inj (L.length - 1) k blk e hk
        omega
      rw [if_neg h3]
  · intro m x hx
    rw [getElem?_front_eraseIdx] at hx
    have hlenc : ({ c1 with head := some blk } : lru_cache).blocks.length = c.blocks.length :=
      hlen
    rw [hlenc]
    have hb : ∀ y, blk_at ({ c1 with head := some blk } : lru_cache) y = blk_at c1 y :=
      fun _ => rfl
    rw [hb, hnext, hprev, getElem?_front_eraseIdx, getElem?_front_eraseIdx]
    by_cases hm0 : m = 0
    · subst hm0
      simp only [if_true] at hx
      cases hx
      refine ⟨hlb, ?_, ?_⟩
      · have hk1 : 0 < k := by omega
        simp [hk1, hhe]
      · simp [hbh]
    · rw [if_neg hm0] at hx
      have hm1 : ¬ m + 1 = 0 := by omega
      by_cases hmk : m - 1 < k
      · rw [if_pos hmk] at hx
        obtain ⟨hlx, hnx, hpx⟩ := hL.at (m - 1) x hx
        have hxb : x ≠ blk := by
          intro e
          have := hL.inj (m - 1) k x hx (by rw [hk, e])
          omega
        have hxn : ¬ L[k + 1]? = some x := by
          intro e
          have := hL.inj (k + 1) (m - 1) x e hx
          omega
        refine ⟨hlx, ?_, ?_⟩
        · rw [if_neg hxb, if_neg hm1, Nat.add_sub_cancel]
          by_cases hmeq : m = k
          · have hxp : x = p := by
              have e : L[k - 1]? = some x := by rw [← hmeq]; exact hx
              rw [hpe] at e
              exact (Option.some.inj e).symm
            have hnlt : ¬ m < k := by omega
            rw [if_pos hxp, if_neg hnlt, hmeq]
          · have hxp : ¬ x = p := by
              intro e
              have := hL.inj (m - 1) (k - 1) x hx (by rw [hpe, e])
              omega
            have hlt : m < k := by omega
            have hidx : m - 1 + 1 = m := by omega
            rw [if_neg hxp, if_pos hlt, hnx, hidx]
        · rw [if_neg hxb, if_neg hxn, if_neg hm0]
          by_cases hm1' : m = 1
          · have e0 : m - 1 = 0 := by omega
            have hxh : x = h := by
              have e : L[0]? = some x := by rw [← e0]; exact hx
              rw [hhe] at e
              exact (Option.some.inj e).symm
            rw [if_pos hxh, if_pos e0]
          · have hxh : ¬ x = h := by
              intro e
              have := hL.inj (m - 1) 0 x hx (by rw [hhe, e])
              omega
            have e : ¬ m - 1 = 0 := by omega
            have e2 : m - 1 - 1 < k := by omega
            rw [if_neg hxh, if_neg e, if_pos e2, hpx, if_neg e]
      · rw [if_neg hmk] at hx
        obtain ⟨hlx, hnx, hpx⟩ := hL.at m x hx
        have hxb : x ≠ blk := by
          intro e
          have := hL.inj m k x hx (by rw [hk, e])
          omega
        have hxp : ¬ x = p := by
          intro e
          have := hL.inj m (k - 1) x hx (by rw [hpe, e])
          omega
        have hxh : ¬ x = h := by
          intro e
          have := hL.inj m 0 x hx (by rw [hhe, e])
          omega
        refine ⟨hlx, ?_, ?_⟩
        · have hnlt : ¬ m + 1 - 1 < k := by omega
          rw [if_neg hxb, if_neg hxp, if_neg hm1, if_neg hnlt, hnx]
        · have e : ¬ m - 1 = 0 := by omega
          rw [if_neg hxh, if_neg hxb, if_neg hm0, if_neg e, hpx, if_neg hm0]
          by_cases hmeq : m = k + 1
          · have hxn : L[k + 1]? = some x := by rw [← hmeq]; exact hx
            have e2 : m - 1 - 1 < k := by omega
            have e3 : m - 1 - 1 = k - 1 := by omega
            rw [if_pos hxn, if_pos e2, e3, hpe]
          · have hxn : ¬ L[k + 1]? = some x := by
              intro e
              have := hL.inj (k + 1) m x e hx
              omega
            have e2 : ¬ m - 1 - 1 < k := by omega
            rw [if_neg hxn, if_neg e2]

/-! ### Lookups that hit and lookups that miss -/

/-- C11 at a failing input: in the cache with three slots reached by the puts
1, 3, 5 and 4, the usage list is well formed (it visits the slots 2, 1, 0,
which are the filled slots) and the identifier 4 is resident: the filled slot
2 holds it, with size 2 and the bytes "AB".  Yet `lru_cache_get(4)` returns
`NULL`: the array holds 3, 5, 4, and the lookup by bisection does not reach
slot 2 (`find_block` returns -2). -/
theorem lru_get_resident_failure :
    observe (cache_new 3 4) (ascending_puts ++ [.put 4 "AB".toList 2])
      (fun c => decide (Linked c [2, 1, 0] ∧ ∀ x, x < c.cur_blocks → x ∈ [2, 1, 0]))
      = some true ∧
    observe (cache_new 3 4) (ascending_puts ++ [.put 4 "AB".toList 2])
      (fun c => (c.cur_blocks, array_ids c)) = some (3, [3, 5, 4]) ∧
    observe (cache_new 3 4) (ascending_puts ++ [.put 4 "AB".toList 2])
      (fun c => (entry_id c 2, entry_size c 2, entry_bytes c 2))
      = some (4, 2, "AB".toList) ∧
    observe (cache_new 3 4) (ascending_puts ++ [.put 4 "AB".toList 2])
      (fun c => (find_block c 4).toOption) = some (some (-2)) ∧
    get_after (cache_new 3 4) (ascending_puts ++ [.put 4 "AB".toList 2]) 4
      = some false := by
  decide

/-- A get whose lookup succeeds: on a cache whose usage list is well formed
(it visits the slots `order`, among them every filled slot) and for an
identifier that `find_block` finds (by `find_block_sorted`, every identifier
held in an ascending array), `lru_cache_get` returns the entry of the slot
that holds the identifier, with identifier, size and bytes as before; that slot is the head of the usage list
afterwards and the other slots keep their relative order (the list is the old
one with the slot moved to the front, so a slot that was the tail leaves its
predecessor as the new tail); the payloads of all slots, their order in the
array and `cur_blocks` are unchanged. -/
theorem lru_cache_get_hit (cache : lru_cache) (order : List Nat) (id : Nat) (i : Int)
    (hL : Linked cache order) (hcov : ∀ x, x < cache.cur_blocks → x ∈ order)
    (hfind : find_block cache id = .ok i) (hi : 0 ≤ i) :
    ∃ c1, lru_cache_get cache id = .ok (some i.toNat, c1) ∧
      entry_id c1 i.toNat = id ∧
      entry_size c1 i.toNat = entry_size cache i.toNat ∧
      entry_bytes c1 i.toNat = entry_bytes cache i.toNat ∧
      Linked c1 (i.toNat :: order.erase i.toNat) ∧
      c1.head = some i.toNat ∧
      (cache.tail = some i.toNat → cache.head ≠ some i.toNat →
        c1.tail = (blk_at cache i.toNat).previous) ∧
      (∀ x, (blk_at c1 x).payload = (blk_at cache x).payload) ∧
      c1.arena = cache.arena ∧
      array_ids c1 = array_ids cache ∧
      c1.cur_blocks = cache.cur_blocks := by
  obtain ⟨r, hr, hcase⟩ := find_block_total cache id
  rw [hfind] at hr
  cases hr
  rcases hcase with ⟨-, hlt, hid⟩ | ⟨p, hp, -⟩
  swap
  · omega
  have hmem : i.toNat ∈ order := hcov _ (by omega)
  obtain ⟨k, hkl, hke⟩ := List.mem_iff_getElem.mp hmem
  have hk : order[k]? = some i.toNat := by rw [List.getElem?_eq_getElem hkl, hke]
  by_cases hhead : cache.head = some i.toNat
  · have hk0 : k = 0 := by
      have h0 : order[0]? = some i.toNat := by
        rw [← List.head?_eq_getElem?, ← hL.2.1, hhead]
      exact hL.inj k 0 _ hk h0
    have horder : i.toNat :: order.erase i.toNat = order := by
      cases order with
      | nil => simp at hmem
      | cons a rest =>
        subst hk0
        simp only [List.getElem?_cons_zero, Option.some.injEq] at hk
        subst hk
        simp
    refine ⟨cache, ?_, hid, rfl, rfl, by rw [horder]; exact hL, hhead, ?_, fun _ => rfl, rfl,
      rfl, rfl⟩
    · simp only [lru_cache_get, hfind]
      have : ¬ i < 0 := by omega
      simp [this, hhead]
    · intro _ hne
      exact absurd hhead hne
  · have hk0 : k ≠ 0 := by
      intro h0
      subst h0
      apply hhead
      rw [hL.2.1, List.head?_eq_getElem?, hk]
    obtain ⟨c1, hc1, hlinked, htail, hpay, hcur, hmax, hbs, har, hlen⟩ :=
      move_to_front_linked cache order k i.toNat hL hk hk0
    have herase : order.eraseIdx k = order.erase i.toNat := by
      rw [← hke]; exact (List.Nodup.erase_getElem hL.1 k hkl).symm
    rw [herase] at hlinked
    have hne : ¬ some i.toNat = cache.head := fun h => hhead h.symm
    refine ⟨{ c1 with head := some i.toNat }, ?_, ?_, ?_, ?_, hlinked, rfl, ?_, hpay, har, ?_,
      hcur⟩
    · simp only [lru_cache_get, hfind]
      have : ¬ i < 0 := by omega
      simp [this, hne, hc1]
    · show (blk_at c1 i.toNat).payload.id = id
      rw [hpay]; exact hid
    · show (blk_at c1 i.toNat).payload.size = (blk_at cache i.toNat).payload.size
      rw [hpay]
    · show (c1.arena.drop (blk_at c1 i.toNat).payload.data).take (blk_at c1 i.toNat).payload.size
        = (cache.arena.drop (blk_at cache i.toNat).payload.data).take
            (blk_at cache i.toNat).payload.size
      rw [hpay, har]
    · intro ht _
      show c1.tail = _
      rw [htail, if_pos ht]
    · show (List.range c1.cur_blocks).map (fun k => (blk_at c1 k).payload.id)
        = (List.range cache.cur_blocks).map (fun k => (blk_at cache k).payload.id)
      rw [hcur]
      apply List.map_congr_left
      intro x _
      rw [hpay]

/-- C12: for every cache state and every identifier the lookup does not find,
in particular every identifier that no filled slot holds, `lru_cache_get`
returns `NULL` and the state is unchanged in all its parts. -/
theorem lru_cache_get_miss (cache : lru_cache) (id : Nat) :
    (∃ i, find_block cache id = .ok i) ∧
    (∀ i, find_block cache id = .ok i → i < 0 → lru_cache_get cache id = .ok (none, cache)) ∧
    (id ∉ array_ids cache → lru_cache_get cache id = .ok (none, cache)) := by
  obtain ⟨r, hr, hcase⟩ := find_block_total cache id
  have hmiss : ∀ i, find_block cache id = .ok i → i < 0 →
      lru_cache_get cache id = .ok (none, cache) := by
    intro i hi hneg
    simp [lru_cache_get, hi, hneg]
  refine ⟨⟨r, hr⟩, hmiss, ?_⟩
  intro hni
  apply hmiss r hr
  rcases hcase with ⟨h0, hlt, hid⟩ | ⟨p, hp, -⟩
  · exact absurd ((mem_array_ids cache id).mpr ⟨r.toNat, by omega, hid⟩) hni
  · omega

/-! ### Bytes of the arena -/

theorem memcpy_getElem? (dest src : List Byte) (pos n i : Nat) (h1 : pos + n ≤ dest.length)
    (h2 : n ≤ src.length) :
    (memcpy dest pos src n)[i]?
      = if i < pos then dest[i]? else if i < pos + n then src[i - pos]? else dest[i]? := by
  unfold memcpy
  have hl1 : (dest.take pos).length = pos := by simp; omega
  have hl2 : (src.take n).length = n := by simp; omega
  by_cases hi1 : i < pos
  · rw [if_pos hi1, List.append_assoc, List.getElem?_append_left (by omega),
      List.getElem?_take_of_lt hi1]
  · rw [if_neg hi1, List.append_assoc, List.getElem?_append_right (by omega), hl1]
    by_cases hi2 : i < pos + n
    · rw [if_pos hi2, List.getElem?_append_left (by omega), List.getElem?_take_of_lt (by omega)]
    · rw [if_neg hi2, List.getElem?_append_right (by omega), hl2, List.getElem?_drop]
      congr 1
      omega

theorem memcpy_length (dest src : List Byte) (pos n : Nat) (h1 : pos + n ≤ dest.length)
    (h2 : n ≤ src.length) : (memcpy dest pos src n).length = dest.length := by
  unfold memcpy
  simp only [List.length_append, List.length_take, List.length_drop]
  omega

theorem getElem?_take_drop (l : List Byte) (a s i : Nat) :
    ((l.drop a).take s)[i]? = if i < s then l[a + i]? else none := by
  by_cases h : i < s
  · rw [if_pos h, List.getElem?_take_of_lt h, List.getElem?_drop]
  · rw [if_neg h]
    apply List.getElem?_eq_none
    simp only [List.length_take, List.length_drop]
    omega

/-- Reading back the bytes that `memcpy` wrote. -/
theorem memcpy_read_same (dest src : List Byte) (pos n : Nat) (h1 : pos + n ≤ dest.length)
    (h2 : n ≤ src.length) : ((memcpy dest pos src n).drop pos).take n = src.take n := by
  apply List.ext_getElem?
  intro i
  rw [getElem?_take_drop, memcpy_getElem? dest src pos n _ h1 h2]
  by_cases hi : i < n
  · have e1 : ¬ pos + i < pos := by omega
    have e2 : pos + i < pos + n := by omega
    have e3 : pos + i - pos = i := by omega
    rw [if_pos hi, if_neg e1, if_pos e2, e3, List.getElem?_take_of_lt hi]
  · rw [if_neg hi]
    symm
    apply List.getElem?_eq_none
    simp only [List.length_take]
    omega

/-- Bytes outside the range `memcpy` wrote are unchanged. -/
theorem memcpy_read_other (dest src : List Byte) (pos n a s : Nat)
    (h1 : pos + n ≤ dest.length) (h2 : n ≤ src.length) (hd : a + s ≤ pos ∨ pos + n ≤ a) :
    ((memcpy dest pos src n).drop a).take s = (dest.drop a).take s := by
  apply List.ext_getElem?
  intro i
  rw [getElem?_take_drop, getElem?_take_drop, memcpy_getElem? dest src pos n _ h1 h2]
  by_cases hi : i < s
  · rw [if_pos hi, if_pos hi]
    by_cases e1 : a + i < pos
    · rw [if_pos e1]
    · have e2 : ¬ a + i < pos + n := by omega
      rw [if_neg e1, if_neg e2]
  · rw [if_neg hi, if_neg hi]

/-! ### The end of `lru_cache_put` -/

theorem lru_cache_put_unfold (c : lru_cache) (id : Nat) (data : List Byte) (length : Nat)
    (i0 : Int) (hfind : find_block c id = .ok i0) (hlen : length ≤ c.block_size) :
    lru_cache_put c id (some data) length =
      (if i0 < 0 then
        (match (if c.cur_blocks = c.max_blocks
            then put_full c (if -(i0 + 1) = (c.max_blocks : Int) then (c.max_blocks : Int) - 1
              else -(i0 + 1))
            else put_grow c (if -(i0 + 1) = (c.max_blocks : Int) then (c.max_blocks : Int) - 1
              else -(i0 + 1))) with
          | .error e => .error e
          | .ok c1 => .ok ((if -(i0 + 1) = (c.max_blocks : Int) then (c.max_blocks : Int) - 1
              else -(i0 + 1)).toNat,
              put_write c1 (if -(i0 + 1) = (c.max_blocks : Int) then (c.max_blocks : Int) - 1
              else -(i0 + 1)).toNat id (some data) length))
      else if some i0.toNat ≠ c.head then
        (match move_to_front c i0.toNat with
          | .error e => .error e
          | .ok c1 => .ok (i0.toNat, put_write c1 i0.toNat id (some data) length))
      else .ok (i0.toNat, put_write c i0.toNat id (some data) length)) := by
  unfold lru_cache_put
  simp only [hfind, Option.isSome_some, true_or, not_true_eq_false, if_false, hlen]
  by_cases h0 : i0 < 0
  · simp only [h0, if_true]
    generalize (if c.cur_blocks = c.max_blocks
      then put_full c (if -(i0 + 1) = (c.max_blocks : Int) then (c.max_blocks : Int) - 1
        else -(i0 + 1))
      else put_grow c (if -(i0 + 1) = (c.max_blocks : Int) then (c.max_blocks : Int) - 1
        else -(i0 + 1))) = r
    cases r <;> rfl
  · simp only [h0, if_false]
    by_cases hh : some i0.toNat ≠ c.head
    · simp only [if_pos hh]
      cases hm : move_to_front c i0.toNat with
      | error e => rfl
      | ok c1 => rfl
    · simp only [if_neg hh]
      rfl

theorem put_write_fields (c : lru_cache) (blk id : Nat) (data : Option (List Byte))
    (length : Nat) (hb : blk < c.blocks.length) :
    (∀ x, (blk_at (put_write c blk id data length) x).payload
      = if x = blk then { id := id, data := (blk_at c blk).payload.data, size := length }
        else (blk_at c x).payload) ∧
    (∀ x, (blk_at (put_write c blk id data length) x).next = (blk_at c x).next) ∧
    (∀ x, (blk_at (put_write c blk id data length) x).previous = (blk_at c x).previous) ∧
    (put_write c blk id data length).head = some blk ∧
    (put_write c blk id data length).tail = c.tail ∧
    (put_write c blk id data length).cur_blocks = c.cur_blocks ∧
    (put_write c blk id data length).max_blocks = c.max_blocks ∧
    (put_write c blk id data length).block_size = c.block_size ∧
    (put_write c blk id data length).blocks.length = c.blocks.length ∧
    (put_write c blk id data length).arena
      = memcpy c.arena (blk_at c blk).payload.data (data.getD []) length := by
  unfold put_write
  refine ⟨?_, ?_, ?_, ?_, ?_, ?_, ?_, ?_, ?_, ?_⟩
  · intro x
    by_cases hx : x = blk
    · subst hx
      simp [payload_set_payload, hb]
    · simp [payload_set_payload, hx]
  · intro x; simp
  · intro x; simp
  · rfl
  · rfl
  · rfl
  · rfl
  · rfl
  · simp
  · rfl

theorem Linked.congr {c d : lru_cache} {L : List Nat} (h : Linked c L)
    (hh : d.head = c.head) (ht : d.tail = c.tail) (hl : d.blocks.length = c.blocks.length)
    (hn : ∀ x, (blk_at d x).next = (blk_at c x).next)
    (hp : ∀ x, (blk_at d x).previous = (blk_at c x).previous) : Linked d L := by
  refine ⟨h.1, by rw [hh]; exact h.2.1, by rw [ht]; exact h.2.2.1, ?_⟩
  intro k hk
  rw [hl, hn, hp]
  exact h.2.2.2 k hk

/-- What the final writes of `lru_cache_put` do to the entries, when the state
`c1` they start from has the payloads and the arena of a cache `c` with
disjoint storage regions. -/
theorem put_write_effect (c c1 : lru_cache) (blk id : Nat) (data : List Byte) (length : Nat)
    (hpay : ∀ x, (blk_at c1 x).payload = (blk_at c x).payload) (har : c1.arena = c.arena)
    (hl1 : c1.blocks.length = c.blocks.length) (hbs : c1.block_size = c.block_size)
    (hreg : regions_ok c) (hb : blk < c.blocks.length)
    (hlen : length ≤ c.block_size) (hdata : length ≤ data.length) :
    entry_id (put_write c1 blk id (some data) length) blk = id ∧
    entry_size (put_write c1 blk id (some data) length) blk = length ∧
    entry_bytes (put_write c1 blk id (some data) length) blk = data.take length ∧
    (∀ x, x < c.blocks.length → x ≠ blk →
      entry_id (put_write c1 blk id (some data) length) x = entry_id c x ∧
      entry_size (put_write c1 blk id (some data) length) x = entry_size c x ∧
      entry_bytes (put_write c1 blk id (some data) length) x = entry_bytes c x) ∧
    (∀ x, x ≠ blk →
      (blk_at (put_write c1 blk id (some data) length) x).payload = (blk_at c x).payload) ∧
    regions_ok (put_write c1 blk id (some data) length) := by
  obtain ⟨hp, -, -, -, -, -, -, hbs', hl', ha⟩ :=
    put_write_fields c1 blk id (some data) length (by rw [hl1]; exact hb)
  obtain ⟨hr1, hr2, hr3⟩ := hreg blk hb
  have hfit : (blk_at c blk).payload.data + length ≤ c.arena.length := by omega
  simp only [Option.getD_some] at ha
  rw [hpay, har] at ha
  refine ⟨?_, ?_, ?_, ?_, ?_, ?_⟩
  · simp [entry_id, hp]
  · simp [entry_size, hp]
  · simp only [entry_bytes, hp, if_true, ha]
    rw [hpay]
    exact memcpy_read_same _ _ _ _ hfit hdata
  · intro x hx hxb
    obtain ⟨hx1, hx2, hx3⟩ := hreg x hx
    refine ⟨by simp [entry_id, hp, hxb, hpay], by simp [entry_size, hp, hxb, hpay], ?_⟩
    simp only [entry_bytes, hp, if_neg hxb, ha, hpay]
    apply memcpy_read_other _ _ _ _ _ _ hfit hdata
    rcases hr3 x hx hxb with h | h
    · right; omega
    · left; omega
  · intro x hxb
    rw [hp, if_neg hxb, hpay]
  · intro k hk
    rw [hl', hl1] at hk
    obtain ⟨hk1, hk2, hk3⟩ := hreg k hk
    have hal : (put_write c1 blk id (some data) length).arena.length = c.arena.length := by
      rw [ha]; exact memcpy_length _ _ _ _ hfit hdata
    have hdat : ∀ y, (blk_at (put_write c1 blk id (some data) length) y).payload.data
        = (blk_at c y).payload.data := by
      intro y
      rw [hp]
      by_cases hy : y = blk
      · rw [if_pos hy, hpay, hy]
      · rw [if_neg hy, hpay]
    rw [hal, hbs', hbs, hl', hl1]
    refine ⟨by rw [hdat]; exact hk1, ?_, ?_⟩
    · rw [hp]
      by_cases hy : k = blk
      · rw [if_pos hy]; exact hlen
      · rw [if_neg hy, hpay]; exact hk2
    · intro j hj hjk
      rw [hdat, hdat]
      exact hk3 j hj hjk

theorem array_ids_congr (c d : lru_cache) (hcur : d.cur_blocks = c.cur_blocks)
    (h : ∀ x, x < c.cur_blocks → entry_id d x = entry_id c x) : array_ids d = array_ids c := by
  unfold array_ids
  rw [hcur]
  apply List.map_congr_left
  intro x hx
  exact h x (List.mem_range.mp hx)

/-- C13: on a cache with a well-formed usage list (over `order`, which holds
every filled slot) and disjoint storage regions, a put of an identifier the
lookup finds, with `length ≤ block_size`, returns the slot that already holds
it; the identifiers in the array and their order, `cur_blocks`, and the size
and bytes of every other slot are unchanged; the slot gets the new size and
bytes and becomes the head of the usage list, the other slots keeping their
relative order. -/
theorem lru_cache_put_resident (cache : lru_cache) (order : List Nat) (id : Nat)
    (data : List Byte) (length : Nat) (i : Int)
    (hL : Linked cache order) (hcov : ∀ x, x < cache.cur_blocks → x ∈ order)
    (hreg : regions_ok cache) (hfind : find_block cache id = .ok i) (hi : 0 ≤ i)
    (hlen : length ≤ cache.block_size) (hdata : length ≤ data.length) :
    ∃ c1, lru_cache_put cache id (some data) length = .ok (i.toNat, c1) ∧
      array_ids c1 = array_ids cache ∧
      c1.cur_blocks = cache.cur_blocks ∧
      entry_id c1 i.toNat = id ∧
      entry_size c1 i.toNat = length ∧
      entry_bytes c1 i.toNat = data.take length ∧
      (blk_at c1 i.toNat).payload.data = (blk_at cache i.toNat).payload.data ∧
      (∀ x, x < cache.blocks.length → x ≠ i.toNat →
        entry_id c1 x = entry_id cache x ∧ entry_size c1 x = entry_size cache x ∧
        entry_bytes c1 x = entry_bytes cache x) ∧
      Linked c1 (i.toNat :: order.erase i.toNat) ∧
      c1.head = some i.toNat ∧
      regions_ok c1 := by
  obtain ⟨r, hr, hcase⟩ := find_block_total cache id
  rw [hfind] at hr
  cases hr
  rcases hcase with ⟨-, hlt, hid⟩ | ⟨p, hp, -⟩
  swap
  · omega
  have hmem : i.toNat ∈ order := hcov _ (by omega)
  obtain ⟨k, hkl, hke⟩ := List.mem_iff_getElem.mp hmem
  have hk : order[k]? = some i.toNat := by rw [List.getElem?_eq_getElem hkl, hke]
  have hb : i.toNat < cache.blocks.length := (hL.at k _ hk).1
  have hnotneg : ¬ i < 0 := by omega
  rw [lru_cache_put_unfold cache id data length i hfind hlen, if_neg hnotneg]
  -- the common end of both cases
  have finish : ∀ c1 : lru_cache, (∀ x, (blk_at c1 x).payload = (blk_at cache x).payload) →
      c1.arena = cache.arena → c1.blocks.length = cache.blocks.length →
      c1.block_size = cache.block_size → c1.cur_blocks = cache.cur_blocks →
      Linked { c1 with head := some i.toNat } (i.toNat :: order.erase i.toNat) →
      (array_ids (put_write c1 i.toNat id (some data) length) = array_ids cache ∧
      (put_write c1 i.toNat id (some data) length).cur_blocks = cache.cur_blocks ∧
      entry_id (put_write c1 i.toNat id (some data) length) i.toNat = id ∧
      entry_size (put_write c1 i.toNat id (some data) length) i.toNat = length ∧
      entry_bytes (put_write c1 i.toNat id (some data) length) i.toNat = data.take length ∧
      (blk_at (put_write c1 i.toNat id (some data) length) i.toNat).payload.data
        = (blk_at cache i.toNat).payload.data ∧
      (∀ x, x < cache.blocks.length → x ≠ i.toNat →
        entry_id (put_write c1 i.toNat id (some data) length) x = entry_id cache x ∧
        entry_size (put_write c1 i.toNat id (some data) length) x = entry_size cache x ∧
        entry_bytes (put_write c1 i.toNat id (some data) length) x = entry_bytes cache x) ∧
      Linked (put_write c1 i.toNat id (some data) length) (i.toNat :: order.erase i.toNat) ∧
      (put_write c1 i.toNat id (some data) length).head = some i.toNat ∧
      regions_ok (put_write c1 i.toNat id (some data) length)) := by
    intro c1 hpay har hl1 hbs hcur hlinked
    obtain ⟨e1, e2, e3, e4, e5, e6⟩ :=
      put_write_effect cache c1 i.toNat id data length hpay har hl1 hbs hreg hb hlen hdata
    obtain ⟨fpay, fn, fp, fh, ft, fc, -, -, fl, -⟩ :=
      put_write_fields c1 i.toNat id (some data) length (by rw [hl1]; exact hb)
    refine ⟨?_, by rw [fc, hcur], e1, e2, e3, by rw [fpay, if_pos rfl, hpay], e4, ?_, fh, e6⟩
    · apply array_ids_congr _ _ (by rw [fc, hcur])
      intro x hx
      by_cases hxb : x = i.toNat
      · rw [hxb, e1, hid]
      · show (blk_at _ x).payload.id = (blk_at cache x).payload.id
        rw [e5 x hxb]
    · exact hlinked.congr fh ft fl fn fp
  by_cases hhead : cache.head = some i.toNat
  · have hk0 : k = 0 := by
      have h0 : order[0]? = some i.toNat := by
        rw [← List.head?_eq_getElem?, ← hL.2.1, hhead]
      exact hL.inj k 0 _ hk h0
    have horder : i.toNat :: order.erase i.toNat = order := by
      cases order with
      | nil => simp at hmem
      | cons a rest =>
        subst hk0
        simp only [List.getElem?_cons_zero, Option.some.injEq] at hk
        subst hk
        simp
    have hnn : ¬ some i.toNat ≠ cache.head := fun h => h hhead.symm
    rw [if_neg hnn]
    refine ⟨_, rfl, finish cache (fun _ => rfl) rfl rfl rfl rfl ?_⟩
    rw [horder]
    exact hL.congr hhead.symm rfl rfl (fun _ => rfl) (fun _ => rfl)
  · have hk0 : k ≠ 0 := by
      intro h0
      subst h0
      apply hhead
      rw [hL.2.1, List.head?_eq_getElem?, hk]
    obtain ⟨c1, hc1, hlinked, htail, hpay, hcur, hmax, hbs, har, hl1⟩ :=
      move_to_front_linked cache order k i.toNat hL hk hk0
    have herase : order.eraseIdx k = order.erase i.toNat := by
      rw [← hke]; exact (List.Nodup.erase_getElem hL.1 k hkl).symm
    rw [herase] at hlinked
    have hne : some i.toNat ≠ cache.head := fun h => hhead h.symm
    rw [if_pos hne, hc1]
    exact ⟨_, rfl, finish c1 hpay har hl1 hbs hcur hlinked⟩

/-! ### Shifting slots -/

theorem shift_block_eq (c : lru_cache) (dst src : Nat) :
    shift_block c dst src
      = realias (relink_next (relink_previous (set_blk c dst (blk_at c src)) dst) dst) dst src :=
  rfl

theorem relink_previous_frame (c : lru_cache) (k : Nat) :
    (relink_previous c k).head = c.head ∧ (relink_previous c k).tail = c.tail ∧
    (relink_previous c k).cur_blocks = c.cur_blocks ∧
    (relink_previous c k).max_blocks = c.max_blocks ∧
    (relink_previous c k).block_size = c.block_size ∧
    (relink_previous c k).arena = c.arena ∧
    (relink_previous c k).blocks.length = c.blocks.length ∧
    (∀ x, (blk_at (relink_previous c k) x).payload = (blk_at c x).payload) := by
  unfold relink_previous
  cases (blk_at c k).previous <;> simp

theorem relink_next_frame (c : lru_cache) (k : Nat) :
    (relink_next c k).head = c.head ∧ (relink_next c k).tail = c.tail ∧
    (relink_next c k).cur_blocks = c.cur_blocks ∧
    (relink_next c k).max_blocks = c.max_blocks ∧
    (relink_next c k).block_size = c.block_size ∧
    (relink_next c k).arena = c.arena ∧
    (relink_next c k).blocks.length = c.blocks.length ∧
    (∀ x, (blk_at (relink_next c k) x).payload = (blk_at c x).payload) := by
  unfold relink_next
  cases (blk_at c k).next <;> simp

theorem realias_frame (c : lru_cache) (dst src : Nat) :
    (realias c dst src).blocks = c.blocks ∧
    (realias c dst src).cur_blocks = c.cur_blocks ∧
    (realias c dst src).max_blocks = c.max_blocks ∧
    (realias c dst src).block_size = c.block_size ∧
    (realias c dst src).arena = c.arena ∧
    (c.head.isSome → (realias c dst src).head.isSome) := by
  unfold realias
  by_cases h1 : c.head = some src <;> by_cases h2 : c.tail = some src <;> simp [h1, h2]

theorem set_blk_frame (c : lru_cache) (k : Nat) (b : block) :
    (set_blk c k b).head = c.head ∧ (set_blk c k b).tail = c.tail ∧
    (set_blk c k b).cur_blocks = c.cur_blocks ∧ (set_blk c k b).max_blocks = c.max_blocks ∧
    (set_blk c k b).block_size = c.block_size ∧ (set_blk c k b).arena = c.arena :=
  ⟨rfl, rfl, rfl, rfl, rfl, rfl⟩

theorem shift_block_frame (c : lru_cache) (dst src : Nat) :
    (shift_block c dst src).cur_blocks = c.cur_blocks ∧
    (shift_block c dst src).max_blocks = c.max_blocks ∧
    (shift_block c dst src).block_size = c.block_size ∧
    (shift_block c dst src).arena = c.arena ∧
    (shift_block c dst src).blocks.length = c.blocks.length ∧
    (c.head.isSome → (shift_block c dst src).head.isSome) := by
  rw [shift_block_eq]
  obtain ⟨a1, a2, a3, a4, a5, a6⟩ :=
    realias_frame (relink_next (relink_previous (set_blk c dst (blk_at c src)) dst) dst) dst src
  obtain ⟨b1, b2, b3, b4, b5, b6, b7, b8⟩ :=
    relink_next_frame (relink_previous (set_blk c dst (blk_at c src)) dst) dst
  obtain ⟨d1, d2, d3, d4, d5, d6, d7, d8⟩ :=
    relink_previous_frame (set_blk c dst (blk_at c src)) dst
  refine ⟨by rw [a2, b3, d3]; rfl, by rw [a3, b4, d4]; rfl, by rw [a4, b5, d5]; rfl,
    by rw [a5, b6, d6]; rfl, by rw [a1, b7, d7, set_blk_length], ?_⟩
  intro hh
  apply a6
  rw [b1, d1]
  exact hh

theorem shift_block_payload (c : lru_cache) (dst src x : Nat) :
    (blk_at (shift_block c dst src) x).payload
      = if x = dst ∧ dst < c.blocks.length then (blk_at c src).payload
        else (blk_at c x).payload := by
  rw [shift_block_eq]
  obtain ⟨a1, -⟩ :=
    realias_frame (relink_next (relink_previous (set_blk c dst (blk_at c src)) dst) dst) dst src
  rw [blk_at_congr _ _ a1, (relink_next_frame _ dst).2.2.2.2.2.2.2,
    (relink_previous_frame _ dst).2.2.2.2.2.2.2, blk_at_set_blk]
  split <;> rfl

/-- The loop of the case with free slots ends within `b - a` iterations and
moves the payloads of the slots `a .. b - 1` one slot up. -/
theorem put_grow_loop_total (a : Nat) : ∀ (fuel : Nat) (c : lru_cache) (b : Nat),
    b ≤ a + fuel → b < c.blocks.length →
    ∃ c1, put_grow_loop (a : Int) fuel c (b : Int) = .ok c1 ∧
      c1.cur_blocks = c.cur_blocks ∧ c1.max_blocks = c.max_blocks ∧
      c1.block_size = c.block_size ∧ c1.arena = c.arena ∧
      c1.blocks.length = c.blocks.length ∧ (c.head.isSome → c1.head.isSome) ∧
      (∀ x, (blk_at c1 x).payload
        = if a < x ∧ x ≤ b then (blk_at c (x - 1)).payload else (blk_at c x).payload) := by
  intro fuel
  induction fuel with
  | zero =>
    intro c b hb hlen
    have : ¬ ((b : Int) > (a : Int)) := by omega
    refine ⟨c, by simp [put_grow_loop, this], rfl, rfl, rfl, rfl, rfl, id, ?_⟩
    intro x
    have : ¬ (a < x ∧ x ≤ b) := by omega
    rw [if_neg this]
  | succ fuel ih =>
    intro c b hb hlen
    by_cases hgt : (b : Int) > (a : Int)
    · have hb1 : ((b : Int) - 1) = ((b - 1 : Nat) : Int) := by omega
      have htn : (b : Int).toNat = b := by omega
      have htn1 : ((b : Int) - 1).toNat = b - 1 := by omega
      obtain ⟨f1, f2, f3, f4, f5, f6⟩ := shift_block_frame c b (b - 1)
      obtain ⟨c1, hc1, g1, g2, g3, g4, g5, g6, g7⟩ :=
        ih (shift_block c b (b - 1)) (b - 1) (by omega) (by rw [f5]; omega)
      refine ⟨c1, ?_, by rw [g1, f1], by rw [g2, f2], by rw [g3, f3], by rw [g4, f4],
        by rw [g5, f5], fun h => g6 (f6 h), ?_⟩
      · simp only [put_grow_loop, hgt, if_true, htn, htn1]
        rw [hb1]
        exact hc1
      · intro x
        rw [g7, shift_block_payload, shift_block_payload]
        by_cases hx1 : a < x ∧ x ≤ b - 1
        · have e1 : ¬ (x - 1 = b ∧ b < c.blocks.length) := by omega
          have e2 : a < x ∧ x ≤ b := by omega
          rw [if_pos hx1, if_neg e1, if_pos e2]
        · rw [if_neg hx1]
          by_cases hxb : x = b
          · have e1 : x = b ∧ b < c.blocks.length := ⟨hxb, hlen⟩
            have e2 : a < x ∧ x ≤ b := by omega
            rw [if_pos e1, if_pos e2, hxb]
          · have e1 : ¬ (x = b ∧ b < c.blocks.length) := by omega
            have e2 : ¬ (a < x ∧ x ≤ b) := by omega
            rw [if_neg e1, if_neg e2]
    · refine ⟨c, by simp [put_grow_loop, hgt], rfl, rfl, rfl, rfl, rfl, id, ?_⟩
      intro x
      have : ¬ (a < x ∧ x ≤ b) := by omega
      rw [if_neg this]

/-- The loop of the full case leaves the counters, the arena and the size of
the array alone, whenever it ends. -/
theorem put_full_loop_frame (i dir : Int) : ∀ (fuel : Nat) (c c1 : lru_cache) (j : Int),
    put_full_loop i dir fuel c j = .ok c1 →
    c1.cur_blocks = c.cur_blocks ∧ c1.max_blocks = c.max_blocks ∧
    c1.block_size = c.block_size ∧ c1.arena = c.arena ∧
    c1.blocks.length = c.blocks.length ∧ (c.head.isSome → c1.head.isSome) := by
  intro fuel
  induction fuel with
  | zero =>
    intro c c1 j h
    by_cases hj : j < i
    · simp [put_full_loop, hj] at h
    · simp only [put_full_loop, hj, if_false, Except.ok.injEq] at h
      subst h
      exact ⟨rfl, rfl, rfl, rfl, rfl, id⟩
  | succ fuel ih =>
    intro c c1 j h
    by_cases hj : j < i
    · simp only [put_full_loop, hj, if_true] at h
      obtain ⟨f1, f2, f3, f4, f5, f6⟩ := shift_block_frame c j.toNat (j + dir).toNat
      obtain ⟨g1, g2, g3, g4, g5, g6⟩ := ih _ _ _ h
      exact ⟨by rw [g1, f1], by rw [g2, f2], by rw [g3, f3], by rw [g4, f4], by rw [g5, f5],
        fun hh => g6 (f6 hh)⟩
    · simp only [put_full_loop, hj, if_false, Except.ok.injEq] at h
      subst h
      exact ⟨rfl, rfl, rfl, rfl, rfl, id⟩

/-! ### Inserting into a cache with free slots -/

/-- The branch for a cache with free slots returns when it is entered with an
insertion slot `p ≤ cur_blocks`: it raises `cur_blocks` by one, moves the
payloads of the slots `p .. cur_blocks - 1` one slot up and gives the slot `p`
the storage region of the first unused slot. -/
theorem put_grow_spec (c : lru_cache) (p : Nat) (hp : p ≤ c.cur_blocks)
    (hcur : c.cur_blocks < c.max_blocks) (hlen : c.blocks.length = c.max_blocks)
    (hhead : 0 < c.cur_blocks → c.head.isSome) :
    ∃ c1, put_grow c (p : Int) = .ok c1 ∧
      c1.cur_blocks = c.cur_blocks + 1 ∧ c1.max_blocks = c.max_blocks ∧
      c1.block_size = c.block_size ∧ c1.arena = c.arena ∧
      c1.blocks.length = c.blocks.length ∧
      (∀ x, (blk_at c1 x).payload
        = if x = p then { (blk_at c p).payload with
                          data := (blk_at c c.cur_blocks).payload.data }
          else if p < x ∧ x ≤ c.cur_blocks then (blk_at c (x - 1)).payload
          else (blk_at c x).payload) := by
  have hpl : p < c.blocks.length := by omega
  by_cases h0 : c.cur_blocks > 0
  · obtain ⟨c1, hc1, g1, g2, g3, g4, g5, g6, g7⟩ :=
      put_grow_loop_total p c.max_blocks c c.cur_blocks (by omega) (by omega)
    have hj : (c.cur_blocks : Int) - (p : Int) + (p : Int) = (c.cur_blocks : Int) := by omega
    have hh1 := g6 (hhead h0)
    obtain ⟨h, hh⟩ := Option.isSome_iff_exists.mp hh1
    have hpn : (p : Int).toNat = p := by omega
    refine ⟨_, by
      simp only [put_grow, h0, if_true, hj, hc1, set_next_head, set_payload_head, hh, hpn]
      rfl, ?_, ?_, ?_, ?_, ?_, ?_⟩
    · simp [g1]
    · simp [g2]
    · simp [g3]
    · simp [g4]
    · simp [g5]
    · intro x
      simp only [blk_at_mk, slot_at_blocks, payload_set_previous, payload_set_next,
        payload_set_payload, g5, g7]
      by_cases hx : x = p
      · subst hx
        have e1 : ¬ (x < x ∧ x ≤ c.cur_blocks) := by omega
        simp only [true_and, hpl, if_true, e1, if_false]
      · simp only [hx, false_and, if_false]
  · have hc0 : c.cur_blocks = 0 := by omega
    have hp0 : p = 0 := by omega
    subst hp0
    have hres : put_grow c ((0 : Nat) : Int)
        = .ok { c with tail := some 0, cur_blocks := c.cur_blocks + 1 } := by
      simp only [put_grow, h0, if_false]
      rfl
    refine ⟨_, hres, rfl, rfl, rfl, rfl, rfl, ?_⟩
    intro x
    simp only [blk_at_mk, slot_at_blocks, hc0]
    by_cases hx : x = 0
    · subst hx
      simp
    · have e1 : ¬ (0 < x ∧ x ≤ 0) := by omega
      simp [hx, e1]

/-- On a sorted prefix that does not hold `id`, the lookup returns `-p - 1`
for the split point `p` of the prefix, which is the rank of `id`. -/
theorem find_block_miss_sorted (cache : lru_cache) (id : Nat) (hs : ids_ascending cache)
    (hni : id ∉ array_ids cache) :
    ∃ p : Nat, find_block cache id = .ok (-(p : Int) - 1) ∧ p ≤ cache.cur_blocks ∧
      rank cache id = p ∧
      (∀ k : Nat, k < p → entry_id cache k < id) ∧
      (∀ k : Nat, p ≤ k → k < cache.cur_blocks → id < entry_id cache k) := by
  obtain ⟨r, hr, hcase⟩ := find_block_loop_sorted cache id hs cache.cur_blocks 0
    ((cache.cur_blocks : Int) - 1) (le_refl _) (by omega) (by omega) (by omega)
    (fun k hk => by omega) (fun k hk hk2 => by omega)
  rcases hcase with ⟨h0, hlt, hid⟩ | ⟨p, hp, hpc, hlo, hup⟩
  · exact absurd ((mem_array_ids cache id).mpr ⟨r.toNat, by omega, hid⟩) hni
  · exact ⟨p, by rw [← hp]; exact hr, hpc, rank_of_split cache id p hpc hlo hup, hlo, hup⟩

theorem array_ids_split (cache : lru_cache) (id p : Nat) (hp : p ≤ cache.cur_blocks)
    (hlo : ∀ k : Nat, k < p → entry_id cache k < id)
    (hup : ∀ k : Nat, p ≤ k → k < cache.cur_blocks → id < entry_id cache k) :
    (array_ids cache).filter (fun x => x < id) = (List.range p).map (entry_id cache) ∧
    (array_ids cache).filter (fun x => id < x)
      = (List.range (cache.cur_blocks - p)).map (fun k => entry_id cache (p + k)) := by
  have hsplit : array_ids cache
      = (List.range p).map (entry_id cache)
        ++ (List.range (cache.cur_blocks - p)).map (fun k => entry_id cache (p + k)) := by
    apply List.ext_getElem?
    intro n
    by_cases hn : n < p
    · rw [List.getElem?_append_left (by simpa using hn),
        array_ids_getElem? cache n (by omega)]
      simp [List.getElem?_map, List.getElem?_range hn]
    · rw [List.getElem?_append_right (by simpa using hn)]
      by_cases hn2 : n < cache.cur_blocks
      · rw [array_ids_getElem? cache n hn2]
        have : n - p < cache.cur_blocks - p := by omega
        simp only [List.length_map, List.length_range, List.getElem?_map,
          List.getElem?_range this, Option.map_some']
        congr 2
        omega
      · have h1 : (array_ids cache)[n]? = none := by
          apply List.getElem?_eq_none
          rw [array_ids_length]; omega
        rw [h1]
        symm
        apply List.getElem?_eq_none
        simp only [List.length_map, List.length_range]
        omega
  have hA1 : ((List.range p).map (entry_id cache)).filter (fun x => x < id)
      = (List.range p).map (entry_id cache) := by
    apply List.filter_eq_self.mpr
    intro a ha
    simp only [List.mem_map, List.mem_range] at ha
    obtain ⟨k, hk, rfl⟩ := ha
    simpa using hlo k hk
  have hA2 : ((List.range p).map (entry_id cache)).filter (fun x => id < x) = [] := by
    apply List.filter_eq_nil_iff.mpr
    intro a ha
    simp only [List.mem_map, List.mem_range] at ha
    obtain ⟨k, hk, rfl⟩ := ha
    have := hlo k hk
    simp only [decide_eq_true_eq]
    omega
  have hB1 : ((List.range (cache.cur_blocks - p)).map
      (fun k => entry_id cache (p + k))).filter (fun x => x < id) = [] := by
    apply List.filter_eq_nil_iff.mpr
    intro a ha
    simp only [List.mem_map, List.mem_range] at ha
    obtain ⟨k, hk, rfl⟩ := ha
    have := hup (p + k) (by omega) (by omega)
    simp only [decide_eq_true_eq]
    omega
  have hB2 : ((List.range (cache.cur_blocks - p)).map
      (fun k => entry_id cache (p + k))).filter (fun x => id < x)
      = (List.range (cache.cur_blocks - p)).map (fun k => entry_id cache (p + k)) := by
    apply List.filter_eq_self.mpr
    intro a ha
    simp only [List.mem_map, List.mem_range] at ha
    obtain ⟨k, hk, rfl⟩ := ha
    simpa using hup (p + k) (by omega) (by omega)
  constructor
  · conv_lhs => rw [hsplit]
    rw [List.filter_append, hA1, hB1, List.append_nil]
  · conv_lhs => rw [hsplit]
    rw [List.filter_append, hA2, hB2, List.nil_append]

theorem ids_ascending_of_lt (cache : lru_cache)
    (h : ∀ a b, a < b → b < cache.cur_blocks → entry_id cache a < entry_id cache b) :
    ids_ascending cache := by
  unfold ids_ascending
  rw [List.pairwise_iff_getElem]
  intro i j hi hj hij
  rw [array_ids_length] at hi hj
  have e1 := array_ids_getElem? cache i hi
  have e2 := array_ids_getElem? cache j hj
  rw [List.getElem?_eq_getElem (by rw [array_ids_length]; exact hi)] at e1
  rw [List.getElem?_eq_getElem (by rw [array_ids_length]; exact hj)] at e2
  rw [Option.some.inj e1, Option.some.inj e2]
  exact h i j hij hj

/-- C19: on a cache with a strictly ascending prefix, disjoint storage regions
and free slots (`cur_blocks < max_blocks`), a put of an identifier that no
filled slot holds, with `length ≤ block_size`, returns; `cur_blocks` grows by
exactly one, the identifiers of the filled prefix are the previous ones with
`id` inserted at its sorted position, still strictly ascending, and every
identifier that was resident keeps its size and bytes in the slot it now
occupies (the same slot below the insertion point, the next slot above). -/
theorem lru_cache_put_grow (cache : lru_cache) (id : Nat) (data : List Byte) (length : Nat)
    (hs : ids_ascending cache) (hreg : regions_ok cache)
    (hlenb : cache.blocks.length = cache.max_blocks)
    (hcur : cache.cur_blocks < cache.max_blocks)
    (hhead : 0 < cache.cur_blocks → cache.head.isSome)
    (hni : id ∉ array_ids cache)
    (hlen : length ≤ cache.block_size) (hdata : length ≤ data.length) :
    ∃ c1, lru_cache_put cache id (some data) length = .ok (rank cache id, c1) ∧
      c1.cur_blocks = cache.cur_blocks + 1 ∧
      array_ids c1 = (array_ids cache).filter (fun x => x < id)
        ++ id :: (array_ids cache).filter (fun x => id < x) ∧
      ids_ascending c1 ∧
      (∀ k, k < cache.cur_blocks →
        entry_id c1 (if k < rank cache id then k else k + 1) = entry_id cache k ∧
        entry_size c1 (if k < rank cache id then k else k + 1) = entry_size cache k ∧
        entry_bytes c1 (if k < rank cache id then k else k + 1) = entry_bytes cache k) ∧
      entry_id c1 (rank cache id) = id ∧
      entry_size c1 (rank cache id) = length ∧
      entry_bytes c1 (rank cache id) = data.take length ∧
      c1.head = some (rank cache id) ∧
      regions_ok c1 := by
  obtain ⟨p, hfind, hpc, hrank, hlo, hup⟩ := find_block_miss_sorted cache id hs hni
  rw [hrank]
  obtain ⟨cg, hcg, gcur, gmax, gbs, gar, glen, gpay⟩ :=
    put_grow_spec cache p hpc hcur hlenb hhead
  have hpl : p < cache.blocks.length := by omega
  have hcl : cache.cur_blocks < cache.blocks.length := by omega
  -- the call, unfolded
  have hcall : lru_cache_put cache id (some data) length
      = .ok (p, put_write cg p id (some data) length) := by
    rw [lru_cache_put_unfold cache id data length _ hfind hlen]
    have e1 : -(p : Int) - 1 < 0 := by omega
    have e2 : -(-(p : Int) - 1 + 1) = (p : Int) := by omega
    have e3 : ¬ (p : Int) = (cache.max_blocks : Int) := by omega
    have e4 : ¬ cache.cur_blocks = cache.max_blocks := by omega
    have e5 : (p : Int).toNat = p := by omega
    simp only [e1, if_true, e2, e3, if_false, e4, hcg, e5]
  -- the storage regions after the shift
  have hdat : ∀ x, (blk_at cg x).payload.data
      = (blk_at cache (if x = p then cache.cur_blocks
          else if p < x ∧ x ≤ cache.cur_blocks then x - 1 else x)).payload.data := by
    intro x
    rw [gpay]
    by_cases h1 : x = p
    · simp [h1]
    · by_cases h2 : p < x ∧ x ≤ cache.cur_blocks
      · simp [h1, h2]
      · simp [h1, h2]
  have hregg : regions_ok cg := by
    intro k hk
    rw [glen] at hk
    rw [gar, gbs, glen, hdat]
    have hσk : (if k = p then cache.cur_blocks
        else if p < k ∧ k ≤ cache.cur_blocks then k - 1 else k) < cache.blocks.length := by
      split
      · exact hcl
      · split <;> omega
    obtain ⟨r1, -, r3⟩ := hreg _ hσk
    refine ⟨r1, ?_, ?_⟩
    · rw [gpay]
      by_cases h1 : k = p
      · rw [if_pos h1]
        exact (hreg p hpl).2.1
      · rw [if_neg h1]
        by_cases h2 : p < k ∧ k ≤ cache.cur_blocks
        · rw [if_pos h2]
          exact (hreg (k - 1) (by omega)).2.1
        · rw [if_neg h2]
          exact (hreg k hk).2.1
    · intro j hj hjk
      rw [hdat]
      have hσj : (if j = p then cache.cur_blocks
          else if p < j ∧ j ≤ cache.cur_blocks then j - 1 else j) < cache.blocks.length := by
        split
        · exact hcl
        · split <;> omega
      apply r3 _ hσj
      intro heq
      apply hjk
      split_ifs at heq <;> omega
  obtain ⟨e1, e2, e3, e4, e5, e6⟩ :=
    put_write_effect cg cg p id data length (fun _ => rfl) rfl rfl rfl hregg
      (by rw [glen]; exact hpl) (by rw [gbs]; exact hlen) hdata
  obtain ⟨-, -, -, fh, -, fc, -, -, -, -⟩ :=
    put_write_fields cg p id (some data) length (by rw [glen]; exact hpl)
  -- the identifiers after the call
  have hid : ∀ x, entry_id (put_write cg p id (some data) length) x
      = if x = p then id else if p < x ∧ x ≤ cache.cur_blocks then entry_id cache (x - 1)
        else entry_id cache x := by
    intro x
    by_cases h1 : x = p
    · rw [if_pos h1, h1]; exact e1
    · rw [if_neg h1]
      show (blk_at _ x).payload.id = _
      rw [e5 x h1, gpay, if_neg h1]
      split <;> rfl
  obtain ⟨hA, hB⟩ := array_ids_split cache id p hpc hlo hup
  refine ⟨_, hcall, by rw [fc, gcur], ?_, ?_, ?_, e1, e2, e3, fh, e6⟩
  · rw [hA, hB]
    apply List.ext_getElem?
    intro n
    by_cases hn : n < cache.cur_blocks + 1
    · rw [array_ids_getElem? _ n (by rw [fc, gcur]; exact hn), hid]
      by_cases h1 : n = p
      · rw [if_pos h1, List.getElem?_append_right (by simp [h1])]
        simp [h1]
      · rw [if_neg h1]
        by_cases h2 : p < n ∧ n ≤ cache.cur_blocks
        · rw [if_pos h2, List.getElem?_append_right (by simp; omega)]
          have e : n - ((List.range p).map (entry_id cache)).length = (n - p - 1) + 1 := by
            simp; omega
          have e' : n - p - 1 < cache.cur_blocks - p := by omega
          rw [e, List.getElem?_cons_succ, List.getElem?_map, List.getElem?_range e']
          simp only [Option.map_some']
          congr 2
          omega
        · have hnp : n < p := by omega
          rw [if_neg h2, List.getElem?_append_left (by simpa using hnp)]
          simp [List.getElem?_map, List.getElem?_range hnp]
    · have l1 : (array_ids (put_write cg p id (some data) length))[n]? = none := by
        apply List.getElem?_eq_none
        rw [array_ids_length, fc, gcur]; omega
      rw [l1]
      symm
      apply List.getElem?_eq_none
      simp only [List.length_append, List.length_map, List.length_range, List.length_cons]
      omega
  · apply ids_ascending_of_lt
    intro a b hab hb
    rw [fc, gcur] at hb
    rw [hid, hid]
    by_cases a1 : a = p
    · have b1 : ¬ b = p := by omega
      have b2 : p < b ∧ b ≤ cache.cur_blocks := by omega
      rw [if_pos a1, if_neg b1, if_pos b2]
      exact hup (b - 1) (by omega) (by omega)
    · rw [if_neg a1]
      by_cases a2 : p < a ∧ a ≤ cache.cur_blocks
      · have b1 : ¬ b = p := by omega
        have b2 : p < b ∧ b ≤ cache.cur_blocks := by omega
        rw [if_pos a2, if_neg b1, if_pos b2]
        exact ids_ascending_lt cache hs _ _ (by omega) (by omega)
      · rw [if_neg a2]
        have ha : a < p := by omega
        by_cases b1 : b = p
        · rw [if_pos b1]
          exact hlo a ha
        · rw [if_neg b1]
          by_cases b2 : p < b ∧ b ≤ cache.cur_blocks
          · rw [if_pos b2]
            by_cases hab2 : a = b - 1
            · omega
            · exact ids_ascending_lt cache hs _ _ (by omega) (by omega)
          · rw [if_neg b2]
            exact ids_ascending_lt cache hs _ _ hab (by omega)
  · intro k hk
    have hkne : (if k < p then k else k + 1) ≠ p := by split <;> omega
    have hkl : (if k < p then k else k + 1) < cg.blocks.length := by
      rw [glen]; split <;> omega
    obtain ⟨q1, q2, q3⟩ := e4 _ hkl hkne
    have hpk : (blk_at cg (if k < p then k else k + 1)).payload = (blk_at cache k).payload := by
      rw [gpay, if_neg hkne]
      by_cases h1 : k < p
      · have : ¬ (p < k ∧ k ≤ cache.cur_blocks) := by omega
        simp only [h1, if_true, this, if_false]
      · have : p < k + 1 ∧ k + 1 ≤ cache.cur_blocks := by omega
        simp only [h1, if_false, this, if_true, Nat.add_sub_cancel, and_self]
    refine ⟨?_, ?_, ?_⟩
    · rw [q1]; show (blk_at cg _).payload.id = (blk_at cache k).payload.id; rw [hpk]
    · rw [q2]; show (blk_at cg _).payload.size = (blk_at cache k).payload.size; rw [hpk]
    · rw [q3]
      show (cg.arena.drop (blk_at cg _).payload.data).take (blk_at cg _).payload.size
        = (cache.arena.drop (blk_at cache k).payload.data).take (blk_at cache k).payload.size
      rw [hpk, gar]

/-! ### What the calls leave alone -/

theorem same_frame.refl (c : lru_cache) : same_frame c c := ⟨rfl, rfl, rfl, rfl, rfl⟩

theorem same_frame.trans {c d e : lru_cache} (h1 : same_frame c d) (h2 : same_frame d e) :
    same_frame c e :=
  ⟨h2.1.trans h1.1, h2.2.1.trans h1.2.1, h2.2.2.1.trans h1.2.2.1, h2.2.2.2.1.trans h1.2.2.2.1,
    h2.2.2.2.2.trans h1.2.2.2.2⟩

theorem same_frame_set_next (c : lru_cache) (k : Nat) (v : Option Nat) :
    same_frame c (set_next c k v) := ⟨rfl, rfl, rfl, rfl, set_next_length c k v⟩

theorem same_frame_set_previous (c : lru_cache) (k : Nat) (v : Option Nat) :
    same_frame c (set_previous c k v) := ⟨rfl, rfl, rfl, rfl, set_previous_length c k v⟩

theorem same_frame_set_payload (c : lru_cache) (k : Nat) (e : lru_cache_entry_t) :
    same_frame c (set_payload c k e) := ⟨rfl, rfl, rfl, rfl, set_payload_length c k e⟩

theorem move_to_front_eq (c : lru_cache) (blk : Nat) :
    move_to_front c blk =
      (match (retail (unlink_next (unlink_previous c blk) blk) blk).head with
        | none => .error .null_deref
        | some h => .ok (set_previous
            (set_next (set_previous (retail (unlink_next (unlink_previous c blk) blk) blk) blk none)
              blk (retail (unlink_next (unlink_previous c blk) blk) blk).head) h (some blk))) := by
  unfold move_to_front retail unlink_next unlink_previous
  cases h : (retail (unlink_next (unlink_previous c blk) blk) blk).head <;> rfl

theorem unlink_previous_frame (c : lru_cache) (blk : Nat) :
    same_frame c (unlink_previous c blk) ∧ (unlink_previous c blk).head = c.head := by
  unfold unlink_previous
  cases (blk_at c blk).previous
  · exact ⟨same_frame.refl c, rfl⟩
  · exact ⟨same_frame_set_next c _ _, rfl⟩

theorem unlink_next_frame (c : lru_cache) (blk : Nat) :
    same_frame c (unlink_next c blk) ∧ (unlink_next c blk).head = c.head := by
  unfold unlink_next
  cases (blk_at c blk).next
  · exact ⟨same_frame.refl c, rfl⟩
  · exact ⟨same_frame_set_previous c _ _, rfl⟩

theorem retail_frame (c : lru_cache) (blk : Nat) :
    same_frame c (retail c blk) ∧ (retail c blk).head = c.head := by
  unfold retail
  split
  · exact ⟨⟨rfl, rfl, rfl, rfl, rfl⟩, rfl⟩
  · exact ⟨same_frame.refl c, rfl⟩

/-- Whenever `move_to_front` returns, the counters, the arena, the number of
slots and `head` are as before. -/
theorem move_to_front_frame (c : lru_cache) (blk : Nat) (c1 : lru_cache)
    (h : move_to_front c blk = .ok c1) : same_frame c c1 ∧ c1.head = c.head := by
  rw [move_to_front_eq] at h
  obtain ⟨f1, g1⟩ := unlink_previous_frame c blk
  obtain ⟨f2, g2⟩ := unlink_next_frame (unlink_previous c blk) blk
  obtain ⟨f3, g3⟩ := retail_frame (unlink_next (unlink_previous c blk) blk) blk
  cases hh : (retail (unlink_next (unlink_previous c blk) blk) blk).head with
  | none => rw [hh] at h; cases h
  | some hd =>
    rw [hh] at h
    cases h
    refine ⟨?_, ?_⟩
    · exact ((f1.trans f2).trans f3).trans
        (((same_frame_set_previous _ blk none).trans (same_frame_set_next _ blk _)).trans
          (same_frame_set_previous _ hd _))
    · simp only [set_previous_head, set_next_head]
      rw [g3, g2, g1]

/-- Whenever the branch for a full cache returns, the counters, the arena and
the number of slots are as before. -/
theorem put_full_frame (c : lru_cache) (i : Int) (c1 : lru_cache)
    (h : put_full c i = .ok c1) : same_frame c c1 := by
  unfold put_full at h
  split at h
  · cases h
  · rename_i t ht
    split at h
    · cases h
    · rename_i p hp
      dsimp only at h
      split at h
      · cases h
      · rename_i c3 hloop
        obtain ⟨l1, l2, l3, l4, l5, -⟩ := put_full_loop_frame _ _ _ _ _ _ hloop
        have f3 : same_frame c c3 := ⟨by rw [l1]; rfl, by rw [l2]; rfl, by rw [l3]; rfl,
          by rw [l4]; rfl, by rw [l5]; simp⟩
        split at h
        · cases h
        · rename_i hd hhd
          cases h
          exact f3.trans (((same_frame_set_payload c3 _ _).trans
            (same_frame_set_next _ _ _)).trans ((same_frame_set_previous _ _ _).trans
            (same_frame_set_previous _ _ _)))

/-- The final writes of `lru_cache_put` leave the counters and the number of
slots alone and set `head`. -/
theorem put_write_frame (c : lru_cache) (blk id : Nat) (data : Option (List Byte))
    (length : Nat) :
    (put_write c blk id data length).cur_blocks = c.cur_blocks ∧
    (put_write c blk id data length).max_blocks = c.max_blocks ∧
    (put_write c blk id data length).block_size = c.block_size ∧
    (put_write c blk id data length).blocks.length = c.blocks.length ∧
    (put_write c blk id data length).head = some blk := by
  unfold put_write
  refine ⟨rfl, rfl, rfl, ?_, rfl⟩
  simp

/-- A put whose length exceeds the block size fails its assertion. -/
theorem put_assertion_length (c : lru_cache) (id : Nat) (data : Option (List Byte))
    (length : Nat) (h : c.block_size < length) :
    lru_cache_put c id data length = .error .assertion := by
  obtain ⟨r, hr, -⟩ := find_block_total c id
  have : ¬ length ≤ c.block_size := by omega
  unfold lru_cache_put
  simp only [hr, this, not_false_eq_true, if_true]
  split <;> rfl

/-- A put without data but with a positive length fails its assertion. -/
theorem put_assertion_data (c : lru_cache) (id : Nat) (length : Nat) (h : 0 < length) :
    lru_cache_put c id none length = .error .assertion := by
  obtain ⟨r, hr, -⟩ := find_block_total c id
  have : ¬ length = 0 := by omega
  unfold lru_cache_put
  simp [hr, this]

/-- How a put changes `cur_blocks` in a state with sound counters: by one when
the lookup misses and slots are free (and then the put returns), not at all
otherwise. -/
theorem put_counters (c : lru_cache) (id : Nat) (data : List Byte) (length : Nat) (i : Int)
    (hinv : counters_ok c) (hfind : find_block c id = .ok i) :
    (∀ k c1, lru_cache_put c id (some data) length = .ok (k, c1) →
      c1.cur_blocks = (if i < 0 ∧ c.cur_blocks < c.max_blocks then c.cur_blocks + 1
        else c.cur_blocks) ∧
      c1.max_blocks = c.max_blocks ∧ counters_ok c1) ∧
    (i < 0 → c.cur_blocks < c.max_blocks → length ≤ c.block_size →
      ∃ k c1, lru_cache_put c id (some data) length = .ok (k, c1)) := by
  obtain ⟨hl, hcm, hh⟩ := hinv
  obtain ⟨r, hr, hcase⟩ := find_block_total c id
  rw [hfind] at hr
  cases hr
  constructor
  · intro k c1 hput
    by_cases hlen : length ≤ c.block_size
    swap
    · rw [put_assertion_length c id (some data) length (by omega)] at hput
      cases hput
    rw [lru_cache_put_unfold c id data length i hfind hlen] at hput
    by_cases hneg : i < 0
    · rw [if_pos hneg] at hput
      rcases hcase with ⟨h0, -, -⟩ | ⟨p, hp, hpc⟩
      · omega
      have e2 : -(i + 1) = (p : Int) := by omega
      rw [e2] at hput
      by_cases hfull : c.cur_blocks = c.max_blocks
      · rw [if_pos hfull] at hput
        split at hput
        · cases hput
        · rename_i cf hcf
          cases hput
          obtain ⟨f1, f2, f3, f4, f5⟩ := put_full_frame _ _ _ hcf
          obtain ⟨w1, w2, w3, w4, w5⟩ := put_write_frame cf
            (if (p : Int) = (c.max_blocks : Int) then (c.max_blocks : Int) - 1
              else (p : Int)).toNat id (some data) length
          have hn : ¬ (i < 0 ∧ c.cur_blocks < c.max_blocks) := by omega
          rw [if_neg hn]
          refine ⟨by rw [w1, f1], by rw [w2, f2], ?_, ?_, ?_⟩
          · rw [w4, f5, w2, f2]; exact hl
          · rw [w1, f1, w2, f2]; exact hcm
          · intro _; rw [w5]; rfl
      · rw [if_neg hfull] at hput
        have hlt : c.cur_blocks < c.max_blocks := by omega
        have e3 : ¬ (p : Int) = (c.max_blocks : Int) := by omega
        rw [if_neg e3] at hput
        obtain ⟨cg, hcg, g1, g2, g3, g4, g5, -⟩ := put_grow_spec c p hpc hlt hl hh
        rw [hcg] at hput
        cases hput
        obtain ⟨w1, w2, w3, w4, w5⟩ := put_write_frame cg (p : Int).toNat id (some data) length
        have hy : i < 0 ∧ c.cur_blocks < c.max_blocks := ⟨hneg, hlt⟩
        rw [if_pos hy]
        refine ⟨by rw [w1, g1], by rw [w2, g2], ?_, ?_, ?_⟩
        · rw [w4, g5, w2, g2]; exact hl
        · rw [w1, g1, w2, g2]; omega
        · intro _; rw [w5]; rfl
    · rw [if_neg hneg] at hput
      have hn : ¬ (i < 0 ∧ c.cur_blocks < c.max_blocks) := fun h => hneg h.1
      rw [if_neg hn]
      by_cases hhd : some i.toNat ≠ c.head
      · rw [if_pos hhd] at hput
        split at hput
        · cases hput
        · rename_i cm hcm2
          cases hput
          obtain ⟨⟨f1, f2, f3, f4, f5⟩, -⟩ := move_to_front_frame _ _ _ hcm2
          obtain ⟨w1, w2, w3, w4, w5⟩ := put_write_frame cm i.toNat id (some data) length
          refine ⟨by rw [w1, f1], by rw [w2, f2], ?_, ?_, ?_⟩
          · rw [w4, f5, w2, f2]; exact hl
          · rw [w1, f1, w2, f2]; exact hcm
          · intro _; rw [w5]; rfl
      · rw [if_neg hhd] at hput
        cases hput
        obtain ⟨w1, w2, w3, w4, w5⟩ := put_write_frame c i.toNat id (some data) length
        refine ⟨w1, w2, ?_, ?_, ?_⟩
        · rw [w4, w2]; exact hl
        · rw [w1, w2]; exact hcm
        · intro _; rw [w5]; rfl
  · intro hneg hlt hlen
    rcases hcase with ⟨h0, -, -⟩ | ⟨p, hp, hpc⟩
    · omega
    rw [lru_cache_put_unfold c id data length i hfind hlen, if_pos hneg]
    have e2 : -(i + 1) = (p : Int) := by omega
    have e3 : ¬ (p : Int) = (c.max_blocks : Int) := by omega
    have e4 : ¬ c.cur_blocks = c.max_blocks := by omega
    obtain ⟨cg, hcg, -⟩ := put_grow_spec c p hpc hlt hl hh
    rw [e2, if_neg e3, if_neg e4, hcg]
    exact ⟨_, _, rfl⟩

/-- How a lookup changes the counters: not at all. -/
theorem get_counters (c : lru_cache) (id : Nat) (r : Option Nat) (c1 : lru_cache)
    (hinv : counters_ok c) (hget : lru_cache_get c id = .ok (r, c1)) :
    c1.cur_blocks = c.cur_blocks ∧ c1.max_blocks = c.max_blocks ∧ counters_ok c1 := by
  obtain ⟨hl, hcm, hh⟩ := hinv
  unfold lru_cache_get at hget
  split at hget
  · cases hget
  · rename_i i hi
    split at hget
    · cases hget
      exact ⟨rfl, rfl, hl, hcm, hh⟩
    · dsimp only at hget
      split at hget
      · split at hget
        · cases hget
        · rename_i cm hcm2
          cases hget
          obtain ⟨⟨f1, f2, f3, f4, f5⟩, -⟩ := move_to_front_frame _ _ _ hcm2
          refine ⟨f1, f2, ?_, ?_, ?_⟩
          · show cm.blocks.length = cm.max_blocks
            rw [f5, f2]; exact hl
          · show cm.cur_blocks ≤ cm.max_blocks
            rw [f1, f2]; exact hcm
          · intro _; rfl
      · cases hget
        exact ⟨rfl, rfl, hl, hcm, hh⟩

/-! ### Faults and counters -/

/-- C14: in every cache state a put with `length > block_size`, or without
data but with `length > 0`, ends in a failed assertion; the only code that
runs before it is the lookup, which reads the cache, and a fault carries no
changed state. -/
theorem lru_cache_put_rejected (cache : lru_cache) (id : Nat) (data : Option (List Byte))
    (length : Nat) (h : cache.block_size < length ∨ (data = none ∧ 0 < length)) :
    lru_cache_put cache id data length = .error .assertion := by
  rcases h with h | ⟨hd, hl⟩
  · exact put_assertion_length cache id data length h
  · subst hd
    exact put_assertion_data cache id length hl

/-- A put of no bytes may pass `NULL` for the data: it does what a put of an
empty byte string does. -/
theorem put_null_eq (c : lru_cache) (id : Nat) :
    lru_cache_put c id none 0 = lru_cache_put c id (some []) 0 := by
  unfold lru_cache_put
  cases find_block c id <;> simp

/-- In a full cache whose tail has no `previous` link, as it is in a full
cache with a single slot, a put of an identifier the lookup misses follows
that `NULL` link. -/
theorem put_full_tail_alone (c : lru_cache) (id : Nat) (data : List Byte) (length : Nat)
    (i : Int) (t : Nat) (hfind : find_block c id = .ok i) (hneg : i < 0)
    (hfull : c.cur_blocks = c.max_blocks) (ht : c.tail = some t)
    (hp : (blk_at c t).previous = none) (hlen : length ≤ c.block_size) :
    lru_cache_put c id (some data) length = .error .null_deref := by
  rw [lru_cache_put_unfold c id data length i hfind hlen, if_pos hneg, if_pos hfull]
  have hfault : ∀ j, put_full c j = .error .null_deref := by
    intro j
    unfold put_full
    simp [ht, hp]
  rw [hfault]

theorem cache_new_counters (blocks block_size : Nat) :
    counters_ok (cache_new blocks block_size) := by
  refine ⟨by simp [cache_new], Nat.zero_le _, ?_⟩
  intro h
  exact absurd h (Nat.lt_irrefl 0)

theorem step_counters (c : lru_cache) (op : CacheOp) (c1 : lru_cache) (hinv : counters_ok c)
    (h : cache_step c op = .ok c1) :
    counters_ok c1 ∧ c1.max_blocks = c.max_blocks ∧ c.cur_blocks ≤ c1.cur_blocks := by
  cases op with
  | put id data length =>
    simp only [cache_step] at h
    split at h
    · cases h
    · rename_i r hr
      cases h
      obtain ⟨i, hi, -⟩ := find_block_total c id
      obtain ⟨h1, h2, h3⟩ := (put_counters c id data length i hinv hi).1 r.1 r.2 hr
      refine ⟨h3, h2, ?_⟩
      rw [h1]
      split <;> omega
  | get id =>
    simp only [cache_step] at h
    split at h
    · cases h
    · rename_i r hr
      cases h
      obtain ⟨h1, h2, h3⟩ := get_counters c id r.1 r.2 hinv hr
      exact ⟨h3, h2, by omega⟩

theorem run_counters (ops : List CacheOp) : ∀ (c c1 : lru_cache), counters_ok c →
    cache_run c ops = .ok c1 →
    counters_ok c1 ∧ c1.max_blocks = c.max_blocks ∧ c.cur_blocks ≤ c1.cur_blocks := by
  induction ops with
  | nil =>
    intro c c1 hinv h
    simp only [cache_run, Except.ok.injEq] at h
    subst h
    exact ⟨hinv, rfl, le_refl _⟩
  | cons op ops ih =>
    intro c c1 hinv h
    simp only [cache_run] at h
    split at h
    · cases h
    · rename_i c2 hc2
      obtain ⟨a1, a2, a3⟩ := step_counters c op c2 hinv hc2
      obtain ⟨b1, b2, b3⟩ := ih c2 c1 a1 h
      exact ⟨b1, by rw [b2, a2], by omega⟩

/-- C15: in every state `c` that a sequence of puts and gets reaches from a
new cache, `cur_blocks ≤ max_blocks`; whatever calls follow, `cur_blocks` does
not decrease and stays at most `max_blocks`; a get leaves it as it is; a put
leaves it as it is when the lookup finds the identifier or the cache is full,
and raises it by exactly one when the lookup misses and `cur_blocks` is below
`max_blocks` (and the put then returns, for a length within the block size).
The functions `lru_cache_first` and `lru_cache_last` have no state to change. -/
theorem cur_blocks_monotone (blocks block_size : Nat) (ops : List CacheOp) (c : lru_cache)
    (hrun : cache_run (cache_new blocks block_size) ops = .ok c) :
    c.cur_blocks ≤ c.max_blocks ∧ c.max_blocks = blocks ∧
    (∀ ops2 c2, cache_run c ops2 = .ok c2 →
      c.cur_blocks ≤ c2.cur_blocks ∧ c2.cur_blocks ≤ c2.max_blocks ∧ c2.max_blocks = blocks) ∧
    (∀ id r c1, lru_cache_get c id = .ok (r, c1) → c1.cur_blocks = c.cur_blocks) ∧
    (∀ id data length i k c1, find_block c id = .ok i →
      lru_cache_put c id (some data) length = .ok (k, c1) →
      c1.cur_blocks = (if i < 0 ∧ c.cur_blocks < c.max_blocks then c.cur_blocks + 1
        else c.cur_blocks)) ∧
    (∀ id data length i, find_block c id = .ok i → i < 0 → c.cur_blocks < c.max_blocks →
      length ≤ c.block_size → ∃ k c1, lru_cache_put c id (some data) length = .ok (k, c1)) := by
  obtain ⟨hinv, hmax, -⟩ := run_counters ops _ c (cache_new_counters blocks block_size) hrun
  have hmax' : c.max_blocks = blocks := hmax
  refine ⟨hinv.2.1, hmax', ?_, ?_, ?_, ?_⟩
  · intro ops2 c2 h2
    obtain ⟨a1, a2, a3⟩ := run_counters ops2 c c2 hinv h2
    exact ⟨a3, a1.2.1, by rw [a2, hmax']⟩
  · intro id r c1 hget
    exact (get_counters c id r c1 hinv hget).1
  · intro id data length i k c1 hfind hput
    exact ((put_counters c id data length i hinv hfind).1 k c1 hput).1
  · intro id data length i hfind hneg hlt hlen
    exact (put_counters c id data length i hinv hfind).2 hneg hlt hlen

/-! ### Inputs on which the cache breaks its invariants -/

theorem Linked.head_previous {c : lru_cache} {L : List Nat} (h : Linked c L) (x : Nat)
    (hx : c.head = some x) : (blk_at c x).previous = none := by
  have h0 : L[0]? = some x := by rw [← List.head?_eq_getElem?, ← h.2.1, hx]
  have := (h.at 0 x h0).2.2
  simpa using this

/-- C16 at a failing input: after the puts 1, 3, 5, 4 on a cache with three
slots the filled prefix holds 3, 5, 4, which is not ascending. -/
theorem ids_ascending_failure :
    array_ids (cache_after (cache_new 3 4) (ascending_puts ++ [.put 4 "ZZ".toList 2]))
      = [3, 5, 4] ∧
    ¬ ids_ascending (cache_after (cache_new 3 4) (ascending_puts ++ [.put 4 "ZZ".toList 2])) := by
  decide

/-- C17 at two failing inputs.  With free slots: after the puts 3, 1, 2 on a
cache with four slots the head (slot 1, identifier 2) still has a `previous`
link.  Full cache: after the puts 2, 1, 0 on a cache with two slots the head
is its own `previous` and `next`.  In neither state is the usage list a
well-formed list, whatever order one tries. -/
theorem usage_list_failure :
    (cache_after (cache_new 4 4)
      [.put 3 "CC".toList 2, .put 1 "AA".toList 2, .put 2 "BB".toList 2]).head = some 1 ∧
    (blk_at (cache_after (cache_new 4 4)
      [.put 3 "CC".toList 2, .put 1 "AA".toList 2, .put 2 "BB".toList 2]) 1).previous
        = some 0 ∧
    (¬ ∃ order, Linked (cache_after (cache_new 4 4)
      [.put 3 "CC".toList 2, .put 1 "AA".toList 2, .put 2 "BB".toList 2]) order) ∧
    (cache_after (cache_new 2 4)
      [.put 2 "AA".toList 2, .put 1 "BB".toList 2, .put 0 "CC".toList 2]).head = some 0 ∧
    (blk_at (cache_after (cache_new 2 4)
      [.put 2 "AA".toList 2, .put 1 "BB".toList 2, .put 0 "CC".toList 2]) 0).previous
        = some 0 ∧
    (blk_at (cache_after (cache_new 2 4)
      [.put 2 "AA".toList 2, .put 1 "BB".toList 2, .put 0 "CC".toList 2]) 0).next
        = some 0 ∧
    (¬ ∃ order, Linked (cache_after (cache_new 2 4)
      [.put 2 "AA".toList 2, .put 1 "BB".toList 2, .put 0 "CC".toList 2]) order) := by
  refine ⟨by decide, by decide, ?_, by decide, by decide, by decide, ?_⟩
  · rintro ⟨order, h⟩
    have := h.head_previous 1 (by decide)
    revert this
    decide
  · rintro ⟨order, h⟩
    have := h.head_previous 0 (by decide)
    revert this
    decide

/-- C18 at a failing input: with one slot, after `put(7, "A", 1)` the call
`put(9, "B", 1)` follows the `NULL` link `tail->previous` and returns
nothing; so does a put of a smaller identifier. -/
theorem single_slot_failure :
    fault_of (lru_cache_put (cache_after (cache_new 1 4) [.put 7 "A".toList 1]) 9
      (some "B".toList) 1) = some Fault.null_deref ∧
    fault_of (lru_cache_put (cache_after (cache_new 1 4) [.put 7 "A".toList 1]) 5
      (some "B".toList) 1) = some Fault.null_deref ∧
    array_ids (cache_after (cache_new 1 4) [.put 7 "A".toList 1]) = [7] ∧
    (cache_after (cache_new 1 4) [.put 7 "A".toList 1]).cur_blocks
      = (cache_after (cache_new 1 4) [.put 7 "A".toList 1]).max_blocks := by
  decide

/-! ### The claims at concrete caches -/

/-- A get on the full sample cache: the lookup of identifier 1 finds slot 0, the
tail of the usage list 2, 1, 0; the get returns that slot with its bytes "AA"
and the usage list becomes 0, 2, 1, with slot 1 as the new tail. -/
theorem lru_cache_get_hit_witness :
    (Linked sample_full [2, 1, 0] ∧ (∀ x, x < sample_full.cur_blocks → x ∈ [2, 1, 0])) ∧
    ∃ c1, lru_cache_get sample_full 1 = .ok (some 0, c1) ∧
      entry_id c1 0 = 1 ∧ entry_bytes c1 0 = "AA".toList ∧
      Linked c1 [0, 2, 1] ∧ c1.tail = some 1 ∧ array_ids c1 = [1, 3, 5] := by
  obtain ⟨c1, h1, h2, -, h4, h5, -, -, -, -, h10, -⟩ :=
    lru_cache_get_hit sample_full [2, 1, 0] 1 0 (by decide) (by decide) rfl (by decide)
  refine ⟨⟨by decide, by decide⟩, c1, h1, h2, ?_, h5, ?_, ?_⟩
  · exact h4.trans (by decide)
  · exact h5.2.2.1.trans (by decide)
  · exact h10.trans (by decide)

/-- C12 on the full sample cache: identifier 4 is in no slot, and the get
returns `NULL` and the same state. -/
theorem lru_cache_get_miss_witness :
    4 ∉ array_ids sample_full ∧ lru_cache_get sample_full 4 = .ok (none, sample_full) :=
  ⟨by decide, (lru_cache_get_miss sample_full 4).2.2 (by decide)⟩

/-- C13 on the full sample cache: a put of the resident identifier 3 with the
bytes "ZZ" returns slot 1, leaves the identifiers 1, 3, 5 and the bytes of the
other slots, and makes the usage list 1, 2, 0. -/
theorem lru_cache_put_resident_witness :
    (Linked sample_full [2, 1, 0] ∧ regions_ok sample_full) ∧
    ∃ c1, lru_cache_put sample_full 3 (some "ZZ".toList) 2 = .ok (1, c1) ∧
      array_ids c1 = [1, 3, 5] ∧ entry_bytes c1 1 = "ZZ".toList ∧
      entry_bytes c1 0 = "AA".toList ∧ entry_bytes c1 2 = "CC".toList ∧
      Linked c1 [1, 2, 0] := by
  obtain ⟨c1, h1, h2, -, -, -, h6, -, h7, h8, -, -⟩ :=
    lru_cache_put_resident sample_full [2, 1, 0] 3 "ZZ".toList 2 1 (by decide) (by decide)
      (by decide) rfl (by decide) (by decide) (by decide)
  refine ⟨⟨by decide, by decide⟩, c1, h1, ?_, h6, ?_, ?_, h8⟩
  · exact h2.trans (by decide)
  · exact (h7 0 (by decide) (by decide)).2.2.trans (by decide)
  · exact (h7 2 (by decide) (by decide)).2.2.trans (by decide)

/-- C14 on a new cache with blocks of four bytes: a put of five bytes, and a
put of one byte without data, fail their assertions. -/
theorem lru_cache_put_rejected_witness :
    lru_cache_put (cache_new 3 4) 0 (some "HELLO".toList) 5 = .error .assertion ∧
    lru_cache_put (cache_new 3 4) 0 none 1 = .error .assertion :=
  ⟨lru_cache_put_rejected (cache_new 3 4) 0 (some "HELLO".toList) 5 (Or.inl (by decide)),
    lru_cache_put_rejected (cache_new 3 4) 0 none 1 (Or.inr ⟨rfl, by decide⟩)⟩

/-- C15 on the cache with four slots that holds 1 and 5: `cur_blocks` is 2,
within the 4 slots, and stays so after a get. -/
theorem cur_blocks_monotone_witness :
    cache_run (cache_new 4 4) [.put 1 "AA".toList 2, .put 5 "CC".toList 2] = .ok sample_free ∧
    sample_free.cur_blocks = 2 ∧ sample_free.cur_blocks ≤ sample_free.max_blocks ∧
    sample_free.max_blocks = 4 :=
  ⟨rfl, by decide,
    (cur_blocks_monotone 4 4 [.put 1 "AA".toList 2, .put 5 "CC".toList 2] sample_free rfl).1,
    (cur_blocks_monotone 4 4 [.put 1 "AA".toList 2, .put 5 "CC".toList 2] sample_free rfl).2.1⟩

/-- C19 on the cache with four slots that holds 1 and 5: putting 3 returns
slot 1, makes the prefix 1, 3, 5 and keeps the bytes of 1 (slot 0) and of 5
(now slot 2). -/
theorem lru_cache_put_grow_witness :
    (ids_ascending sample_free ∧ regions_ok sample_free ∧ 3 ∉ array_ids sample_free) ∧
    ∃ c1, lru_cache_put sample_free 3 (some "BB".toList) 2 = .ok (1, c1) ∧
      c1.cur_blocks = 3 ∧ array_ids c1 = [1, 3, 5] ∧
      entry_bytes c1 0 = "AA".toList ∧ entry_bytes c1 2 = "CC".toList := by
  obtain ⟨c1, h1, h2, h3, -, h5, -, -, -, -, -⟩ :=
    lru_cache_put_grow sample_free 3 "BB".toList 2 (by decide) (by decide) (by decide)
      (by decide) (by decide) (by decide) (by decide) (by decide)
  have hr : rank sample_free 3 = 1 := by decide
  rw [hr] at h1 h5
  refine ⟨⟨by decide, by decide, by decide⟩, c1, h1, ?_, ?_, ?_, ?_⟩
  · exact h2.trans (by decide)
  · exact h3.trans (by decide)
  · exact (h5 0 (by decide)).2.2.trans (by decide)
  · exact (h5 1 (by decide)).2.2.trans (by decide)

/-- C20 on the full sample cache, which holds 1, 3, 5: the lookup of 3
returns 1, and the lookup of 4, which has two smaller resident identifiers,
returns -3. -/
theorem find_block_sorted_witness :
    ids_ascending sample_full ∧ find_block sample_full 3 = .ok 1 ∧
    rank sample_full 4 = 2 ∧ find_block sample_full 4 = .ok (-3) := by
  have h := find_block_sorted sample_full 4 (by decide)
  have h3 := (find_block_sorted sample_full 3 (by decide)).1 1 (by decide) (by decide)
  have hr : rank sample_full 4 = 2 := by decide
  refine ⟨by decide, h3, hr, ?_⟩
  have := h.2.1 (by decide)
  rw [hr] at this
  exact this
/-! ### Growing in place and compacting -/

theorem shiftRight_two (n : Nat) : n >>> 2 = n / 4 := by
  rw [Nat.shiftRight_eq_div_pow]

/-- The append that grows in place: a well-formed buffer keeps `offset` and
all the bytes it holds, and gains `data[0 .. len)` at the end. -/
theorem buffer_append_grow (calloc_ok : Bool) (b : buf) (data : List Byte) (len : Nat)
    (hwf : b.wf) (h0 : len ≠ 0) (hsz : b.size + len < ULONG_MOD)
    (hg : b.offset < MIN_WASTEAGE ∨ (b.offset < MAX_WASTEAGE ∧ b.offset > b.size >>> 2)) :
    buffer_append calloc_ok true (some (some b)) data len
      = (1, some (some { data := some (b.data.getD [] ++ data.take len),
                         size := b.size + len, offset := b.offset })) := by
  obtain ⟨hos, hsM, hdl⟩ := hwf
  have key : memcpy (realloc b.data (b.size + len)) b.size data len
      = b.data.getD [] ++ data.take len := by
    have h1 := realloc_extend b.data len
    have h2 := memcpy_at_end (b.data.getD []) (malloc len) data len (malloc_length len)
    rw [hdl] at h1 h2
    rw [h1, h2]
  simp only [buffer_append, ne_eq, h0, not_false_eq_true, if_true, hg, uadd_of_lt hsz, key]

/-- The append that compacts: a well-formed buffer drops its consumed prefix,
so that `offset` is 0, and gains `data[0 .. len)` at the end. -/
theorem buffer_append_compact (calloc_ok : Bool) (b : buf) (data : List Byte) (len : Nat)
    (hwf : b.wf) (h0 : len ≠ 0) (hsz : b.size + len < ULONG_MOD)
    (hg : ¬ (b.offset < MIN_WASTEAGE ∨ (b.offset < MAX_WASTEAGE ∧ b.offset > b.size >>> 2))) :
    buffer_append calloc_ok true (some (some b)) data len
      = (1, some (some { data := some ((b.data.getD []).drop b.offset ++ data.take len),
                         size := b.size - b.offset + len, offset := 0 })) := by
  obtain ⟨hos, hsM, hdl⟩ := hwf
  have hrem : usub b.size b.offset = b.size - b.offset := usub_of_le hos hsM
  have hsum : uadd (b.size - b.offset) len = b.size - b.offset + len :=
    uadd_of_lt (by omega)
  have hdrop : ((b.data.getD []).drop b.offset).length = b.size - b.offset := by
    simp [hdl]
  have key : memcpy (memcpy (malloc (b.size - b.offset + len)) 0
      ((b.data.getD []).drop b.offset) (b.size - b.offset)) (b.size - b.offset) data len
      = (b.data.getD []).drop b.offset ++ data.take len := by
    rw [memcpy_at_start]
    have e1 : List.take (b.size - b.offset) (List.drop b.offset (b.data.getD []))
        = List.drop b.offset (b.data.getD []) := List.take_of_length_le (by omega)
    have e2 : List.drop (b.size - b.offset) (malloc (b.size - b.offset + len))
        = malloc len := by
      simp [malloc, List.drop_replicate]
    rw [e1, e2]
    have := memcpy_at_end ((b.data.getD []).drop b.offset) (malloc len) data len
      (malloc_length len)
    rw [hdrop] at this
    exact this
  simp only [buffer_append, ne_eq, h0, not_false_eq_true, if_true, hg, if_false,
    hrem, hsum, key]

/-- C21: for a well-formed buffer and `len > 0` (the allocation succeeding,
`size + len` not wrapping around), `buffer_append` returns 1 and grows in
place when `offset < 4096` or (`offset < 16777216` and
`offset > floor(size / 4)`): `offset` is unchanged, `size` becomes
`size + len`, and the storage is the old bytes `[0, size)`, consumed prefix
included, followed by the new bytes; in every other case it compacts: `offset`
becomes 0, `size` becomes `(size - offset) + len`, and the storage is the old
unconsumed bytes followed by the new bytes. -/
theorem buffer_append_strategy (calloc_ok : Bool) (b : buf) (data : List Byte) (len : Nat)
    (hwf : b.wf) (hlen : 0 < len) (hsz : b.size + len < ULONG_MOD) :
    ((b.offset < 4096 ∨ (b.offset < 16777216 ∧ b.offset > b.size / 4)) →
      buffer_append calloc_ok true (some (some b)) data len
        = (1, some (some { data := some (b.data.getD [] ++ data.take len),
                           size := b.size + len, offset := b.offset }))) ∧
    (¬ (b.offset < 4096 ∨ (b.offset < 16777216 ∧ b.offset > b.size / 4)) →
      buffer_append calloc_ok true (some (some b)) data len
        = (1, some (some { data := some ((b.data.getD []).drop b.offset ++ data.take len),
                           size := b.size - b.offset + len, offset := 0 }))) := by
  have h0 : len ≠ 0 := by omega
  constructor
  · intro hg
    apply buffer_append_grow calloc_ok b data len hwf h0 hsz
    rw [shiftRight_two]
    exact hg
  · intro hg
    apply buffer_append_compact calloc_ok b data len hwf h0 hsz
    rw [shiftRight_two]
    exact hg

/-- C21 on the worked example: "HELLO" with `offset` 3 and " WORLD" appended
gives "HELLO WORLD" with `offset` 3. -/
theorem buffer_append_strategy_witness :
    (hello_taken_buf.wf ∧ 0 < 6 ∧ hello_taken_buf.size + 6 < ULONG_MOD) ∧
    buffer_append true true (some (some hello_taken_buf)) " WORLD".toList 6
      = (1, some (some hello_world_buf)) :=
  ⟨by decide,
    ((buffer_append_strategy true hello_taken_buf " WORLD".toList 6 (by decide) (by decide)
      (by decide)).1 (by decide)).trans (by decide)⟩
/-! ### When the consumed prefix is dropped -/

/-- The append that takes the branch with `realloc`, in any buffer state. -/
theorem buffer_append_raw_grow (calloc_ok : Bool) (b : buf) (data : List Byte) (len : Nat)
    (h0 : len ≠ 0)
    (hg : b.offset < MIN_WASTEAGE ∨ (b.offset < MAX_WASTEAGE ∧ b.offset > b.size >>> 2)) :
    buffer_append calloc_ok true (some (some b)) data len
      = (1, some (some { data := some (memcpy (realloc b.data (uadd b.size len)) b.size data len),
                         size := uadd b.size len, offset := b.offset })) := by
  simp only [buffer_append, ne_eq, h0, not_false_eq_true, if_true, hg]

/-- The append that takes the branch with `malloc`, in any buffer state. -/
theorem buffer_append_raw_compact (calloc_ok : Bool) (b : buf) (data : List Byte) (len : Nat)
    (h0 : len ≠ 0)
    (hg : ¬ (b.offset < MIN_WASTEAGE ∨ (b.offset < MAX_WASTEAGE ∧ b.offset > b.size >>> 2))) :
    buffer_append calloc_ok true (some (some b)) data len
      = (1, some (some { data := some (memcpy (memcpy (malloc (uadd (usub b.size b.offset) len)) 0
                            ((b.data.getD []).drop b.offset) (usub b.size b.offset))
                            (usub b.size b.offset) data len),
                         size := uadd (usub b.size b.offset) len, offset := 0 })) := by
  simp only [buffer_append, ne_eq, h0, not_false_eq_true, if_true, hg, if_false]

/-- A successful append of `len > 0` bytes leaves `offset` as it was where it
grows in place and sets it to 0 where it compacts, in every buffer state. -/
theorem buffer_append_offset (calloc_ok : Bool) (b : buf) (data : List Byte) (len : Nat)
    (h0 : len ≠ 0) :
    ∃ b1, buffer_append calloc_ok true (some (some b)) data len = (1, some (some b1)) ∧
      b1.offset = (if b.offset < MIN_WASTEAGE ∨
        (b.offset < MAX_WASTEAGE ∧ b.offset > b.size >>> 2) then b.offset else 0) ∧
      b1.size = (if b.offset < MIN_WASTEAGE ∨
        (b.offset < MAX_WASTEAGE ∧ b.offset > b.size >>> 2) then uadd b.size len
        else uadd (usub b.size b.offset) len) := by
  by_cases hg : b.offset < MIN_WASTEAGE ∨ (b.offset < MAX_WASTEAGE ∧ b.offset > b.size >>> 2)
  · exact ⟨_, buffer_append_raw_grow calloc_ok b data len h0 hg, by rw [if_pos hg],
      by rw [if_pos hg]⟩
  · exact ⟨_, buffer_append_raw_compact calloc_ok b data len h0 hg, by rw [if_neg hg],
      by rw [if_neg hg]⟩

/-- An append that returns 1 for `len > 0` leaves `offset` below
`MAX_WASTEAGE`, in every buffer state. -/
theorem buffer_append_offset_lt (calloc_ok alloc_ok : Bool) (pb : Option buf)
    (data : List Byte) (len : Nat) (h0 : len ≠ 0)
    (hret : (buffer_append calloc_ok alloc_ok (some pb) data len).1 = 1) :
    ∃ b1, (buffer_append calloc_ok alloc_ok (some pb) data len).2 = some (some b1) ∧
      b1.offset < MAX_WASTEAGE := by
  have hmin : MIN_WASTEAGE < MAX_WASTEAGE := by decide
  have main : ∀ (co : Bool) (b : buf),
      (buffer_append co alloc_ok (some (some b)) data len).1 = 1 →
      ∃ b1, (buffer_append co alloc_ok (some (some b)) data len).2 = some (some b1) ∧
        b1.offset < MAX_WASTEAGE := by
    intro co b hr
    cases alloc_ok with
    | false =>
      rw [buffer_append_no_alloc] at hr
      simp [h0] at hr
    | true =>
      obtain ⟨b1, h1, h2, -⟩ := buffer_append_offset co b data len h0
      refine ⟨b1, by rw [h1], ?_⟩
      rw [h2]
      split
      · rename_i hg
        rcases hg with hg | hg
        · omega
        · exact hg.1
      · decide
  cases pb with
  | some b => exact main calloc_ok b hret
  | none =>
    cases calloc_ok with
    | false =>
      rw [buffer_append_no_calloc] at hret
      simp at hret
    | true =>
      rw [buffer_append_fresh] at hret ⊢
      exact main true buf_zero hret

/-- C22, as stated, fails: the buffer "HELLO" with `offset` 3 has consumed
more than a quarter of its 5 bytes, yet the append of " WORLD" grows in place
and `offset` is 3 afterwards; and an append whose allocation fails changes
nothing, so `offset` stays where it was even beyond `MAX_WASTEAGE`. -/
theorem buffer_append_quarter_counterexample :
    (hello_taken_buf.offset > hello_taken_buf.size / 4 ∧
      buffer_append true true (some (some hello_taken_buf)) " WORLD".toList 6
        = (1, some (some hello_world_buf)) ∧
      hello_world_buf.offset = 3) ∧
    (half_taken_buf.offset ≥ MAX_WASTEAGE ∧
      buffer_append true false (some (some half_taken_buf)) " WORLD".toList 6
        = (0, some (some half_taken_buf)) ∧
      half_taken_buf.offset ≠ 0) := by
  refine ⟨by decide, by decide, ?_, by decide⟩
  rw [buffer_append_no_alloc]
  rfl

/-- C22, amended: in every buffer state and for every `len > 0`, when the
allocation succeeds: if `offset` has reached `MAX_WASTEAGE` = 16777216 the
append compacts, so that `offset` is 0 afterwards and `size` is
`(size - offset) + len`; if `offset` is below `MIN_WASTEAGE` = 4096 the append
grows in place and `offset` is unchanged, whatever fraction of `size` it is. -/
theorem buffer_append_compacts (calloc_ok : Bool) (b : buf) (data : List Byte) (len : Nat)
    (hlen : 0 < len) :
    (16777216 ≤ b.offset →
      ∃ b1, buffer_append calloc_ok true (some (some b)) data len = (1, some (some b1)) ∧
        b1.offset = 0 ∧ b1.size = uadd (usub b.size b.offset) len) ∧
    (b.offset < 4096 →
      ∃ b1, buffer_append calloc_ok true (some (some b)) data len = (1, some (some b1)) ∧
        b1.offset = b.offset ∧ b1.size = uadd b.size len) := by
  have h0 : len ≠ 0 := by omega
  constructor
  · intro hmax
    have hg : ¬ (b.offset < MIN_WASTEAGE ∨
        (b.offset < MAX_WASTEAGE ∧ b.offset > b.size >>> 2)) := by
      simp only [MIN_WASTEAGE, MAX_WASTEAGE]
      omega
    exact ⟨_, buffer_append_raw_compact calloc_ok b data len h0 hg, rfl, rfl⟩
  · intro hmin
    have hg : b.offset < MIN_WASTEAGE ∨
        (b.offset < MAX_WASTEAGE ∧ b.offset > b.size >>> 2) := Or.inl hmin
    exact ⟨_, buffer_append_raw_grow calloc_ok b data len h0 hg, rfl, rfl⟩

/-- C22, amended, on a buffer of 32 MiB of which 16 MiB are consumed: the
append compacts. -/
theorem buffer_append_compacts_witness :
    (0 < 6 ∧ 16777216 ≤ half_taken_buf.offset) ∧
    ∃ b1, buffer_append true true (some (some half_taken_buf)) " WORLD".toList 6
        = (1, some (some b1)) ∧
      b1.offset = 0 ∧ b1.size = uadd (usub half_taken_buf.size half_taken_buf.offset) 6 :=
  ⟨by decide,
    (buffer_append_compacts true half_taken_buf " WORLD".toList 6 (by decide)).1 (by decide)⟩
/-! ### The waste and the invariant `offset ≤ size` along a sequence of calls -/

/-- One append of `n` bytes to an absent buffer and one take of `m < n` bytes
leave a buffer of `n` bytes of which `m` are consumed. -/
theorem append_take_offset (n m : Nat) (c : Byte) (hn : n < ULONG_MOD) (hm : m < n) :
    (BufTrace.init.run [.append true true (List.replicate n c) n, .take m]).buffer
      = some { data := some (List.replicate n c), size := n, offset := m } := by
  have h0 : n ≠ 0 := by omega
  have hg : buf_zero.offset < MIN_WASTEAGE ∨
      (buf_zero.offset < MAX_WASTEAGE ∧ buf_zero.offset > buf_zero.size >>> 2) :=
    Or.inl (by decide)
  have happ := buffer_append_grow true buf_zero (List.replicate n c) n buf_zero_wf h0
    (by simp only [buf_zero]; omega) hg
  rw [← buffer_append_fresh] at happ
  have hdata : buf_zero.data.getD [] ++ (List.replicate n c).take n = List.replicate n c := by
    simp [buf_zero]
  have hsize : buf_zero.size + n = n := by simp [buf_zero]
  rw [hdata, hsize] at happ
  have hstep1 : BufTrace.init.step (.append true true (List.replicate n c) n)
      = { buffer := some { data := some (List.replicate n c), size := n, offset := buf_zero.offset },
          appended := [] ++ (List.replicate n c).take n, taken := [] } := by
    simp only [BufTrace.step, BufTrace.init, happ, Option.getD_some, if_true]
  have hrem : usub n 0 = n := usub_of_le (Nat.zero_le _) hn
  have hadd : uadd 0 m = m := by rw [uadd_of_lt (by omega)]; omega
  have hmn : ¬ n < m := by omega
  have hne : ¬ m = n := by omega
  show ((BufTrace.init.step (.append true true (List.replicate n c) n)).step (.take m)).buffer
    = _
  rw [hstep1]
  simp only [BufTrace.step, buffer_take, buf_zero, hrem, hmn, if_false, hadd, hne]

/-- C23, as stated, fails: after one append of 32 MiB and one take of
16 MiB + 1 bytes, the buffer still holds all 32 MiB, and the consumed prefix,
`offset`, is 16777217 bytes, above `MAX_WASTEAGE`; a take advances `offset`
by whatever it hands out, and only the next append compares it with the limit. -/
theorem buffer_waste_counterexample :
    ∃ b, (BufTrace.init.run [.append true true (List.replicate 33554432 'x') 33554432,
        .take 16777217]).buffer = some b ∧ MAX_WASTEAGE < b.offset :=
  ⟨_, append_take_offset 33554432 16777217 'x' (by decide) (by decide), by decide⟩

/-- C23, amended: in every buffer state reached from the empty buffer by a
sequence of append and take calls whose last call is an append of `len > 0`
bytes that returns 1, the consumed prefix still held, `offset`, is below
`MAX_WASTEAGE` = 16777216 (a take can raise it above the limit until the next
such append). -/
theorem buffer_waste_after_append (ops : List BufOp) (calloc_ok alloc_ok : Bool)
    (data : List Byte) (len : Nat) (hlen : 0 < len)
    (hret : (buffer_append calloc_ok alloc_ok (some (BufTrace.init.run ops).buffer)
      data len).1 = 1) :
    ∃ b, (BufTrace.init.run (ops ++ [.append calloc_ok alloc_ok data len])).buffer = some b ∧
      b.offset < 16777216 := by
  obtain ⟨b1, h1, h2⟩ := buffer_append_offset_lt calloc_ok alloc_ok
    (BufTrace.init.run ops).buffer data len (by omega) hret
  refine ⟨b1, ?_, h2⟩
  simp only [BufTrace.run, List.foldl_append, List.foldl_cons, List.foldl_nil]
  show (BufTrace.step (BufTrace.init.run ops) (.append calloc_ok alloc_ok data len)).buffer = _
  simp only [BufTrace.step]
  rw [h1]
  rfl

/-- C23, amended, on the worked example: after "HELLO" is appended, 3 bytes
are taken and " WORLD" is appended, `offset` is 3. -/
theorem buffer_waste_after_append_witness :
    (0 < 6 ∧ (buffer_append true true (some (BufTrace.init.run (hello_ops.take 2)).buffer)
      " WORLD".toList 6).1 = 1) ∧
    ∃ b, (BufTrace.init.run (hello_ops.take 2 ++ [.append true true " WORLD".toList 6])).buffer
        = some b ∧ b.offset < 16777216 :=
  ⟨by decide,
    buffer_waste_after_append (hello_ops.take 2) true true " WORLD".toList 6 (by decide)
      (by decide)⟩

/-- An append keeps `offset ≤ size`, whether or not its allocations succeed. -/
theorem buffer_append_offset_ok (calloc_ok alloc_ok : Bool) (pb : Option buf)
    (data : List Byte) (len : Nat) (hok : handle_ok pb)
    (hsz : buf_size pb + len < ULONG_MOD) :
    ∃ pb1, (buffer_append calloc_ok alloc_ok (some pb) data len).2 = some pb1 ∧
      handle_ok pb1 := by
  have hzero : buf_zero.offset_ok := by decide
  have main : ∀ (co : Bool) (b : buf), b.offset_ok → b.size + len < ULONG_MOD →
      ∃ pb1, (buffer_append co alloc_ok (some (some b)) data len).2 = some pb1 ∧
        handle_ok pb1 := by
    intro co b hb hs
    cases alloc_ok with
    | false =>
      rw [buffer_append_no_alloc]
      exact ⟨some b, rfl, hb⟩
    | true =>
      by_cases h0 : len = 0
      · subst h0
        exact ⟨some b, by simp [buffer_append], hb⟩
      · obtain ⟨b1, h1, h2, h3⟩ := buffer_append_offset co b data len h0
        refine ⟨some b1, by rw [h1], ?_⟩
        show b1.offset ≤ b1.size ∧ b1.size < ULONG_MOD
        rw [h2, h3]
        obtain ⟨hos, hsM⟩ := hb
        split
        · rw [uadd_of_lt hs]
          exact ⟨by omega, hs⟩
        · rw [usub_of_le hos hsM, uadd_of_lt (by omega)]
          exact ⟨Nat.zero_le _, by omega⟩
  cases pb with
  | some b => exact main calloc_ok b hok hsz
  | none =>
    cases calloc_ok with
    | false =>
      rw [buffer_append_no_calloc]
      exact ⟨none, rfl, trivial⟩
    | true =>
      rw [buffer_append_fresh]
      exact main true buf_zero hzero (by simpa [buf_size, buf_zero] using hsz)

/-- A take keeps `offset ≤ size`. -/
theorem buffer_take_offset_ok (pb : Option buf) (dest : List Byte) (len : Nat)
    (hok : handle_ok pb) : handle_ok (buffer_take pb dest len).2.2 := by
  cases pb with
  | none => exact trivial
  | some b =>
    obtain ⟨hos, hsM⟩ := hok
    cases hd : b.data with
    | none =>
      simp only [buffer_take, hd]
      exact ⟨hos, hsM⟩
    | some d =>
      have hrem : usub b.size b.offset = b.size - b.offset := usub_of_le hos hsM
      have htk : (if b.size - b.offset < len then b.size - b.offset else len)
          = min (b.size - b.offset) len := by
        split <;> omega
      have hadd : uadd b.offset (min (b.size - b.offset) len)
          = b.offset + min (b.size - b.offset) len := uadd_of_lt (by omega)
      simp only [buffer_take, hd, hrem, htk, hadd]
      split
      · exact ⟨le_refl _, by decide⟩
      · exact ⟨by show b.offset + min (b.size - b.offset) len ≤ b.size; omega, hsM⟩

/-- One call of a sequence keeps `offset ≤ size`. -/
theorem BufTrace.step_offset_ok (t : BufTrace) (op : BufOp) (h : handle_ok t.buffer)
    (hsz : buf_size t.buffer + op.appendLen < ULONG_MOD) : handle_ok (t.step op).buffer := by
  cases op with
  | take len => exact buffer_take_offset_ok t.buffer (malloc len) len h
  | append calloc_ok alloc_ok data len =>
    obtain ⟨pb1, h1, h2⟩ := buffer_append_offset_ok calloc_ok alloc_ok t.buffer data len h hsz
    simp only [BufTrace.step, h1, Option.getD_some]
    exact h2

theorem BufTrace.run_offset_ok (ops : List BufOp) : ∀ (t : BufTrace), handle_ok t.buffer →
    t.fits ops → handle_ok (t.run ops).buffer := by
  induction ops with
  | nil => intro t h _; exact h
  | cons op ops ih =>
    intro t h hfit
    exact ih (t.step op) (BufTrace.step_offset_ok t op h hfit.1) hfit.2

/-- C24: every buffer state reached from the empty buffer by append and take
calls (allocations succeeding or failing, no `size + len` wrapping around)
satisfies `0 ≤ offset ≤ size`, so that `buffer_remaining` is the difference
`size - offset` without underflow; and each call preserves this: an append
and a take lead from a state with `offset ≤ size` to a state with
`offset ≤ size`, and `buffer_remaining` changes nothing. -/
theorem buffer_offset_le_size (ops : List BufOp) (hfit : BufTrace.init.fits ops) :
    (∀ b, (BufTrace.init.run ops).buffer = some b →
      0 ≤ b.offset ∧ b.offset ≤ b.size ∧
      buffer_remaining (some b) = b.size - b.offset ∧
      (buffer_remaining (some b) : Int) = (b.size : Int) - (b.offset : Int)) ∧
    (∀ (b : buf), b.offset ≤ b.size → b.size < ULONG_MOD →
      (∀ calloc_ok alloc_ok data len b1, b.size + len < ULONG_MOD →
        (buffer_append calloc_ok alloc_ok (some (some b)) data len).2 = some (some b1) →
        b1.offset ≤ b1.size ∧ b1.size < ULONG_MOD) ∧
      (∀ dest len b1, (buffer_take (some b) dest len).2.2 = some b1 →
        b1.offset ≤ b1.size ∧ b1.size < ULONG_MOD) ∧
      buffer_remaining (some b) = b.size - b.offset) := by
  have hrun := BufTrace.run_offset_ok ops BufTrace.init trivial hfit
  constructor
  · intro b hb
    rw [hb] at hrun
    obtain ⟨hos, hsM⟩ := hrun
    have hr : buffer_remaining (some b) = b.size - b.offset := usub_of_le hos hsM
    refine ⟨Nat.zero_le _, hos, hr, ?_⟩
    rw [hr]
    omega
  · intro b hos hsM
    refine ⟨?_, ?_, usub_of_le hos hsM⟩
    · intro calloc_ok alloc_ok data len b1 hsz h1
      obtain ⟨pb1, h2, h3⟩ := buffer_append_offset_ok calloc_ok alloc_ok (some b) data len
        ⟨hos, hsM⟩ hsz
      rw [h1] at h2
      cases h2
      exact h3
    · intro dest len b1 h1
      have h3 := buffer_take_offset_ok (some b) dest len ⟨hos, hsM⟩
      rw [h1] at h3
      exact h3

/-- C24 on the worked example: after "HELLO" is appended and 3 bytes are
taken, `offset` is 3 and `size` is 5. -/
theorem buffer_offset_le_size_witness :
    BufTrace.init.fits (hello_ops.take 2) ∧
    (BufTrace.init.run (hello_ops.take 2)).buffer = some hello_taken_buf ∧
    hello_taken_buf.offset ≤ hello_taken_buf.size ∧
    buffer_remaining (some hello_taken_buf) = hello_taken_buf.size - hello_taken_buf.offset :=
  ⟨by decide, by decide,
    ((buffer_offset_le_size (hello_ops.take 2) (by decide)).1 hello_taken_buf (by decide)).2.1,
    ((buffer_offset_le_size (hello_ops.take 2) (by decide)).1 hello_taken_buf (by decide)).2.2.1⟩
/-! ### The links after a shift -/

theorem relink_previous_some (c : lru_cache) (k p : Nat) (h : (blk_at c k).previous = some p) :
    relink_previous c k = set_next c p (some k) := by
  unfold relink_previous; rw [h]

theorem relink_previous_none (c : lru_cache) (k : Nat) (h : (blk_at c k).previous = none) :
    relink_previous c k = c := by
  unfold relink_previous; rw [h]

theorem relink_next_some (c : lru_cache) (k n : Nat) (h : (blk_at c k).next = some n) :
    relink_next c k = set_previous c n (some k) := by
  unfold relink_next; rw [h]

theorem relink_next_none (c : lru_cache) (k : Nat) (h : (blk_at c k).next = none) :
    relink_next c k = c := by
  unfold relink_next; rw [h]

/-- The links and the aliases after one iteration of a shifting loop that
copies the slot `src`, whose neighbours are `pp` and `nn`, to the slot `dst`. -/
theorem shift_block_links (c : lru_cache) (dst src : Nat) (pp nn : Option Nat)
    (hp : (blk_at c src).previous = pp) (hn : (blk_at c src).next = nn)
    (hd : dst < c.blocks.length)
    (hlp : ∀ p, pp = some p → p < c.blocks.length ∧ p ≠ dst)
    (hln : ∀ n, nn = some n → n < c.blocks.length ∧ n ≠ dst) :
    (∀ x, (blk_at (shift_block c dst src) x).next
      = if x = dst then nn else if pp = some x then some dst else (blk_at c x).next) ∧
    (∀ x, (blk_at (shift_block c dst src) x).previous
      = if x = dst then pp else if nn = some x then some dst else (blk_at c x).previous) ∧
    (shift_block c dst src).head = (if c.head = some src then some dst else c.head) ∧
    (shift_block c dst src).tail = (if c.tail = some src then some dst else c.tail) := by
  have hb : blk_at (set_blk c dst (blk_at c src)) dst = blk_at c src := by
    rw [blk_at_set_blk, if_pos ⟨rfl, hd⟩]
  have hnx1 : ∀ x, (blk_at (relink_previous (set_blk c dst (blk_at c src)) dst) x).next
      = if x = dst then nn else if pp = some x then some dst else (blk_at c x).next := by
    intro x
    cases pp with
    | none =>
      rw [relink_previous_none _ _ (by rw [hb, hp])]
      simp only [blk_at_set_blk, hd, and_true]
      by_cases hx : x = dst
      · simp [hx, hn]
      · simp [hx]
    | some p =>
      rw [relink_previous_some _ _ p (by rw [hb, hp])]
      obtain ⟨hpl, hpd⟩ := hlp p rfl
      simp only [next_set_next, set_blk_length, hpl, and_true, blk_at_set_blk, hd]
      by_cases hx : x = dst
      · have : ¬ x = p := by rw [hx]; exact fun e => hpd e.symm
        simp [hx, hn, this, hpd.symm]
      · by_cases hxp : x = p
        · simp [hxp, hpd]
        · have : ¬ p = x := fun e => hxp e.symm
          simp [hx, hxp, this]
  have hpv1 : ∀ x, (blk_at (relink_previous (set_blk c dst (blk_at c src)) dst) x).previous
      = if x = dst then pp else (blk_at c x).previous := by
    intro x
    cases pp with
    | none =>
      rw [relink_previous_none _ _ (by rw [hb, hp])]
      simp only [blk_at_set_blk, hd, and_true]
      by_cases hx : x = dst
      · simp [hx, hp]
      · simp [hx]
    | some p =>
      rw [relink_previous_some _ _ p (by rw [hb, hp])]
      simp only [previous_set_next, blk_at_set_blk, hd, and_true]
      by_cases hx : x = dst
      · simp [hx, hp]
      · simp [hx]
  obtain ⟨r1, r2, -, -, -, -, r7, -⟩ := relink_previous_frame (set_blk c dst (blk_at c src)) dst
  obtain ⟨a1, -⟩ :=
    realias_frame (relink_next (relink_previous (set_blk c dst (blk_at c src)) dst) dst) dst src
  obtain ⟨n1, n2, -⟩ := relink_next_frame (relink_previous (set_blk c dst (blk_at c src)) dst) dst
  rw [shift_block_eq]
  refine ⟨?_, ?_, ?_, ?_⟩
  · intro x
    rw [blk_at_congr _ _ a1]
    cases nn with
    | none =>
      rw [relink_next_none _ _ (by rw [hnx1, if_pos rfl])]
      exact hnx1 x
    | some n =>
      rw [relink_next_some _ _ n (by rw [hnx1, if_pos rfl]), next_set_previous]
      exact hnx1 x
  · intro x
    rw [blk_at_congr _ _ a1]
    cases nn with
    | none =>
      rw [relink_next_none _ _ (by rw [hnx1, if_pos rfl])]
      simp only [hpv1]
      by_cases hx : x = dst <;> simp [hx]
    | some n =>
      rw [relink_next_some _ _ n (by rw [hnx1, if_pos rfl])]
      obtain ⟨hnl, hnd⟩ := hln n rfl
      rw [previous_set_previous, hpv1, r7, set_blk_length]
      by_cases hx : x = dst
      · have : ¬ x = n := by rw [hx]; exact fun e => hnd e.symm
        simp [hx, this, hnd.symm]
      · by_cases hxn : x = n
        · simp [hxn, hnl, hnd]
        · have : ¬ n = x := fun e => hxn e.symm
          simp [hx, hxn, this]
  · unfold realias
    have hh : (relink_next (relink_previous (set_blk c dst (blk_at c src)) dst) dst).head
        = c.head := by rw [n1, r1]; rfl
    by_cases h1 : c.head = some src <;> by_cases h2 :
      (relink_next (relink_previous (set_blk c dst (blk_at c src)) dst) dst).tail = some src <;>
      simp [h1, h2, hh]
  · unfold realias
    have ht : (relink_next (relink_previous (set_blk c dst (blk_at c src)) dst) dst).tail
        = c.tail := by rw [n2, r2]; rfl
    by_cases h1 : (relink_next (relink_previous (set_blk c dst (blk_at c src)) dst) dst).head
        = some src <;> by_cases h2 : c.tail = some src <;> simp [h1, h2, ht]
/-! ### A shift keeps the usage list -/

theorem Linked.mem_lt {c : lru_cache} {L : List Nat} (h : Linked c L) (x : Nat) (hx : x ∈ L) :
    x < c.blocks.length := by
  obtain ⟨k, hkl, hke⟩ := List.mem_iff_getElem.mp hx
  exact (h.at k x (by rw [List.getElem?_eq_getElem hkl, hke])).1

theorem mem_of_getElem?_eq {L : List Nat} {k x : Nat} (h : L[k]? = some x) : x ∈ L := by
  obtain ⟨hkl, hke⟩ := List.getElem?_eq_some.mp h
  rw [← hke]
  exact List.getElem_mem hkl

/-- Copying a slot of the usage list to a slot outside of it puts the copy in
the place of the original. -/
theorem shift_block_linked (c : lru_cache) (L : List Nat) (k dst src : Nat) (hL : Linked c L)
    (hk : L[k]? = some src) (hdst : dst ∉ L) (hd : dst < c.blocks.length) :
    Linked (shift_block c dst src) (L.set k dst) := by
  obtain ⟨hkl, hke⟩ := List.getElem?_eq_some.mp hk
  obtain ⟨hls, hns, hps⟩ := hL.at k src hk
  have hne : ∀ (m y : Nat), L[m]? = some y → y ≠ dst := by
    intro m y hy e
    exact hdst (e ▸ mem_of_getElem?_eq hy)
  have hlp : ∀ p, (if k = 0 then none else L[k - 1]?) = some p →
      p < c.blocks.length ∧ p ≠ dst := by
    intro p hp
    by_cases hk0 : k = 0
    · rw [if_pos hk0] at hp; cases hp
    · rw [if_neg hk0] at hp
      exact ⟨(hL.at (k - 1) p hp).1, hne _ _ hp⟩
  have hln : ∀ n, L[k + 1]? = some n → n < c.blocks.length ∧ n ≠ dst :=
    fun n hn => ⟨(hL.at (k + 1) n hn).1, hne _ _ hn⟩
  obtain ⟨hnext, hprev, hhead, htail⟩ :=
    shift_block_links c dst src _ _ hps hns hd hlp hln
  have hset : ∀ m : Nat, (L.set k dst)[m]? = if m = k then some dst else L[m]? := by
    intro m
    rw [List.getElem?_set]
    by_cases h : k = m
    · subst h; simp [hkl]
    · have : ¬ m = k := fun e => h e.symm
      simp [h, this]
  have hsrc : ∀ m : Nat, L[m]? = some src ↔ m = k := by
    intro m
    constructor
    · intro h; exact hL.inj m k src h hk
    · intro h; rw [h]; exact hk
  have hlen : (shift_block c dst src).blocks.length = c.blocks.length :=
    (shift_block_frame c dst src).2.2.2.2.1
  apply Linked.of_at
  · exact hL.1.set hdst
  · rw [hhead, List.head?_eq_getElem?, hset, hL.2.1, List.head?_eq_getElem?]
    simp only [hsrc]
  · rw [htail, List.getLast?_eq_getElem?, List.length_set, hset, hL.2.2.1,
      List.getLast?_eq_getElem?]
    simp only [hsrc]
  · intro m y hy
    rw [hlen, hnext, hprev, hset]
    rw [hset] at hy
    by_cases hmk : m = k
    · rw [if_pos hmk] at hy
      cases hy
      subst hmk
      have e1 : ¬ m + 1 = m := by omega
      rw [if_pos rfl, if_pos rfl, if_neg e1]
      refine ⟨hd, rfl, ?_⟩
      by_cases hm0 : m = 0
      · rw [if_pos hm0, if_pos hm0]
      · have e2 : ¬ m - 1 = m := by omega
        rw [if_neg hm0, if_neg hm0, hset, if_neg e2]
    · rw [if_neg hmk] at hy
      obtain ⟨hly, hny, hpy⟩ := hL.at m y hy
      have hyd : y ≠ dst := hne m y hy
      rw [if_neg hyd, if_neg hyd]
      refine ⟨hly, ?_, ?_⟩
      · by_cases hm1 : m + 1 = k
        · have hp1 : (if k = 0 then none else L[k - 1]?) = some y := by
            have hk0 : ¬ k = 0 := by omega
            have hkm : k - 1 = m := by omega
            rw [if_neg hk0, hkm]
            exact hy
          rw [if_pos hp1, if_pos hm1]
        · have hp1 : ¬ (if k = 0 then none else L[k - 1]?) = some y := by
            intro e
            by_cases hk0 : k = 0
            · rw [if_pos hk0] at e; cases e
            · rw [if_neg hk0] at e
              have := hL.inj (k - 1) m y e hy
              omega
          rw [if_neg hp1, if_neg hm1, hny]
      · have hn1 : L[k + 1]? = some y ↔ m = k + 1 := by
          constructor
          · intro e; exact hL.inj m (k + 1) y hy e
          · intro e; rw [← e]; exact hy
        by_cases hm1 : m = k + 1
        · have hm0 : ¬ m = 0 := by omega
          have hkm : m - 1 = k := by omega
          rw [if_pos (hn1.mpr hm1), if_neg hm0, hset, if_pos hkm]
        · have hnn : ¬ L[k + 1]? = some y := fun e => hm1 (hn1.mp e)
          rw [if_neg hnn, hpy]
          by_cases hm0 : m = 0
          · rw [if_pos hm0, if_pos hm0]
          · have hkm : ¬ m - 1 = k := by omega
            rw [if_neg hm0, if_neg hm0, hset, if_neg hkm]
/-! ### The shifting loop of the full case -/

/-- The loop of the full case, for a victim slot `j` before the insertion slot
`i`: it ends within `i - j` iterations, moves the slots `j + 1 .. i` one slot
down, payloads and places in the usage list alike, and leaves the slot `i`
outside the usage list. -/
theorem put_full_loop_up (i : Nat) : ∀ (fuel : Nat) (c : lru_cache) (j : Nat) (L : List Nat),
    j ≤ i → i - j ≤ fuel → i < c.blocks.length → Linked c L → j ∉ L →
    (∀ x, j < x → x ≤ i → x ∈ L) →
    ∃ c1, put_full_loop (i : Int) 1 fuel c (j : Int) = .ok c1 ∧
      Linked c1 (L.map (fun x => if j < x ∧ x ≤ i then x - 1 else x)) ∧
      (∀ x, (blk_at c1 x).payload
        = if j ≤ x ∧ x < i then (blk_at c (x + 1)).payload else (blk_at c x).payload) ∧
      same_frame c c1 := by
  intro fuel
  induction fuel with
  | zero =>
    intro c j L hji hfuel hlen hL hj hall
    have hnot : ¬ ((j : Int) < (i : Int)) := by omega
    refine ⟨c, by simp [put_full_loop, hnot], ?_, ?_, same_frame.refl c⟩
    · have : L.map (fun x => if j < x ∧ x ≤ i then x - 1 else x) = L := by
        conv_rhs => rw [← List.map_id L]
        apply List.map_congr_left
        intro x _
        have : ¬ (j < x ∧ x ≤ i) := by omega
        rw [if_neg this]; rfl
      rw [this]; exact hL
    · intro x
      have : ¬ (j ≤ x ∧ x < i) := by omega
      rw [if_neg this]
  | succ fuel ih =>
    intro c j L hji hfuel hlen hL hj hall
    by_cases hlt : (j : Int) < (i : Int)
    · have hji' : j < i := by omega
      have hcast : ((j : Int) + 1) = ((j + 1 : Nat) : Int) := by omega
      have htn : (j : Int).toNat = j := by omega
      have htn1 : ((j : Int) + 1).toNat = j + 1 := by omega
      have hsrc : j + 1 ∈ L := hall (j + 1) (by omega) (by omega)
      obtain ⟨k, hkl, hke⟩ := List.mem_iff_getElem.mp hsrc
      have hk : L[k]? = some (j + 1) := by rw [List.getElem?_eq_getElem hkl, hke]
      have hjl : j < c.blocks.length := by omega
      have hL' := shift_block_linked c L k j (j + 1) hL hk hj hjl
      obtain ⟨f1, f2, f3, f4, f5, -⟩ := shift_block_frame c j (j + 1)
      have hset : ∀ m : Nat, (L.set k j)[m]? = if m = k then some j else L[m]? := by
        intro m
        rw [List.getElem?_set]
        by_cases h : k = m
        · subst h; simp [hkl]
        · have : ¬ m = k := fun e => h e.symm
          simp [h, this]
      have hmem' : ∀ y, y ∈ L.set k j → y = j ∨ (y ∈ L ∧ y ≠ j + 1) := by
        intro y hy
        obtain ⟨m, hml, hme⟩ := List.mem_iff_getElem.mp hy
        have hm : (L.set k j)[m]? = some y := by rw [List.getElem?_eq_getElem hml, hme]
        rw [hset] at hm
        by_cases hmk : m = k
        · rw [if_pos hmk] at hm
          left; exact (Option.some.inj hm).symm
        · rw [if_neg hmk] at hm
          right
          refine ⟨mem_of_getElem?_eq hm, ?_⟩
          intro e
          exact hmk (hL.inj m k _ hm (by rw [hk, e]))
      have hj1 : j + 1 ∉ L.set k j := by
        intro hy
        rcases hmem' _ hy with h | ⟨-, h⟩
        · omega
        · exact h rfl
      have hall' : ∀ x, j + 1 < x → x ≤ i → x ∈ L.set k j := by
        intro x hx1 hx2
        have hxL := hall x (by omega) hx2
        obtain ⟨m, hml, hme⟩ := List.mem_iff_getElem.mp hxL
        have hm : L[m]? = some x := by rw [List.getElem?_eq_getElem hml, hme]
        have hmk : ¬ m = k := by
          intro e
          rw [e, hk] at hm
          have := Option.some.inj hm
          omega
        have : (L.set k j)[m]? = some x := by rw [hset, if_neg hmk]; exact hm
        exact mem_of_getElem?_eq this
      obtain ⟨c1, hc1, hlinked, hpay, hfr⟩ :=
        ih (shift_block c j (j + 1)) (j + 1) (L.set k j) (by omega) (by omega)
          (by rw [f5]; exact hlen) hL' hj1 hall'
      refine ⟨c1, ?_, ?_, ?_, ?_⟩
      · simp only [put_full_loop, hlt, if_true, htn, htn1]
        rw [hcast]
        exact hc1
      · have hmap : (L.set k j).map (fun x => if j + 1 < x ∧ x ≤ i then x - 1 else x)
            = L.map (fun x => if j < x ∧ x ≤ i then x - 1 else x) := by
          apply List.ext_getElem?
          intro m
          rw [List.getElem?_map, List.getElem?_map, hset]
          by_cases hmk : m = k
          · rw [if_pos hmk, hmk, hk]
            have e1 : ¬ (j + 1 < j ∧ j ≤ i) := by omega
            have e2 : j < j + 1 ∧ j + 1 ≤ i := by omega
            simp only [Option.map_some', if_neg e1, if_pos e2, Nat.add_sub_cancel]
          · rw [if_neg hmk]
            cases hm : L[m]? with
            | none => rfl
            | some y =>
              have hy1 : y ≠ j + 1 := by
                intro e
                exact hmk (hL.inj m k _ hm (by rw [hk, e]))
              have hy2 : y ≠ j := by
                intro e
                exact hj (e ▸ mem_of_getElem?_eq hm)
              simp only [Option.map_some']
              by_cases hc : j < y ∧ y ≤ i
              · have : j + 1 < y ∧ y ≤ i := by omega
                rw [if_pos hc, if_pos this]
              · have : ¬ (j + 1 < y ∧ y ≤ i) := by omega
                rw [if_neg hc, if_neg this]
        rw [← hmap]
        exact hlinked
      · intro x
        rw [hpay, shift_block_payload, shift_block_payload]
        by_cases hx1 : j + 1 ≤ x ∧ x < i
        · have e1 : ¬ (x + 1 = j ∧ j < c.blocks.length) := by omega
          have e2 : j ≤ x ∧ x < i := by omega
          rw [if_pos hx1, if_neg e1, if_pos e2]
        · rw [if_neg hx1]
          by_cases hxj : x = j
          · have e1 : x = j ∧ j < c.blocks.length := ⟨hxj, hjl⟩
            have e2 : j ≤ x ∧ x < i := by omega
            rw [if_pos e1, if_pos e2, hxj]
          · have e1 : ¬ (x = j ∧ j < c.blocks.length) := fun h => hxj h.1
            have e2 : ¬ (j ≤ x ∧ x < i) := by omega
            rw [if_neg e1, if_neg e2]
      · exact same_frame.trans ⟨f1, f2, f3, f4, f5⟩ hfr
    · have hji' : j = i := by omega
      refine ⟨c, by simp [put_full_loop, hlt], ?_, ?_, same_frame.refl c⟩
      · have : L.map (fun x => if j < x ∧ x ≤ i then x - 1 else x) = L := by
          conv_rhs => rw [← List.map_id L]
          apply List.map_congr_left
          intro x _
          have : ¬ (j < x ∧ x ≤ i) := by omega
          rw [if_neg this]; rfl
        rw [this]; exact hL
      · intro x
        have : ¬ (j ≤ x ∧ x < i) := by omega
        rw [if_neg this]
/-! ### Taking the tail out and putting a slot in front -/

/-- Detaching the tail of a usage list of at least two slots: the list loses
its last slot. -/
theorem Linked.drop_tail {c : lru_cache} {L : List Nat} (hL : Linked c L)
    (h2 : 2 ≤ L.length) (t p : Nat) (ht : c.tail = some t)
    (hp : (blk_at c t).previous = some p) :
    Linked { set_next c p none with tail := some p } L.dropLast ∧
      L[L.length - 1]? = some t ∧ L[L.length - 2]? = some p ∧ t ∉ L.dropLast := by
  have htl : L[L.length - 1]? = some t := by
    rw [← List.getLast?_eq_getElem?, ← hL.2.2.1, ht]
  obtain ⟨hlt, -, hpt⟩ := hL.at (L.length - 1) t htl
  have hk0 : ¬ L.length - 1 = 0 := by omega
  have hidx : L.length - 1 - 1 = L.length - 2 := by omega
  rw [if_neg hk0, hp, hidx] at hpt
  have hpl : L[L.length - 2]? = some p := hpt.symm
  obtain ⟨hlp, -, -⟩ := hL.at (L.length - 2) p hpl
  have hdl : ∀ m : Nat, L.dropLast[m]? = if m < L.length - 1 then L[m]? else none :=
    fun m => List.getElem?_dropLast L m
  have htn : t ∉ L.dropLast := by
    intro hmem
    obtain ⟨m, hml, hme⟩ := List.mem_iff_getElem.mp hmem
    have hm : L.dropLast[m]? = some t := by rw [List.getElem?_eq_getElem hml, hme]
    rw [List.length_dropLast] at hml
    rw [hdl, if_pos hml] at hm
    have := hL.inj m (L.length - 1) t hm htl
    omega
  refine ⟨?_, htl, hpl, htn⟩
  apply Linked.of_at
  · exact hL.1.sublist (List.dropLast_sublist L)
  · show c.head = L.dropLast.head?
    rw [hL.2.1, List.head?_eq_getElem?, List.head?_eq_getElem?, hdl,
      if_pos (by omega : 0 < L.length - 1)]
  · show some p = L.dropLast.getLast?
    rw [List.getLast?_eq_getElem?, List.length_dropLast, hdl,
      if_pos (by omega : L.length - 1 - 1 < L.length - 1), hidx, hpl]
  · intro m y hy
    rw [hdl] at hy
    by_cases hm : m < L.length - 1
    · rw [if_pos hm] at hy
      obtain ⟨hly, hny, hpy⟩ := hL.at m y hy
      have hb : ∀ z, blk_at ({ set_next c p none with tail := some p } : lru_cache) z
          = blk_at (set_next c p none) z := fun _ => rfl
      have hlen : ({ set_next c p none with tail := some p } : lru_cache).blocks.length
          = c.blocks.length := set_next_length c p none
      rw [hlen, hb, next_set_next, previous_set_next, hdl, hpy]
      refine ⟨hly, ?_, ?_⟩
      · by_cases hmp : m = L.length - 2
        · have hyp : y = p := by
            rw [hmp, hpl] at hy
            exact (Option.some.inj hy).symm
          have e : ¬ m + 1 < L.length - 1 := by omega
          rw [if_pos ⟨hyp, hlp⟩, if_neg e]
        · have hyp : ¬ (y = p ∧ p < c.blocks.length) := by
            intro e
            have := hL.inj m (L.length - 2) y hy (by rw [hpl, e.1])
            exact hmp this
          have e : m + 1 < L.length - 1 := by omega
          rw [if_neg hyp, if_pos e, hny]
      · by_cases hm0 : m = 0
        · rw [if_pos hm0, if_pos hm0]
        · rw [if_neg hm0, if_neg hm0, hdl, if_pos (by omega : m - 1 < L.length - 1)]
    · rw [if_neg hm] at hy
      cases hy

/-- Linking a slot that is outside the usage list in front of its head. -/
theorem Linked.push_front {c d : lru_cache} {L : List Nat} (hL : Linked c L) (blk : Nat)
    (hb : blk ∉ L) (hbl : blk < c.blocks.length) (hlen : d.blocks.length = c.blocks.length)
    (hh : d.head = some blk) (ht : d.tail = if L = [] then some blk else c.tail)
    (hn : ∀ x, (blk_at d x).next = if x = blk then c.head else (blk_at c x).next)
    (hp : ∀ x, (blk_at d x).previous
      = if some x = c.head then some blk else if x = blk then none
        else (blk_at c x).previous) :
    Linked d (blk :: L) := by
  apply Linked.of_at
  · exact List.nodup_cons.mpr ⟨hb, hL.1⟩
  · rw [hh]; rfl
  · rw [ht]
    cases L with
    | nil => rfl
    | cons a rest =>
      rw [if_neg (List.cons_ne_nil a rest), hL.2.2.1, List.getLast?_cons_cons]
  · intro m y hy
    rw [hlen, hn, hp]
    cases m with
    | zero =>
      rw [List.getElem?_cons_zero] at hy
      cases hy
      have hnh : ¬ some blk = c.head := by
        intro e
        rw [hL.2.1] at e
        exact hb (List.mem_of_mem_head? e.symm)
      rw [if_pos rfl, if_neg hnh, if_pos rfl, if_pos rfl, List.getElem?_cons_succ,
        ← List.head?_eq_getElem?, hL.2.1]
      exact ⟨hbl, rfl, rfl⟩
    | succ m =>
      rw [List.getElem?_cons_succ] at hy
      obtain ⟨hly, hny, hpy⟩ := hL.at m y hy
      have hyb : y ≠ blk := fun e => hb (e ▸ mem_of_getElem?_eq hy)
      have hm1 : ¬ m + 1 = 0 := by omega
      rw [if_neg hyb, if_neg hyb, if_neg hm1, List.getElem?_cons_succ, Nat.add_sub_cancel, hny]
      refine ⟨hly, rfl, ?_⟩
      by_cases hm0 : m = 0
      · subst hm0
        have : some y = c.head := by rw [hL.2.1, List.head?_eq_getElem?, hy]
        rw [if_pos this, List.getElem?_cons_zero]
      · have : ¬ some y = c.head := by
          intro e
          rw [hL.2.1, List.head?_eq_getElem?] at e
          exact hm0 (hL.inj m 0 y hy e.symm)
        rw [if_neg this, hpy, if_neg hm0]
        obtain ⟨m', rfl⟩ : ∃ m', m = m' + 1 := ⟨m - 1, by omega⟩
        rw [List.getElem?_cons_succ, Nat.add_sub_cancel]
/-! ### The branch for a full cache -/

/-- The branch for a full cache, written out for a cache whose tail `t` has
the predecessor `p`. -/
theorem put_full_eq (c : lru_cache) (i : Int) (t p h : Nat) (c3 : lru_cache)
    (ht : c.tail = some t) (hp : (blk_at c t).previous = some p)
    (hloop : put_full_loop i (if t < i.toNat then 1 else -1) c.max_blocks
      { set_next c p none with tail := some p } ((t : Int) - i + i) = .ok c3)
    (hh : c3.head = some h) :
    put_full c i = .ok (set_previous (set_previous (set_next
      (set_payload c3 i.toNat { (blk_at c3 i.toNat).payload with
        data := (blk_at c t).payload.data }) i.toNat c3.head) i.toNat none) h (some i.toNat)) := by
  unfold put_full
  simp only [ht, hp, previous_set_next]
  simp only [set_next_max] at hloop ⊢
  rw [hloop]
  simp only [set_previous_head, set_next_head, set_payload_head, hh]
/-! ### The full case for an identifier above all others -/

theorem order_length {order : List Nat} {n : Nat} (hnd : order.Nodup)
    (hcov : ∀ x, x ∈ order ↔ x < n) : order.length = n := by
  have hperm : order.Perm (List.range n) := by
    rw [List.perm_ext_iff_of_nodup hnd (List.nodup_range n)]
    intro x
    rw [hcov, List.mem_range]
  rw [hperm.length_eq, List.length_range]

theorem put_full_loop_done (i dir : Int) (fuel : Nat) (c : lru_cache) (j : Int) (h : ¬ j < i) :
    put_full_loop i dir fuel c j = .ok c := by
  cases fuel <;> simp [put_full_loop, h]

theorem blk_at_of_le (c : lru_cache) (k : Nat) (h : c.blocks.length ≤ k) :
    blk_at c k = block_init 0 0 := by
  unfold blk_at
  rw [List.getD_eq_getElem?_getD, List.getElem?_eq_none h]
  rfl

/-- The branch for a full cache, for the insertion slot `max_blocks - 1` in a
well-formed cache of at least two slots: it returns; the tail `t` of the usage
list is taken out, the slots behind it move one slot down, and the last slot
is linked in front with the storage region of the old tail. -/
theorem put_full_end (c : lru_cache) (order : List Nat) (hw : well_formed c order)
    (hfull : c.cur_blocks = c.max_blocks) (h2 : 2 ≤ c.max_blocks) :
    ∃ t c1, c.tail = some t ∧ t < c.max_blocks ∧ order.getLast? = some t ∧
      put_full c ((c.max_blocks : Int) - 1) = .ok c1 ∧
      Linked { c1 with head := some (c.max_blocks - 1) }
        ((c.max_blocks - 1) :: order.dropLast.map (fun x => if t < x then x - 1 else x)) ∧
      (∀ x, (blk_at c1 x).payload
        = if x = c.max_blocks - 1 then { (blk_at c (c.max_blocks - 1)).payload with
            data := (blk_at c t).payload.data }
          else if t ≤ x ∧ x < c.max_blocks - 1 then (blk_at c (x + 1)).payload
          else (blk_at c x).payload) ∧
      same_frame c c1 := by
  have hol : order.length = c.max_blocks := by
    rw [order_length hw.linked.1 hw.covers, hfull]
  obtain ⟨t, htl⟩ : ∃ t, order[order.length - 1]? = some t :=
    ⟨order[order.length - 1], List.getElem?_eq_getElem (by omega)⟩
  have htail : c.tail = some t := by
    rw [hw.linked.2.2.1, List.getLast?_eq_getElem?, htl]
  obtain ⟨htlen, -, hpt⟩ := hw.linked.at _ t htl
  obtain ⟨p, hpl⟩ : ∃ p, order[order.length - 1 - 1]? = some p :=
    ⟨order[order.length - 1 - 1], List.getElem?_eq_getElem (by omega)⟩
  have hk0 : ¬ order.length - 1 = 0 := by omega
  rw [if_neg hk0, hpl] at hpt
  obtain ⟨hL2, -, -, htn⟩ := hw.linked.drop_tail (by omega) t p htail hpt
  have htmax : t < c.max_blocks := by rw [← hw.slots]; exact htlen
  have hmemd : ∀ x, x ∈ order.dropLast ↔ (x < c.max_blocks ∧ x ≠ t) := by
    intro x
    have hsplit : order = order.dropLast ++ [t] := by
      have := List.dropLast_append_getLast? t (by rw [List.getLast?_eq_getElem?]; exact htl)
      exact this.symm
    constructor
    · intro hx
      refine ⟨?_, fun e => htn (e ▸ hx)⟩
      rw [← hfull, ← hw.covers]
      exact List.mem_of_mem_dropLast hx
    · intro ⟨hx1, hx2⟩
      have : x ∈ order := (hw.covers x).mpr (by rw [hfull]; exact hx1)
      rw [hsplit, List.mem_append, List.mem_singleton] at this
      rcases this with h | h
      · exact h
      · exact absurd h hx2
  -- the loop
  have hi : ((c.max_blocks : Int) - 1) = ((c.max_blocks - 1 : Nat) : Int) := by omega
  have hlen2 : ({ set_next c p none with tail := some p } : lru_cache).blocks.length
      = c.blocks.length := set_next_length c p none
  obtain ⟨c3, hc3, hL3, hpay3, hfr3⟩ := put_full_loop_up (c.max_blocks - 1) c.max_blocks
    { set_next c p none with tail := some p } t order.dropLast (by omega) (by omega)
    (by rw [hlen2, hw.slots]; omega) hL2 htn
    (fun x hx1 hx2 => (hmemd x).mpr ⟨by omega, by omega⟩)
  have hloop : put_full_loop ((c.max_blocks : Int) - 1)
      (if t < ((c.max_blocks : Int) - 1).toNat then 1 else -1) c.max_blocks
      { set_next c p none with tail := some p }
      ((t : Int) - ((c.max_blocks : Int) - 1) + ((c.max_blocks : Int) - 1)) = .ok c3 := by
    have e1 : ((t : Int) - ((c.max_blocks : Int) - 1) + ((c.max_blocks : Int) - 1)) = (t : Int) := by
      omega
    have e2 : ((c.max_blocks : Int) - 1).toNat = c.max_blocks - 1 := by omega
    rw [e1, e2, hi]
    by_cases hlt : t < c.max_blocks - 1
    · rw [if_pos hlt]; exact hc3
    · rw [if_neg hlt]
      have hnot : ¬ ((t : Int) < ((c.max_blocks - 1 : Nat) : Int)) := by omega
      rw [put_full_loop_done _ _ _ _ _ hnot]
      rw [put_full_loop_done _ _ _ _ _ hnot] at hc3
      exact hc3
  -- the list after the loop
  have hmap : order.dropLast.map (fun x => if t < x ∧ x ≤ c.max_blocks - 1 then x - 1 else x)
      = order.dropLast.map (fun x => if t < x then x - 1 else x) := by
    apply List.map_congr_left
    intro x hx
    have := ((hmemd x).mp hx).1
    by_cases h : t < x
    · rw [if_pos ⟨h, by omega⟩, if_pos h]
    · rw [if_neg (fun e => h e.1), if_neg h]
  rw [hmap] at hL3
  have hlt3 : ∀ y, y ∈ order.dropLast.map (fun x => if t < x then x - 1 else x) →
      y < c.max_blocks - 1 := by
    intro y hy
    obtain ⟨x, hx, rfl⟩ := List.mem_map.mp hy
    obtain ⟨hx1, hx2⟩ := (hmemd x).mp hx
    by_cases h : t < x
    · rw [if_pos h]; omega
    · rw [if_neg h]; omega
  have hblk : c.max_blocks - 1 ∉ order.dropLast.map (fun x => if t < x then x - 1 else x) :=
    fun h => Nat.lt_irrefl _ (hlt3 _ h)
  have hne3 : order.dropLast.map (fun x => if t < x then x - 1 else x) ≠ [] := by
    intro e
    have := congrArg List.length e
    rw [List.length_map, List.length_dropLast, hol] at this
    simp at this
    omega
  obtain ⟨h, hh⟩ : ∃ h, c3.head = some h := by
    rw [hL3.2.1]
    cases hl : order.dropLast.map (fun x => if t < x then x - 1 else x) with
    | nil => exact absurd hl hne3
    | cons a rest => exact ⟨a, rfl⟩
  have hhl : h < c3.blocks.length :=
    hL3.mem_lt h (List.mem_of_mem_head? (by rw [← hL3.2.1, hh]; rfl))
  have hlen3 : c3.blocks.length = c.blocks.length := by rw [hfr3.2.2.2.2, hlen2]
  have hbl3 : c.max_blocks - 1 < c3.blocks.length := by rw [hlen3, hw.slots]; omega
  have hres := put_full_eq c ((c.max_blocks : Int) - 1) t p h c3 htail hpt hloop hh
  have e2 : ((c.max_blocks : Int) - 1).toNat = c.max_blocks - 1 := by omega
  rw [e2] at hres
  refine ⟨t, _, htail, htmax, by rw [List.getLast?_eq_getElem?]; exact htl, hres, ?_, ?_, ?_⟩
  · apply hL3.push_front (c.max_blocks - 1) hblk hbl3
    · show (set_previous _ h (some (c.max_blocks - 1))).blocks.length = c3.blocks.length
      simp
    · rfl
    · rw [if_neg hne3]; rfl
    · intro x
      show (blk_at (set_previous _ h (some (c.max_blocks - 1))) x).next = _
      rw [next_set_previous, next_set_previous, next_set_next, set_payload_length,
        next_set_payload]
      by_cases hx : x = c.max_blocks - 1
      · rw [if_pos ⟨hx, hbl3⟩, if_pos hx]
      · rw [if_neg (fun e => hx e.1), if_neg hx]
    · intro x
      show (blk_at (set_previous _ h (some (c.max_blocks - 1))) x).previous = _
      rw [previous_set_previous, previous_set_previous, previous_set_next,
        previous_set_payload, hh]
      simp only [set_previous_length, set_next_length, set_payload_length]
      by_cases hxh : x = h
      · have : some x = some h := by rw [hxh]
        rw [if_pos ⟨hxh, hhl⟩, if_pos this]
      · have : ¬ some x = some h := fun e => hxh (Option.some.inj e)
        rw [if_neg (fun e => hxh e.1), if_neg this]
        by_cases hx : x = c.max_blocks - 1
        · rw [if_pos ⟨hx, hbl3⟩, if_pos hx]
        · rw [if_neg (fun e => hx e.1), if_neg hx]
  · intro x
    rw [payload_set_previous, payload_set_previous, payload_set_next, payload_set_payload]
    have hp2 : ∀ z, (blk_at ({ set_next c p none with tail := some p } : lru_cache) z).payload
        = (blk_at c z).payload := fun z => payload_set_next c p none z
    by_cases hx : x = c.max_blocks - 1
    · rw [if_pos ⟨hx, hbl3⟩, if_pos hx, hpay3]
      have : ¬ (t ≤ c.max_blocks - 1 ∧ c.max_blocks - 1 < c.max_blocks - 1) := by omega
      rw [if_neg this, hp2]
    · rw [if_neg (fun e => hx e.1), if_neg hx, hpay3, hp2, hp2]
  · have f2 : same_frame c { set_next c p none with tail := some p } :=
      ⟨rfl, rfl, rfl, rfl, hlen2⟩
    exact (f2.trans hfr3).trans (((same_frame_set_payload c3 _ _).trans
      (same_frame_set_next _ _ _)).trans ((same_frame_set_previous _ _ _).trans
      (same_frame_set_previous _ _ _)))
/-! ### Storage regions under a rearrangement of the slots -/

/-- A state whose slots carry the data pointers of a state with disjoint
storage regions, rearranged among the slots, has disjoint storage regions. -/
theorem regions_ok_perm (c d : lru_cache) (σ : Nat → Nat) (hreg : regions_ok c)
    (hlen : d.blocks.length = c.blocks.length) (hbs : d.block_size = c.block_size)
    (har : d.arena.length = c.arena.length)
    (hσ : ∀ k, k < c.blocks.length → σ k < c.blocks.length)
    (hinj : ∀ j k, j < c.blocks.length → k < c.blocks.length → σ j = σ k → j = k)
    (hdata : ∀ k, k < c.blocks.length →
      (blk_at d k).payload.data = (blk_at c (σ k)).payload.data)
    (hsize : ∀ k, k < c.blocks.length → (blk_at d k).payload.size ≤ c.block_size) :
    regions_ok d := by
  intro k hk
  rw [hlen] at hk
  obtain ⟨h1, -, h3⟩ := hreg (σ k) (hσ k hk)
  rw [hlen, hbs, har, hdata k hk]
  refine ⟨h1, hsize k hk, ?_⟩
  intro j hj hjk
  rw [hdata j hj]
  exact h3 (σ j) (hσ j hj) (fun e => hjk (hinj j k hj hk e))

/-- In a cache with ascending identifiers the lookup of an identifier above
all of them answers with the insertion slot `cur_blocks`. -/
theorem find_block_above (c : lru_cache) (id : Nat) (hs : ids_ascending c)
    (hgt : ∀ x ∈ array_ids c, x < id) :
    find_block c id = .ok (-(c.cur_blocks : Int) - 1) ∧ id ∉ array_ids c := by
  have hni : id ∉ array_ids c := fun h => Nat.lt_irrefl _ (hgt id h)
  obtain ⟨p, hp, hple, -, -, hup⟩ := find_block_miss_sorted c id hs hni
  have : p = c.cur_blocks := by
    by_contra hne
    have hlt : p < c.cur_blocks := by omega
    have h1 := hup p (le_refl _) hlt
    have h2 := hgt (entry_id c p) ((mem_array_ids c _).mpr ⟨p, hlt, rfl⟩)
    omega
  rw [this] at hp
  exact ⟨hp, hni⟩
/-! ### A put of an identifier above all others into a full cache -/

/-- The storage regions after the shifts of the full case. -/
theorem shifted_regions (c c1 : lru_cache) (t : Nat) (hreg : regions_ok c)
    (hslots : c.blocks.length = c.max_blocks) (htmax : t < c.max_blocks)
    (hfr : same_frame c c1)
    (hpay : ∀ x, (blk_at c1 x).payload
        = if x = c.max_blocks - 1 then { (blk_at c (c.max_blocks - 1)).payload with
            data := (blk_at c t).payload.data }
          else if t ≤ x ∧ x < c.max_blocks - 1 then (blk_at c (x + 1)).payload
          else (blk_at c x).payload) :
    regions_ok c1 := by
  obtain ⟨fcur, fmax, fbs, far, flen⟩ := hfr
  apply regions_ok_perm c c1
    (fun x => if x = c.max_blocks - 1 then t else if t ≤ x then x + 1 else x) hreg flen
    fbs (by rw [far])
  · intro k hk
    rw [hslots] at hk ⊢
    split_ifs <;> omega
  · intro j k hj hk e
    rw [hslots] at hj hk
    split_ifs at e <;> omega
  · intro k hk
    rw [hslots] at hk
    rw [hpay]
    by_cases hk1 : k = c.max_blocks - 1
    · rw [if_pos hk1, if_pos hk1]
    · rw [if_neg hk1, if_neg hk1]
      by_cases hk2 : t ≤ k
      · rw [if_pos ⟨hk2, by omega⟩, if_pos hk2]
      · rw [if_neg (fun e => hk2 e.1), if_neg hk2]
  · intro k hk
    rw [hslots] at hk
    rw [hpay]
    have hsz : ∀ z, z < c.max_blocks → (blk_at c z).payload.size ≤ c.block_size :=
      fun z hz => (hreg z (by rw [hslots]; exact hz)).2.1
    by_cases hk1 : k = c.max_blocks - 1
    · rw [if_pos hk1]; exact hsz _ (by omega)
    · rw [if_neg hk1]
      by_cases hk2 : t ≤ k ∧ k < c.max_blocks - 1
      · rw [if_pos hk2]; exact hsz _ (by omega)
      · rw [if_neg hk2]; exact hsz _ hk

/-- The state after the shifts of the full case and the final writes of the
put is well formed. -/
theorem put_full_write (c c1 c' : lru_cache) (order : List Nat) (id t : Nat)
    (hw : well_formed c order) (hfull : c.cur_blocks = c.max_blocks) (h2 : 2 ≤ c.max_blocks)
    (hgt : ∀ x ∈ array_ids c, x < id) (htmax : t < c.max_blocks)
    (hlast : order.getLast? = some t)
    (hlinked : Linked { c1 with head := some (c.max_blocks - 1) }
      ((c.max_blocks - 1) :: order.dropLast.map (fun x => if t < x then x - 1 else x)))
    (hpay : ∀ x, (blk_at c1 x).payload
        = if x = c.max_blocks - 1 then { (blk_at c (c.max_blocks - 1)).payload with
            data := (blk_at c t).payload.data }
          else if t ≤ x ∧ x < c.max_blocks - 1 then (blk_at c (x + 1)).payload
          else (blk_at c x).payload)
    (hfr : same_frame c c1)
    (e1 : entry_id c' (c.max_blocks - 1) = id)
    (e5 : ∀ x, x ≠ c.max_blocks - 1 → (blk_at c' x).payload = (blk_at c1 x).payload)
    (e6 : regions_ok c')
    (gn : ∀ x, (blk_at c' x).next = (blk_at c1 x).next)
    (gp : ∀ x, (blk_at c' x).previous = (blk_at c1 x).previous)
    (gh : c'.head = some (c.max_blocks - 1)) (gt : c'.tail = c1.tail)
    (gcur : c'.cur_blocks = c1.cur_blocks) (gmax : c'.max_blocks = c1.max_blocks)
    (glen : c'.blocks.length = c1.blocks.length) :
    well_formed c' ((c.max_blocks - 1) :: order.dropLast.map (fun x => if t < x then x - 1 else x)) ∧
    ((c.max_blocks - 1) :: order.dropLast.map (fun x => if t < x then x - 1 else x)).map
      (entry_id c') = id :: (order.map (entry_id c)).dropLast := by
  obtain ⟨fcur, fmax, fbs, far, flen⟩ := hfr
  have hold : ∀ k, k < c.cur_blocks → entry_id c k < id :=
    fun k hk => hgt _ ((mem_array_ids c _).mpr ⟨k, hk, rfl⟩)
  have hid' : ∀ x, x < c.max_blocks - 1 →
      entry_id c' x = entry_id c (if t ≤ x then x + 1 else x) := by
    intro x hx
    have hxb : x ≠ c.max_blocks - 1 := by omega
    show (blk_at _ x).payload.id = (blk_at c _).payload.id
    rw [e5 x hxb, hpay, if_neg hxb]
    by_cases hk2 : t ≤ x
    · rw [if_pos ⟨hk2, hx⟩, if_pos hk2]
    · rw [if_neg (fun e => hk2 e.1), if_neg hk2]
  have hsplit : order = order.dropLast ++ [t] :=
    (List.dropLast_append_getLast? t hlast).symm
  constructor
  · constructor
    · rw [glen, flen, gmax, fmax]; exact hw.slots
    · rw [gcur, fcur, gmax, fmax]; exact hw.filled
    · apply ids_ascending_of_lt
      intro a b hab hb
      rw [gcur, fcur, hfull] at hb
      by_cases hbl : b = c.max_blocks - 1
      · rw [hbl, e1, hid' a (by omega)]
        apply hold
        split <;> omega
      · rw [hid' a (by omega), hid' b (by omega)]
        apply ids_ascending_lt c hw.ascending
        · split <;> split <;> omega
        · split <;> omega
    · exact hlinked.congr gh gt glen gn gp
    · intro x
      rw [gcur, fcur, hfull, List.mem_cons, List.mem_map]
      constructor
      · rintro (h | ⟨y, hy, rfl⟩)
        · omega
        · have hyo : y ∈ order := List.mem_of_mem_dropLast hy
          have := (hw.covers y).mp hyo
          split <;> omega
      · intro hx
        by_cases hxl : x = c.max_blocks - 1
        · left; exact hxl
        · right
          have hmem : (if t ≤ x then x + 1 else x) ∈ order :=
            (hw.covers _).mpr (by rw [hfull]; split <;> omega)
          rw [hsplit, List.mem_append, List.mem_singleton] at hmem
          rcases hmem with h | h
          · refine ⟨_, h, ?_⟩
            by_cases htx : t ≤ x
            · rw [if_pos htx, if_pos (by omega : t < x + 1), Nat.add_sub_cancel]
            · rw [if_neg htx, if_neg (by omega : ¬ t < x)]
          · exfalso
            by_cases htx : t ≤ x
            · rw [if_pos htx] at h; omega
            · rw [if_neg htx] at h; omega
    · exact e6
    · intro k hk
      rw [gcur, fcur, hfull] at hk
      rw [blk_at_of_le _ k (by rw [glen, flen, hw.slots]; exact hk)]
      exact ⟨rfl, rfl⟩
  · rw [List.map_cons, e1, List.map_map, ← List.map_dropLast]
    congr 1
    apply List.map_congr_left
    intro y hy
    have hyo : y ∈ order := List.mem_of_mem_dropLast hy
    have hyl : y < c.max_blocks := by rw [← hfull]; exact (hw.covers y).mp hyo
    have hyt : y ≠ t := by
      intro e
      have hnd := hw.linked.1
      rw [hsplit] at hnd
      have := (List.nodup_append.mp hnd).2.2
      exact this hy (List.mem_singleton.mpr e)
    show entry_id _ (if t < y then y - 1 else y) = entry_id c y
    by_cases hty : t < y
    · rw [if_pos hty, hid' _ (by omega), if_pos (by omega : t ≤ y - 1)]
      congr 1
      omega
    · rw [if_neg hty, hid' _ (by omega), if_neg (by omega : ¬ t ≤ y)]

/-- In a well-formed full cache of at least two slots, a put of an identifier
above all resident ones returns the last slot; the cache is well formed
afterwards, the least recently used identifier is gone, the others keep their
order of use behind the new one, and the new entry has the given size and
bytes. -/
theorem put_end_full (c : lru_cache) (order : List Nat) (id : Nat) (data : List Byte)
    (length : Nat) (hw : well_formed c order) (hfull : c.cur_blocks = c.max_blocks)
    (h2 : 2 ≤ c.max_blocks) (hgt : ∀ x ∈ array_ids c, x < id)
    (hlen : length ≤ c.block_size) (hdata : length ≤ data.length) :
    ∃ c1 order1, lru_cache_put c id (some data) length = .ok (c.max_blocks - 1, c1) ∧
      well_formed c1 order1 ∧
      c1.cur_blocks = c.cur_blocks ∧ c1.max_blocks = c.max_blocks ∧
      c1.block_size = c.block_size ∧
      order1.map (entry_id c1) = id :: (order.map (entry_id c)).dropLast ∧
      entry_id c1 (c.max_blocks - 1) = id ∧
      entry_size c1 (c.max_blocks - 1) = length ∧
      entry_bytes c1 (c.max_blocks - 1) = data.take length := by
  obtain ⟨hfind, hni⟩ := find_block_above c id hw.ascending hgt
  obtain ⟨t, c1, htail, htmax, hlast, hput, hlinked, hpay, hfr⟩ :=
    put_full_end c order hw hfull h2
  have hneg : (-(c.cur_blocks : Int) - 1) < 0 := by omega
  have hsel : (if -((-(c.cur_blocks : Int) - 1) + 1) = (c.max_blocks : Int)
      then (c.max_blocks : Int) - 1 else -((-(c.cur_blocks : Int) - 1) + 1))
      = (c.max_blocks : Int) - 1 := by
    rw [if_pos (by omega)]
  have htn : ((c.max_blocks : Int) - 1).toNat = c.max_blocks - 1 := by omega
  have hres : lru_cache_put c id (some data) length
      = .ok (c.max_blocks - 1, put_write c1 (c.max_blocks - 1) id (some data) length) := by
    rw [lru_cache_put_unfold c id data length _ hfind hlen, if_pos hneg, if_pos hfull, hsel,
      hput, htn]
  have hb1 : c.max_blocks - 1 < c1.blocks.length := by rw [hfr.2.2.2.2, hw.slots]; omega
  have hreg1 : regions_ok c1 := shifted_regions c c1 t hw.regions hw.slots htmax hfr hpay
  obtain ⟨e1, e2, e3, -, e5, e6⟩ := put_write_effect c1 c1 (c.max_blocks - 1) id data length
    (fun _ => rfl) rfl rfl rfl hreg1 hb1 (by rw [hfr.2.2.1]; exact hlen) hdata
  obtain ⟨-, gn, gp, gh, gt, gcur, gmax, gbs, glen, -⟩ :=
    put_write_fields c1 (c.max_blocks - 1) id (some data) length hb1
  obtain ⟨hwf, hmap⟩ := put_full_write c c1 _ order id t hw hfull h2 hgt htmax hlast hlinked
    hpay hfr e1 e5 e6 gn gp gh gt gcur gmax glen
  exact ⟨_, _, hres, hwf, by rw [gcur, hfr.1], by rw [gmax, hfr.2.1], by rw [gbs, hfr.2.2.1],
    hmap, e1, e2, e3⟩
/-! ### A put of an identifier above all others into a cache with free slots -/

theorem put_grow_loop_done (i : Int) (fuel : Nat) (c : lru_cache) (j : Int) (h : ¬ j > i) :
    put_grow_loop i fuel c j = .ok c := by
  cases fuel <;> simp [put_grow_loop, h]

/-- The branch for a cache with free slots, for the insertion slot
`cur_blocks`: no slot is shifted, and the first free slot is linked in front of
the head, if there is one. -/
theorem put_grow_end_eq (c : lru_cache) :
    put_grow c (c.cur_blocks : Int) =
      (if c.cur_blocks > 0 then
        (match c.head with
          | none => .error .null_deref
          | some h => .ok { set_previous (set_next (set_payload c c.cur_blocks
              { (blk_at c c.cur_blocks).payload with
                data := (blk_at c c.cur_blocks).payload.data }) c.cur_blocks c.head) h
              (some c.cur_blocks) with cur_blocks := c.cur_blocks + 1 })
      else .ok { c with tail := some c.cur_blocks, cur_blocks := c.cur_blocks + 1 }) := by
  unfold put_grow
  have hj : ((c.cur_blocks : Int) - (c.cur_blocks : Int) + (c.cur_blocks : Int))
      = (c.cur_blocks : Int) := by omega
  have hnot : ¬ ((c.cur_blocks : Int) > (c.cur_blocks : Int)) := by omega
  simp only [Int.toNat_ofNat, hj, put_grow_loop_done _ _ _ _ hnot]
  by_cases h0 : c.cur_blocks > 0
  · simp only [h0, if_true, set_next_head, set_payload_head]
    cases c.head <;> rfl
  · simp only [h0, if_false]

/-- The branch for a cache with free slots in a well-formed cache, for the
insertion slot `cur_blocks`: it returns, the first free slot is in front of
the usage list, and no payload has changed. -/
theorem put_grow_end (c : lru_cache) (order : List Nat) (hw : well_formed c order)
    (hfree : c.cur_blocks < c.max_blocks) :
    ∃ c1, put_grow c (c.cur_blocks : Int) = .ok c1 ∧
      Linked { c1 with head := some c.cur_blocks } (c.cur_blocks :: order) ∧
      (∀ x, (blk_at c1 x).payload = (blk_at c x).payload) ∧
      (∀ x, c.cur_blocks < x → (blk_at c1 x).next = (blk_at c x).next ∧
        (blk_at c1 x).previous = (blk_at c x).previous) ∧
      c1.cur_blocks = c.cur_blocks + 1 ∧ c1.max_blocks = c.max_blocks ∧
      c1.block_size = c.block_size ∧ c1.arena = c.arena ∧
      c1.blocks.length = c.blocks.length := by
  have hblk : c.cur_blocks ∉ order := fun h => Nat.lt_irrefl _ ((hw.covers _).mp h)
  have hbl : c.cur_blocks < c.blocks.length := by rw [hw.slots]; exact hfree
  obtain ⟨hun, hup⟩ := hw.unused c.cur_blocks (le_refl _)
  rw [put_grow_end_eq]
  by_cases h0 : c.cur_blocks > 0
  · rw [if_pos h0]
    have hol : order.length = c.cur_blocks := order_length hw.linked.1 hw.covers
    obtain ⟨h, hh⟩ : ∃ h, order[0]? = some h :=
      ⟨order[0], List.getElem?_eq_getElem (by omega)⟩
    have hhead : c.head = some h := by
      rw [hw.linked.2.1, List.head?_eq_getElem?, hh]
    have hhl : h < c.blocks.length := (hw.linked.at 0 h hh).1
    have hhc : h < c.cur_blocks := (hw.covers h).mp (mem_of_getElem?_eq hh)
    have hne : order ≠ [] := by
      intro e
      rw [e] at hol
      simp at hol
      omega
    simp only [hhead]
    refine ⟨_, rfl, ?_, ?_, ?_, rfl, rfl, rfl, rfl, by simp⟩
    · apply hw.linked.push_front c.cur_blocks hblk hbl
      · show (set_previous _ h (some c.cur_blocks)).blocks.length = c.blocks.length
        simp
      · rfl
      · rw [if_neg hne]; rfl
      · intro x
        show (blk_at (set_previous _ h (some c.cur_blocks)) x).next = _
        rw [next_set_previous, next_set_next, set_payload_length, next_set_payload, hhead]
        by_cases hx : x = c.cur_blocks
        · rw [if_pos ⟨hx, hbl⟩, if_pos hx]
        · rw [if_neg (fun e => hx e.1), if_neg hx]
      · intro x
        show (blk_at (set_previous _ h (some c.cur_blocks)) x).previous = _
        rw [previous_set_previous, previous_set_next, previous_set_payload, hhead]
        simp only [set_next_length, set_payload_length]
        by_cases hxh : x = h
        · have : some x = some h := by rw [hxh]
          rw [if_pos ⟨hxh, hhl⟩, if_pos this]
        · have : ¬ some x = some h := fun e => hxh (Option.some.inj e)
          rw [if_neg (fun e => hxh e.1), if_neg this]
          by_cases hx : x = c.cur_blocks
          · rw [if_pos hx, hx, hup]
          · rw [if_neg hx]
    · intro x
      show (blk_at (set_previous _ h (some c.cur_blocks)) x).payload = _
      rw [payload_set_previous, payload_set_next, payload_set_payload]
      by_cases hx : x = c.cur_blocks
      · rw [if_pos ⟨hx, hbl⟩, hx]
      · rw [if_neg (fun e => hx e.1)]
    · intro x hx
      constructor
      · show (blk_at (set_previous _ h (some c.cur_blocks)) x).next = _
        rw [next_set_previous, next_set_next, set_payload_length, next_set_payload]
        rw [if_neg (fun e => by omega)]
      · show (blk_at (set_previous _ h (some c.cur_blocks)) x).previous = _
        rw [previous_set_previous, previous_set_next, previous_set_payload]
        rw [if_neg (fun e => by omega)]
  · rw [if_neg h0]
    have hc0 : c.cur_blocks = 0 := by omega
    have hol : order.length = 0 := by rw [order_length hw.linked.1 hw.covers, hc0]
    have hnil : order = [] := List.length_eq_zero.mp hol
    have hhead : c.head = none := by rw [hw.linked.2.1, hnil]; rfl
    refine ⟨_, rfl, ?_, fun _ => rfl, fun _ _ => ⟨rfl, rfl⟩, rfl, rfl, rfl, rfl, rfl⟩
    apply hw.linked.push_front c.cur_blocks hblk hbl
    · rfl
    · rfl
    · rw [if_pos hnil]
    · intro x
      show (blk_at c x).next = _
      by_cases hx : x = c.cur_blocks
      · rw [if_pos hx, hx, hun, hhead]
      · rw [if_neg hx]
    · intro x
      show (blk_at c x).previous = _
      rw [hhead]
      have : ¬ some x = none := fun e => by cases e
      rw [if_neg this]
      by_cases hx : x = c.cur_blocks
      · rw [if_pos hx, hx, hup]
      · rw [if_neg hx]
/-- The state after the branch for free slots and the final writes of the put
is well formed. -/
theorem put_grow_write (c c1 c' : lru_cache) (order : List Nat) (id : Nat)
    (hw : well_formed c order) (hfree : c.cur_blocks < c.max_blocks)
    (hgt : ∀ x ∈ array_ids c, x < id)
    (hlinked : Linked { c1 with head := some c.cur_blocks } (c.cur_blocks :: order))
    (hlinks : ∀ x, c.cur_blocks < x → (blk_at c1 x).next = (blk_at c x).next ∧
        (blk_at c1 x).previous = (blk_at c x).previous)
    (fcur : c1.cur_blocks = c.cur_blocks + 1) (fmax : c1.max_blocks = c.max_blocks)
    (flen : c1.blocks.length = c.blocks.length)
    (e1 : entry_id c' c.cur_blocks = id)
    (e5 : ∀ x, x ≠ c.cur_blocks → (blk_at c' x).payload = (blk_at c x).payload)
    (e6 : regions_ok c')
    (gn : ∀ x, (blk_at c' x).next = (blk_at c1 x).next)
    (gp : ∀ x, (blk_at c' x).previous = (blk_at c1 x).previous)
    (gh : c'.head = some c.cur_blocks) (gt : c'.tail = c1.tail)
    (gcur : c'.cur_blocks = c1.cur_blocks) (gmax : c'.max_blocks = c1.max_blocks)
    (glen : c'.blocks.length = c1.blocks.length) :
    well_formed c' (c.cur_blocks :: order) ∧
    (c.cur_blocks :: order).map (entry_id c') = id :: order.map (entry_id c) := by
  have hold : ∀ k, k < c.cur_blocks → entry_id c k < id :=
    fun k hk => hgt _ ((mem_array_ids c _).mpr ⟨k, hk, rfl⟩)
  have hid' : ∀ x, x ≠ c.cur_blocks → entry_id c' x = entry_id c x := by
    intro x hx
    show (blk_at _ x).payload.id = (blk_at c _).payload.id
    rw [e5 x hx]
  constructor
  · constructor
    · rw [glen, flen, gmax, fmax]; exact hw.slots
    · rw [gcur, fcur, gmax, fmax]; omega
    · apply ids_ascending_of_lt
      intro a b hab hb
      rw [gcur, fcur] at hb
      by_cases hbl : b = c.cur_blocks
      · rw [hbl, e1, hid' a (by omega)]
        exact hold a (by omega)
      · rw [hid' a (by omega), hid' b hbl]
        exact ids_ascending_lt c hw.ascending a b hab (by omega)
    · exact hlinked.congr gh gt glen gn gp
    · intro x
      rw [gcur, fcur, List.mem_cons, hw.covers]
      omega
    · exact e6
    · intro k hk
      rw [gcur, fcur] at hk
      rw [gn, gp, (hlinks k (by omega)).1, (hlinks k (by omega)).2]
      exact hw.unused k (by omega)
  · rw [List.map_cons, e1]
    congr 1
    apply List.map_congr_left
    intro y hy
    exact hid' y (by have := (hw.covers y).mp hy; omega)

/-- In a well-formed cache with a free slot, a put of an identifier above all
resident ones returns the first free slot; the cache is well formed
afterwards, with one more filled slot, the new identifier is the most recently
used and the others keep their order of use, and the new entry has the given
size and bytes. -/
theorem put_end_grow (c : lru_cache) (order : List Nat) (id : Nat) (data : List Byte)
    (length : Nat) (hw : well_formed c order) (hfree : c.cur_blocks < c.max_blocks)
    (hgt : ∀ x ∈ array_ids c, x < id)
    (hlen : length ≤ c.block_size) (hdata : length ≤ data.length) :
    ∃ c1 order1, lru_cache_put c id (some data) length = .ok (c.cur_blocks, c1) ∧
      well_formed c1 order1 ∧
      c1.cur_blocks = c.cur_blocks + 1 ∧ c1.max_blocks = c.max_blocks ∧
      c1.block_size = c.block_size ∧
      order1.map (entry_id c1) = id :: order.map (entry_id c) ∧
      entry_id c1 c.cur_blocks = id ∧
      entry_size c1 c.cur_blocks = length ∧
      entry_bytes c1 c.cur_blocks = data.take length := by
  obtain ⟨hfind, hni⟩ := find_block_above c id hw.ascending hgt
  obtain ⟨c1, hput, hlinked, hpay, hlinks, fcur, fmax, fbs, far, flen⟩ :=
    put_grow_end c order hw hfree
  have hneg : (-(c.cur_blocks : Int) - 1) < 0 := by omega
  have hnf : ¬ c.cur_blocks = c.max_blocks := by omega
  have hsel : (if -((-(c.cur_blocks : Int) - 1) + 1) = (c.max_blocks : Int)
      then (c.max_blocks : Int) - 1 else -((-(c.cur_blocks : Int) - 1) + 1))
      = (c.cur_blocks : Int) := by
    rw [if_neg (by omega)]
    omega
  have htn : ((c.cur_blocks : Int)).toNat = c.cur_blocks := by omega
  have hres : lru_cache_put c id (some data) length
      = .ok (c.cur_blocks, put_write c1 c.cur_blocks id (some data) length) := by
    rw [lru_cache_put_unfold c id data length _ hfind hlen, if_pos hneg, if_neg hnf, hsel,
      hput, htn]
  have hb : c.cur_blocks < c.blocks.length := by rw [hw.slots]; exact hfree
  obtain ⟨e1, e2, e3, -, e5, e6⟩ := put_write_effect c c1 c.cur_blocks id data length
    hpay far flen fbs hw.regions hb hlen hdata
  obtain ⟨-, gn, gp, gh, gt, gcur, gmax, gbs, glen, -⟩ :=
    put_write_fields c1 c.cur_blocks id (some data) length (by rw [flen]; exact hb)
  obtain ⟨hwf, hmap⟩ := put_grow_write c c1 _ order id hw hfree hgt hlinked hlinks
    fcur fmax flen e1 e5 e6 gn gp gh gt gcur gmax glen
  exact ⟨_, _, hres, hwf, by rw [gcur, fcur], by rw [gmax, fmax], by rw [gbs, fbs],
    hmap, e1, e2, e3⟩
/-! ### Lookups and promotions in a well-formed cache -/

/-- The two answers of the lookup on ascending identifiers: the slot that
holds the identifier, or a negative number when no filled slot holds it. -/
theorem find_block_cases (c : lru_cache) (id : Nat) (hs : ids_ascending c) :
    ∃ r, find_block c id = .ok r ∧
      ((0 ≤ r ∧ r.toNat < c.cur_blocks ∧ entry_id c r.toNat = id ∧ id ∈ array_ids c) ∨
       (r < 0 ∧ id ∉ array_ids c)) := by
  obtain ⟨r, hr, hcase⟩ := find_block_loop_sorted c id hs c.cur_blocks 0
    ((c.cur_blocks : Int) - 1) (le_refl _) (by omega) (by omega) (by omega)
    (fun k hk => by omega) (fun k hk hk2 => by omega)
  refine ⟨r, hr, ?_⟩
  rcases hcase with ⟨h0, hlt, hid⟩ | ⟨p, hp, hpc, hlo, hup⟩
  · left
    have hlt' : r.toNat < c.cur_blocks := by omega
    exact ⟨h0, hlt', hid, (mem_array_ids c id).mpr ⟨r.toNat, hlt', hid⟩⟩
  · right
    refine ⟨by omega, ?_⟩
    rw [mem_array_ids]
    rintro ⟨k, hk, hke⟩
    by_cases hkp : k < p
    · have := hlo k hkp
      omega
    · have := hup k (by omega) hk
      omega

theorem set_head_eq (c : lru_cache) (blk : Nat) (h : c.head = some blk) :
    ({ c with head := some blk } : lru_cache) = c := by
  cases c
  simp only at h
  subst h
  rfl

/-- What `move_to_front` leaves alone: the links of the slots that are not in
the usage list. -/
theorem move_to_front_outside (c : lru_cache) (L : List Nat) (k blk : Nat) (c1 : lru_cache)
    (hL : Linked c L) (hk : L[k]? = some blk) (hk0 : k ≠ 0)
    (h1 : move_to_front c blk = .ok c1) :
    ∀ x, x ∉ L → (blk_at c1 x).next = (blk_at c x).next ∧
      (blk_at c1 x).previous = (blk_at c x).previous := by
  obtain ⟨hkl, hke⟩ := List.getElem?_eq_some.mp hk
  obtain ⟨p, hpe⟩ : ∃ p, L[k - 1]? = some p :=
    ⟨L[k - 1], List.getElem?_eq_getElem (by omega)⟩
  obtain ⟨h, hhe⟩ : ∃ h, L[0]? = some h := ⟨L[0], List.getElem?_eq_getElem (by omega)⟩
  have hhead : c.head = some h := by rw [hL.2.1, List.head?_eq_getElem?, hhe]
  obtain ⟨hlb, hnb, hpb⟩ := hL.at k blk hk
  obtain ⟨hlp, -, -⟩ := hL.at (k - 1) p hpe
  obtain ⟨hlh, -, -⟩ := hL.at 0 h hhe
  rw [if_neg hk0, hpe] at hpb
  have hbp : blk ≠ p := by
    intro e
    have := hL.inj k (k - 1) blk hk (by rw [hpe, e])
    omega
  have hbh : blk ≠ h := by
    intro e
    have := hL.inj k 0 blk hk (by rw [hhe, e])
    omega
  have hbn : L[k + 1]? ≠ some blk := by
    intro e
    have := hL.inj (k + 1) k blk e hk
    omega
  have hln : ∀ n, L[k + 1]? = some n → n < c.blocks.length := fun n hn => (hL.at (k + 1) n hn).1
  obtain ⟨c2, hc2, hnext, hprev, -⟩ :=
    move_to_front_fields c blk p h L[k + 1]? hpb hnb hhead hbp hbn hlb hlp hlh hln hbh
  rw [h1] at hc2
  cases hc2
  intro x hx
  have e1 : x ≠ blk := fun e => hx (e ▸ mem_of_getElem?_eq hk)
  have e2 : x ≠ p := fun e => hx (e ▸ mem_of_getElem?_eq hpe)
  have e3 : x ≠ h := fun e => hx (e ▸ mem_of_getElem?_eq hhe)
  have e4 : ¬ L[k + 1]? = some x := fun e => hx (mem_of_getElem?_eq e)
  rw [hnext, hprev, if_neg e1, if_neg e2, if_neg e3, if_neg e1, if_neg e4]
  exact ⟨rfl, rfl⟩

/-- Moving a filled slot of a well-formed cache to the front of the usage
list, as `lru_cache_get` and `lru_cache_put` do for a slot that is not the
head: the step returns, only links change, and the slot leads the list. -/
theorem promote (c : lru_cache) (order : List Nat) (blk : Nat) (hw : well_formed c order)
    (hb : blk < c.cur_blocks) :
    ∃ c1, (if some blk ≠ c.head then move_to_front c blk else .ok c) = .ok c1 ∧
      Linked { c1 with head := some blk } (blk :: order.erase blk) ∧
      (∀ x, (blk_at c1 x).payload = (blk_at c x).payload) ∧
      (∀ x, c.cur_blocks ≤ x → (blk_at c1 x).next = (blk_at c x).next ∧
        (blk_at c1 x).previous = (blk_at c x).previous) ∧
      same_frame c c1 := by
  have hmem : blk ∈ order := (hw.covers blk).mpr hb
  obtain ⟨k, hkl, hke⟩ := List.mem_iff_getElem.mp hmem
  have hk : order[k]? = some blk := by rw [List.getElem?_eq_getElem hkl, hke]
  by_cases hhead : c.head = some blk
  · have hk0 : k = 0 := by
      have h0 : order[0]? = some blk := by
        rw [← List.head?_eq_getElem?, ← hw.linked.2.1, hhead]
      exact hw.linked.inj k 0 _ hk h0
    have horder : blk :: order.erase blk = order := by
      cases order with
      | nil => simp at hmem
      | cons a rest =>
        subst hk0
        simp only [List.getElem?_cons_zero, Option.some.injEq] at hk
        subst hk
        simp
    have hnn : ¬ some blk ≠ c.head := fun h => h hhead.symm
    rw [if_neg hnn]
    refine ⟨c, rfl, ?_, fun _ => rfl, fun _ _ => ⟨rfl, rfl⟩, same_frame.refl c⟩
    rw [horder, set_head_eq c blk hhead]
    exact hw.linked
  · have hk0 : k ≠ 0 := by
      intro h0
      subst h0
      apply hhead
      rw [hw.linked.2.1, List.head?_eq_getElem?, hk]
    obtain ⟨c1, hc1, hlinked, -, hpay, hcur, hmax, hbs, har, hl1⟩ :=
      move_to_front_linked c order k blk hw.linked hk hk0
    have herase : order.eraseIdx k = order.erase blk := by
      rw [← hke]; exact (List.Nodup.erase_getElem hw.linked.1 k hkl).symm
    rw [herase] at hlinked
    have hne : some blk ≠ c.head := fun h => hhead h.symm
    rw [if_pos hne]
    refine ⟨c1, hc1, hlinked, hpay, ?_, ⟨hcur, hmax, hbs, har, hl1⟩⟩
    intro x hx
    apply move_to_front_outside c order k blk c1 hw.linked hk hk0 hc1
    intro hxo
    have := (hw.covers x).mp hxo
    omega

theorem map_erase_of_inj_on (f : Nat → Nat) (a : Nat) :
    ∀ l : List Nat, (∀ x ∈ l, f x = f a → x = a) →
      (l.erase a).map f = (l.map f).erase (f a) := by
  intro l
  induction l with
  | nil => intro _; rfl
  | cons b l ih =>
    intro h
    by_cases hba : b = a
    · subst hba
      simp
    · have hf : ¬ f b = f a := fun e => hba (h b (List.mem_cons_self _ _) e)
      rw [List.erase_cons_tail (by simpa using hba), List.map_cons, List.map_cons,
        List.erase_cons_tail (by simpa using hf), ih (fun x hx => h x (List.mem_cons_of_mem _ hx))]

/-- Distinct filled slots of a cache with ascending identifiers hold distinct
identifiers. -/
theorem entry_id_inj (c : lru_cache) (hs : ids_ascending c) (a b : Nat)
    (ha : a < c.cur_blocks) (hb : b < c.cur_blocks) (h : entry_id c a = entry_id c b) :
    a = b := by
  by_contra hne
  rcases Nat.lt_or_gt_of_ne hne with h1 | h1
  · have := ids_ascending_lt c hs _ _ h1 hb
    omega
  · have := ids_ascending_lt c hs _ _ h1 ha
    omega

/-- The identifiers in order of use after the slot `blk` came to the front. -/
theorem promoted_ids (c d : lru_cache) (order : List Nat) (blk : Nat)
    (hw : well_formed c order) (hb : blk < c.cur_blocks)
    (hid : ∀ x, x < c.cur_blocks → entry_id d x = entry_id c x) :
    (blk :: order.erase blk).map (entry_id d)
      = entry_id c blk :: (order.map (entry_id c)).erase (entry_id c blk) := by
  rw [List.map_cons, hid blk hb]
  congr 1
  rw [← map_erase_of_inj_on (entry_id c) blk order]
  · apply List.map_congr_left
    intro x hx
    exact hid x ((hw.covers x).mp (List.mem_of_mem_erase hx))
  · intro x hx e
    exact entry_id_inj c hw.ascending x blk ((hw.covers x).mp hx) hb e

/-- A state that differs from a well-formed cache by a promotion of the slot
`blk` and by a new size in that slot is well formed. -/
theorem promoted_wf (c d : lru_cache) (order : List Nat) (blk : Nat)
    (hw : well_formed c order) (hb : blk < c.cur_blocks)
    (hlinked : Linked d (blk :: order.erase blk))
    (hid : ∀ x, x < c.cur_blocks → entry_id d x = entry_id c x)
    (hlinks : ∀ x, c.cur_blocks ≤ x → (blk_at d x).next = (blk_at c x).next ∧
        (blk_at d x).previous = (blk_at c x).previous)
    (hreg : regions_ok d)
    (hcur : d.cur_blocks = c.cur_blocks) (hmax : d.max_blocks = c.max_blocks)
    (hlen : d.blocks.length = c.blocks.length) :
    well_formed d (blk :: order.erase blk) := by
  constructor
  · rw [hlen, hmax]; exact hw.slots
  · rw [hcur, hmax]; exact hw.filled
  · have : array_ids d = array_ids c := array_ids_congr c d hcur hid
    unfold ids_ascending
    rw [this]
    exact hw.ascending
  · exact hlinked
  · intro x
    rw [hcur, List.mem_cons, List.Nodup.mem_erase_iff hw.linked.1, hw.covers]
    constructor
    · rintro (h | ⟨-, h⟩)
      · omega
      · exact h
    · intro h
      by_cases e : x = blk
      · left; exact e
      · right; exact ⟨e, h⟩
  · exact hreg
  · intro k hk
    rw [hcur] at hk
    rw [(hlinks k hk).1, (hlinks k hk).2]
    exact hw.unused k hk
/-! ### The calls on a well-formed cache -/

/-- A lookup that misses changes nothing. -/
theorem get_miss_step (c : lru_cache) (id : Nat) (hs : ids_ascending c)
    (hni : id ∉ array_ids c) : lru_cache_get c id = .ok (none, c) := by
  obtain ⟨r, hr, hcase⟩ := find_block_cases c id hs
  rcases hcase with ⟨-, -, -, hin⟩ | ⟨hneg, -⟩
  · exact absurd hin hni
  · simp [lru_cache_get, hr, hneg]

/-- A lookup that hits, on a well-formed cache: it returns the slot that holds
the identifier; the cache stays well formed, the slot is the most recently
used one afterwards, and no payload and no byte has changed. -/
theorem get_hit_step (c : lru_cache) (order : List Nat) (id : Nat) (hw : well_formed c order)
    (hin : id ∈ array_ids c) :
    ∃ blk c1, lru_cache_get c id = .ok (some blk, c1) ∧ blk < c.cur_blocks ∧
      entry_id c blk = id ∧
      well_formed c1 (blk :: order.erase blk) ∧
      c1.cur_blocks = c.cur_blocks ∧ c1.max_blocks = c.max_blocks ∧
      c1.block_size = c.block_size ∧
      (blk :: order.erase blk).map (entry_id c1) = id :: (order.map (entry_id c)).erase id ∧
      (∀ x, (blk_at c1 x).payload = (blk_at c x).payload) ∧ c1.arena = c.arena := by
  obtain ⟨r, hr, hcase⟩ := find_block_cases c id hw.ascending
  rcases hcase with ⟨h0, hlt, hid, -⟩ | ⟨-, hni⟩
  swap
  · exact absurd hin hni
  obtain ⟨c1, hprom, hlinked, hpay, hlinks, fcur, fmax, fbs, far, flen⟩ :=
    promote c order r.toNat hw hlt
  have hnotneg : ¬ r < 0 := by omega
  have hget : lru_cache_get c id = .ok (some r.toNat, { c1 with head := some r.toNat }) := by
    simp only [lru_cache_get, hr, hnotneg, if_false]
    by_cases hne : some r.toNat ≠ c.head
    · rw [if_pos hne] at hprom
      rw [if_pos hne, hprom]
    · rw [if_neg hne] at hprom
      cases hprom
      rw [if_neg hne, set_head_eq c r.toNat (by
        by_contra h
        exact hne (fun e => h e.symm))]
  have hide : ∀ x, x < c.cur_blocks →
      entry_id ({ c1 with head := some r.toNat } : lru_cache) x = entry_id c x := by
    intro x _
    show (blk_at c1 x).payload.id = (blk_at c x).payload.id
    rw [hpay]
  have hreg : regions_ok ({ c1 with head := some r.toNat } : lru_cache) := by
    apply regions_ok_perm c _ (fun x => x) hw.regions flen fbs (by show c1.arena.length = _; rw [far])
      (fun k hk => hk) (fun j k _ _ e => e)
    · intro k _
      show (blk_at c1 k).payload.data = _
      rw [hpay]
    · intro k hk
      show (blk_at c1 k).payload.size ≤ _
      rw [hpay]
      exact (hw.regions k hk).2.1
  refine ⟨r.toNat, _, hget, hlt, hid, ?_, fcur, fmax, fbs, ?_, hpay, far⟩
  · exact promoted_wf c _ order r.toNat hw hlt hlinked hide hlinks hreg fcur fmax flen
  · rw [promoted_ids c _ order r.toNat hw hlt hide, hid]

/-- A put of a resident identifier, on a well-formed cache: it returns the
slot that holds the identifier; the cache stays well formed, the slot is the
most recently used one afterwards, and it holds the given size and bytes. -/
theorem put_resident_step (c : lru_cache) (order : List Nat) (id : Nat) (data : List Byte)
    (length : Nat) (hw : well_formed c order) (hin : id ∈ array_ids c)
    (hlen : length ≤ c.block_size) (hdata : length ≤ data.length) :
    ∃ blk c1, lru_cache_put c id (some data) length = .ok (blk, c1) ∧ blk < c.cur_blocks ∧
      entry_id c blk = id ∧
      well_formed c1 (blk :: order.erase blk) ∧
      c1.cur_blocks = c.cur_blocks ∧ c1.max_blocks = c.max_blocks ∧
      c1.block_size = c.block_size ∧
      (blk :: order.erase blk).map (entry_id c1) = id :: (order.map (entry_id c)).erase id ∧
      entry_id c1 blk = id ∧ entry_size c1 blk = length ∧
      entry_bytes c1 blk = data.take length := by
  obtain ⟨r, hr, hcase⟩ := find_block_cases c id hw.ascending
  rcases hcase with ⟨h0, hlt, hid, -⟩ | ⟨-, hni⟩
  swap
  · exact absurd hin hni
  obtain ⟨c1, hprom, hlinked, hpay, hlinks, fcur, fmax, fbs, far, flen⟩ :=
    promote c order r.toNat hw hlt
  have hnotneg : ¬ r < 0 := by omega
  have hput : lru_cache_put c id (some data) length
      = .ok (r.toNat, put_write c1 r.toNat id (some data) length) := by
    rw [lru_cache_put_unfold c id data length r hr hlen, if_neg hnotneg]
    by_cases hne : some r.toNat ≠ c.head
    · rw [if_pos hne] at hprom
      rw [if_pos hne, hprom]
    · rw [if_neg hne] at hprom
      cases hprom
      rw [if_neg hne]
  have hb : r.toNat < c.blocks.length := by rw [hw.slots]; exact lt_of_lt_of_le hlt hw.filled
  obtain ⟨e1, e2, e3, -, e5, e6⟩ := put_write_effect c c1 r.toNat id data length
    hpay far flen fbs hw.regions hb hlen hdata
  obtain ⟨-, gn, gp, gh, gt, gcur, gmax, gbs, glen, -⟩ :=
    put_write_fields c1 r.toNat id (some data) length (by rw [flen]; exact hb)
  have hide : ∀ x, x < c.cur_blocks →
      entry_id (put_write c1 r.toNat id (some data) length) x = entry_id c x := by
    intro x _
    by_cases hx : x = r.toNat
    · rw [hx, e1, hid]
    · show (blk_at _ x).payload.id = (blk_at c x).payload.id
      rw [e5 x hx]
  refine ⟨r.toNat, _, hput, hlt, hid, ?_, by rw [gcur, fcur], by rw [gmax, fmax],
    by rw [gbs, fbs], ?_, e1, e2, e3⟩
  · apply promoted_wf c _ order r.toNat hw hlt (hlinked.congr gh gt glen gn gp) hide ?_ e6
      (by rw [gcur, fcur]) (by rw [gmax, fmax]) (by rw [glen, flen])
    intro x hx
    rw [gn, gp]
    exact hlinks x hx
  · rw [promoted_ids c _ order r.toNat hw hlt hide, hid]
/-! ### The most recently touched identifiers -/

theorem dedup_append_singleton (l : List Nat) (a : Nat) :
    (l ++ [a]).dedup = l.dedup.filter (fun x => decide (x ≠ a)) ++ [a] := by
  induction l with
  | nil => simp
  | cons b l ih =>
    rw [List.cons_append]
    by_cases hba : b = a
    · subst hba
      rw [List.dedup_cons_of_mem (by simp), ih]
      by_cases hbl : b ∈ l
      · rw [List.dedup_cons_of_mem hbl]
      · rw [List.dedup_cons_of_not_mem hbl, List.filter_cons_of_neg (by simp)]
    · by_cases hbl : b ∈ l
      · rw [List.dedup_cons_of_mem (by simp [hbl]), ih, List.dedup_cons_of_mem hbl]
      · rw [List.dedup_cons_of_not_mem (by simp [hbl, hba]), ih,
          List.dedup_cons_of_not_mem hbl, List.filter_cons_of_pos (by simpa using hba),
          List.cons_append]

theorem most_recent_append (n : Nat) (touched : List Nat) (a : Nat) :
    most_recent n (touched ++ [a])
      = (a :: touched.dedup.reverse.filter (fun x => decide (x ≠ a))).take n := by
  unfold most_recent
  rw [dedup_append_singleton, List.reverse_append, List.filter_reverse]
  rfl

theorem most_recent_nodup (n : Nat) (touched : List Nat) : (most_recent n touched).Nodup := by
  unfold most_recent
  exact (List.nodup_reverse.mpr (List.nodup_dedup touched)).sublist (List.take_sublist _ _)

theorem filter_ne_of_not_mem (l : List Nat) (a : Nat) (h : a ∉ l) :
    l.filter (fun x => decide (x ≠ a)) = l := by
  rw [List.filter_eq_self]
  intro x hx
  have : x ≠ a := fun e => h (e ▸ hx)
  simpa using this

/-- Touching one of the `n` most recent identifiers moves it to the front. -/
theorem most_recent_hit (n : Nat) (touched : List Nat) (a : Nat)
    (h : a ∈ most_recent n touched) :
    most_recent n (touched ++ [a]) = a :: (most_recent n touched).erase a := by
  rw [most_recent_append]
  unfold most_recent at h ⊢
  generalize hD : touched.dedup.reverse = D at h ⊢
  have hnd : D.Nodup := by rw [← hD]; exact List.nodup_reverse.mpr (List.nodup_dedup touched)
  have hn : 0 < n := by
    cases n with
    | zero => simp at h
    | succ n => omega
  obtain ⟨m, rfl⟩ : ∃ m, n = m + 1 := ⟨n - 1, by omega⟩
  rw [List.take_succ_cons]
  congr 1
  have hsplit : D = D.take (m + 1) ++ D.drop (m + 1) := (List.take_append_drop _ _).symm
  have hnd2 := hnd
  rw [hsplit] at hnd2
  obtain ⟨hnd1, -, hdisj⟩ := List.nodup_append.mp hnd2
  have hnotin : a ∉ D.drop (m + 1) := fun h2 => hdisj h h2
  have hfil : D.filter (fun x => decide (x ≠ a))
      = (D.take (m + 1)).erase a ++ D.drop (m + 1) := by
    conv_lhs => rw [hsplit]
    rw [List.filter_append, filter_ne_of_not_mem _ a hnotin, List.Nodup.erase_eq_filter hnd1]
    congr 1
    apply List.filter_congr
    intro x _
    by_cases e : x = a <;> simp [e, bne]
  rw [hfil]
  have hlen : ((D.take (m + 1)).erase a).length = (D.take (m + 1)).length - 1 :=
    List.length_erase_of_mem h
  have htl : (D.take (m + 1)).length = min (m + 1) D.length := List.length_take _ _
  by_cases hD2 : m + 1 ≤ D.length
  · have : ((D.take (m + 1)).erase a).length = m := by rw [hlen, htl]; omega
    rw [List.take_append_of_le_length (by omega), List.take_of_length_le (by omega)]
  · have hdrop : D.drop (m + 1) = [] := List.drop_of_length_le (by omega)
    rw [hdrop, List.append_nil, List.take_of_length_le (by rw [hlen, htl]; omega)]

/-- Touching a new identifier while fewer than `n` are known puts it in front. -/
theorem most_recent_new (n : Nat) (touched : List Nat) (a : Nat)
    (h : a ∉ most_recent n touched) (hlt : (most_recent n touched).length < n) :
    most_recent n (touched ++ [a]) = a :: most_recent n touched := by
  rw [most_recent_append]
  unfold most_recent at h hlt ⊢
  generalize touched.dedup.reverse = D at h hlt ⊢
  have hDl : D.length < n := by
    rw [List.length_take] at hlt
    omega
  have hD : D.take n = D := List.take_of_length_le (by omega)
  rw [hD] at h ⊢
  rw [filter_ne_of_not_mem _ a h, List.take_of_length_le (by simp; omega)]

/-- Touching a new identifier while `n` are known drops the oldest of them. -/
theorem most_recent_evict (n : Nat) (touched : List Nat) (a : Nat)
    (h : a ∉ most_recent n touched) (hfull : (most_recent n touched).length = n)
    (hn : 0 < n) :
    most_recent n (touched ++ [a]) = a :: (most_recent n touched).dropLast := by
  rw [most_recent_append]
  unfold most_recent at h hfull ⊢
  generalize touched.dedup.reverse = D at h hfull ⊢
  obtain ⟨m, rfl⟩ : ∃ m, n = m + 1 := ⟨n - 1, by omega⟩
  have hDl : m + 1 ≤ D.length := by
    rw [List.length_take] at hfull
    omega
  rw [List.take_succ_cons]
  congr 1
  rw [List.dropLast_eq_take, List.length_take, Nat.min_eq_left hDl, Nat.add_sub_cancel,
    List.take_take, Nat.min_eq_left (Nat.le_succ m)]
  have hsplit : D = D.take m ++ D.drop m := (List.take_append_drop _ _).symm
  have hnotin : a ∉ D.take m := by
    intro h2
    apply h
    exact (List.take_subset_take_left D (Nat.le_succ m)) h2
  conv_lhs => rw [hsplit]
  rw [List.filter_append, filter_ne_of_not_mem _ a hnotin,
    List.take_append_of_le_length (by rw [List.length_take]; omega),
    List.take_of_length_le (by rw [List.length_take]; omega)]
/-! ### One call and many calls on a well-formed cache -/

theorem mem_order_ids (c : lru_cache) (order : List Nat) (hw : well_formed c order) (id : Nat) :
    id ∈ order.map (entry_id c) ↔ id ∈ array_ids c := by
  rw [List.mem_map, mem_array_ids]
  constructor
  · rintro ⟨x, hx, he⟩
    exact ⟨x, (hw.covers x).mp hx, he⟩
  · rintro ⟨x, hx, he⟩
    exact ⟨x, (hw.covers x).mpr hx, he⟩

theorem get_hits_of_get (c : lru_cache) (id : Nat) (r : Option Nat) (c1 : lru_cache)
    (h : lru_cache_get c id = .ok (r, c1)) : get_hits c id = some r.isSome := by
  unfold get_hits
  rw [h]

theorem cache_new_well_formed (blocks block_size : Nat) :
    well_formed (cache_new blocks block_size) [] := by
  have hb : ∀ k, k < blocks →
      blk_at (cache_new blocks block_size) k = block_init block_size k := by
    intro k hk
    unfold blk_at cache_new
    simp [List.getD_eq_getElem?_getD, List.getElem?_map, List.getElem?_range hk]
  have hlenb : (cache_new blocks block_size).blocks.length = blocks := by
    simp [cache_new]
  constructor
  · exact hlenb
  · exact Nat.zero_le _
  · unfold ids_ascending array_ids
    simp [cache_new]
  · refine ⟨List.nodup_nil, rfl, rfl, ?_⟩
    intro k hk
    simp at hk
  · intro x
    simp [cache_new]
  · intro k hk
    rw [hlenb] at hk
    have hal : (cache_new blocks block_size).arena.length = blocks * block_size := by
      simp [cache_new, malloc]
    have hbs : (cache_new blocks block_size).block_size = block_size := rfl
    rw [hb k hk, hal, hbs, hlenb]
    refine ⟨?_, Nat.zero_le _, ?_⟩
    · show k * block_size + block_size ≤ blocks * block_size
      calc k * block_size + block_size = (k + 1) * block_size := by ring
        _ ≤ blocks * block_size := Nat.mul_le_mul_right _ hk
    · intro j hj hjk
      rw [hb j hj]
      show k * block_size + block_size ≤ j * block_size ∨
        j * block_size + block_size ≤ k * block_size
      rcases Nat.lt_or_gt_of_ne hjk with h | h
      · right
        calc j * block_size + block_size = (j + 1) * block_size := by ring
          _ ≤ k * block_size := Nat.mul_le_mul_right _ h
      · left
        calc k * block_size + block_size = (k + 1) * block_size := by ring
          _ ≤ j * block_size := Nat.mul_le_mul_right _ h
  · intro k _
    by_cases hk : k < blocks
    · rw [hb k hk]
      exact ⟨rfl, rfl⟩
    · rw [blk_at_of_le _ k (by rw [hlenb]; omega)]
      exact ⟨rfl, rfl⟩

/-- One call on a well-formed cache of at least two slots, in ascending use:
it returns when its length fits a block, and then the cache is well formed
again and its usage list holds the most recently touched identifiers. -/
theorem step_well_formed (c : lru_cache) (order touched : List Nat) (op : CacheOp)
    (hw : well_formed c order) (h2 : 2 ≤ c.max_blocks) (hasc : op.ascends c)
    (hrd : op.readable)
    (hrec : order.map (entry_id c) = most_recent c.max_blocks touched) :
    (op.fits c.block_size → ∃ c1, cache_step c op = .ok c1) ∧
    (∀ c1, cache_step c op = .ok c1 → ∃ order1, well_formed c1 order1 ∧
      c1.max_blocks = c.max_blocks ∧ c1.block_size = c.block_size ∧
      order1.map (entry_id c1) = most_recent c.max_blocks (touched ++ touch_of c op)) := by
  have hol : order.length = c.cur_blocks := order_length hw.linked.1 hw.covers
  have hrl : (most_recent c.max_blocks touched).length = c.cur_blocks := by
    rw [← hrec, List.length_map, hol]
  cases op with
  | get id =>
    by_cases hin : id ∈ array_ids c
    · obtain ⟨blk, c1, hget, -, -, hwf, -, fmax, fbs, hmap, -, -⟩ :=
        get_hit_step c order id hw hin
      have hstep : cache_step c (.get id) = .ok c1 := by
        simp only [cache_step, hget]
      have htouch : touch_of c (.get id) = [id] := by
        simp only [touch_of, get_hits_of_get c id _ _ hget]
        rfl
      refine ⟨fun _ => ⟨c1, hstep⟩, ?_⟩
      intro c2 h
      rw [hstep] at h
      cases h
      refine ⟨_, hwf, fmax, fbs, ?_⟩
      rw [hmap, htouch, hrec, most_recent_hit]
      rw [← hrec]
      exact (mem_order_ids c order hw id).mpr hin
    · have hget := get_miss_step c id hw.ascending hin
      have hstep : cache_step c (.get id) = .ok c := by
        simp only [cache_step, hget]
      have htouch : touch_of c (.get id) = [] := by
        simp only [touch_of, get_hits_of_get c id _ _ hget]
        rfl
      refine ⟨fun _ => ⟨c, hstep⟩, ?_⟩
      intro c2 h
      rw [hstep] at h
      cases h
      exact ⟨order, hw, rfl, rfl, by rw [htouch, List.append_nil]; exact hrec⟩
  | put id data length =>
    have htouch : touch_of c (.put id data length) = [id] := rfl
    have hdata : length ≤ data.length := hrd
    by_cases hlen : length ≤ c.block_size
    · have key : ∃ k c1 order1, lru_cache_put c id (some data) length = .ok (k, c1) ∧
          well_formed c1 order1 ∧ c1.max_blocks = c.max_blocks ∧
          c1.block_size = c.block_size ∧
          order1.map (entry_id c1) = most_recent c.max_blocks (touched ++ [id]) := by
        by_cases hin : id ∈ array_ids c
        · obtain ⟨blk, c1, hput, -, -, hwf, -, fmax, fbs, hmap, -⟩ :=
            put_resident_step c order id data length hw hin hlen hdata
          refine ⟨blk, c1, _, hput, hwf, fmax, fbs, ?_⟩
          rw [hmap, hrec, most_recent_hit]
          rw [← hrec]
          exact (mem_order_ids c order hw id).mpr hin
        · have hgt : ∀ x ∈ array_ids c, x < id := by
            rcases hasc with h | h
            · exact absurd h hin
            · exact h
          have hnr : id ∉ most_recent c.max_blocks touched := by
            rw [← hrec]
            exact fun h => hin ((mem_order_ids c order hw id).mp h)
          by_cases hfree : c.cur_blocks < c.max_blocks
          · obtain ⟨c1, order1, hput, hwf, -, fmax, fbs, hmap, -⟩ :=
              put_end_grow c order id data length hw hfree hgt hlen hdata
            refine ⟨_, c1, order1, hput, hwf, fmax, fbs, ?_⟩
            rw [hmap, hrec, most_recent_new _ _ _ hnr (by rw [hrl]; exact hfree)]
          · have hfull : c.cur_blocks = c.max_blocks := by
              have := hw.filled
              omega
            obtain ⟨c1, order1, hput, hwf, -, fmax, fbs, hmap, -⟩ :=
              put_end_full c order id data length hw hfull h2 hgt hlen hdata
            refine ⟨_, c1, order1, hput, hwf, fmax, fbs, ?_⟩
            rw [hmap, hrec, most_recent_evict _ _ _ hnr (by rw [hrl]; exact hfull) (by omega)]
      obtain ⟨k, c1, order1, hput, hwf, fmax, fbs, hmap⟩ := key
      have hstep : cache_step c (.put id data length) = .ok c1 := by
        simp only [cache_step, hput]
      refine ⟨fun _ => ⟨c1, hstep⟩, ?_⟩
      intro c2 h
      rw [hstep] at h
      cases h
      exact ⟨order1, hwf, fmax, fbs, by rw [htouch]; exact hmap⟩
    · have hfault := put_assertion_length c id (some data) length (by omega)
      have hstep : cache_step c (.put id data length) = .error .assertion := by
        simp only [cache_step, hfault]
      refine ⟨fun h => absurd h hlen, ?_⟩
      intro c2 h
      rw [hstep] at h
      cases h

/-- A sequence of calls on a well-formed cache of at least two slots, in
ascending use: it returns when every length fits a block, and then the cache
is well formed again and its usage list holds the most recently touched
identifiers. -/
theorem run_well_formed (ops : List CacheOp) : ∀ (c : lru_cache) (order touched : List Nat),
    well_formed c order → 2 ≤ c.max_blocks → ascending_new c ops →
    (∀ op ∈ ops, op.readable) →
    order.map (entry_id c) = most_recent c.max_blocks touched →
    ((∀ op ∈ ops, op.fits c.block_size) → ∃ c1, cache_run c ops = .ok c1) ∧
    (∀ c1, cache_run c ops = .ok c1 → ∃ order1, well_formed c1 order1 ∧
      c1.max_blocks = c.max_blocks ∧ c1.block_size = c.block_size ∧
      order1.map (entry_id c1) = most_recent c.max_blocks (touched ++ touches c ops)) := by
  induction ops with
  | nil =>
    intro c order touched hw _ _ _ hrec
    refine ⟨fun _ => ⟨c, rfl⟩, ?_⟩
    intro c1 h
    cases h
    exact ⟨order, hw, rfl, rfl, by simpa [touches] using hrec⟩
  | cons op ops ih =>
    intro c order touched hw h2 hasc hrd hrec
    obtain ⟨hs1, hs2⟩ := step_well_formed c order touched op hw h2 hasc.1
      (hrd op (List.mem_cons_self _ _)) hrec
    cases hstep : cache_step c op with
    | error e =>
      constructor
      · intro hfit
        obtain ⟨c1, h1⟩ := hs1 (hfit op (List.mem_cons_self _ _))
        rw [hstep] at h1
        cases h1
      · intro c1 h
        simp only [cache_run, hstep] at h
        cases h
    | ok c1 =>
      obtain ⟨order1, hwf, fmax, fbs, hmap⟩ := hs2 c1 hstep
      have hasc1 : ascending_new c1 ops := by
        have := hasc.2
        rw [hstep] at this
        exact this
      obtain ⟨i1, i2⟩ := ih c1 order1 (touched ++ touch_of c op) hwf (by rw [fmax]; exact h2)
        hasc1 (fun o ho => hrd o (List.mem_cons_of_mem _ ho)) (by rw [fmax]; exact hmap)
      have hrun : cache_run c (op :: ops) = cache_run c1 ops := by
        simp only [cache_run, hstep]
      have htch : touches c (op :: ops) = touch_of c op ++ touches c1 ops := by
        simp only [touches, hstep]
      constructor
      · intro hfit
        rw [hrun]
        apply i1
        intro o ho
        rw [fbs]
        exact hfit o (List.mem_cons_of_mem _ ho)
      · intro c2 h
        rw [hrun] at h
        obtain ⟨order2, hwf2, gmax, gbs, gmap⟩ := i2 c2 h
        refine ⟨order2, hwf2, by rw [gmax, fmax], by rw [gbs, fbs], ?_⟩
        rw [gmap, fmax, htch, List.append_assoc]
/-! ### What is touched is what was put -/

theorem most_recent_subset (n : Nat) (touched : List Nat) (x : Nat)
    (h : x ∈ most_recent n touched) : x ∈ touched := by
  unfold most_recent at h
  exact List.mem_dedup.mp (List.mem_reverse.mp (List.mem_of_mem_take h))

/-- In ascending use every touched identifier was put, now or earlier. -/
theorem touches_subset (ops : List CacheOp) : ∀ (c : lru_cache) (order touched : List Nat),
    well_formed c order → 2 ≤ c.max_blocks → ascending_new c ops →
    (∀ op ∈ ops, op.readable) →
    order.map (entry_id c) = most_recent c.max_blocks touched →
    ∀ x, x ∈ touches c ops → x ∈ put_ids ops ∨ x ∈ touched := by
  induction ops with
  | nil =>
    intro c order touched _ _ _ _ _ x hx
    simp [touches] at hx
  | cons op ops ih =>
    intro c order touched hw h2 hasc hrd hrec x hx
    obtain ⟨-, hs2⟩ := step_well_formed c order touched op hw h2 hasc.1
      (hrd op (List.mem_cons_self _ _)) hrec
    have hfirst : ∀ y, y ∈ touch_of c op → y ∈ put_ids (op :: ops) ∨ y ∈ touched := by
      intro y hy
      cases op with
      | put id data length =>
        simp only [touch_of, List.mem_singleton] at hy
        left
        rw [hy]
        simp [put_ids]
      | get id =>
        simp only [touch_of] at hy
        split at hy
        · rename_i hhit
          simp only [List.mem_singleton] at hy
          right
          rw [hy]
          apply most_recent_subset c.max_blocks
          rw [← hrec, mem_order_ids c order hw]
          by_contra hni
          have hget := get_miss_step c id hw.ascending hni
          rw [get_hits_of_get c id _ _ hget] at hhit
          cases hhit
        · simp at hy
    simp only [touches, List.mem_append] at hx
    rcases hx with hx | hx
    · exact hfirst x hx
    · cases hstep : cache_step c op with
      | error e =>
        rw [hstep] at hx
        simp at hx
      | ok c1 =>
        rw [hstep] at hx
        obtain ⟨order1, hwf, fmax, fbs, hmap⟩ := hs2 c1 hstep
        have hasc1 : ascending_new c1 ops := by
          have := hasc.2
          rw [hstep] at this
          exact this
        have := ih c1 order1 (touched ++ touch_of c op) hwf (by rw [fmax]; exact h2) hasc1
          (fun o ho => hrd o (List.mem_cons_of_mem _ ho)) (by rw [fmax]; exact hmap) x hx
        rcases this with h | h
        · left
          cases op <;> simp [put_ids, h]
        · rw [List.mem_append] at h
          rcases h with h | h
          · right; exact h
          · exact hfirst x h

/-- When no call faults every identifier that was put is touched. -/
theorem put_ids_subset (ops : List CacheOp) : ∀ (c c1 : lru_cache),
    cache_run c ops = .ok c1 → ∀ x, x ∈ put_ids ops → x ∈ touches c ops := by
  induction ops with
  | nil =>
    intro c c1 _ x hx
    simp [put_ids] at hx
  | cons op ops ih =>
    intro c c1 hrun x hx
    cases hstep : cache_step c op with
    | error e =>
      simp only [cache_run, hstep] at hrun
      cases hrun
    | ok c2 =>
      simp only [cache_run, hstep] at hrun
      simp only [touches, hstep, List.mem_append]
      cases op with
      | put id data length =>
        simp only [put_ids, List.mem_cons] at hx
        rcases hx with hx | hx
        · left
          rw [hx]
          simp [touch_of]
        · right
          exact ih c2 c1 hrun x hx
      | get id =>
        simp only [put_ids] at hx
        right
        exact ih c2 c1 hrun x hx

theorem dedup_length_congr (l1 l2 : List Nat) (h : ∀ x, x ∈ l1 ↔ x ∈ l2) :
    l1.dedup.length = l2.dedup.length := by
  rw [← List.card_toFinset, ← List.card_toFinset]
  congr 1
  ext x
  simp [h x]

theorem most_recent_min (n : Nat) (touched : List Nat) :
    most_recent (min n touched.dedup.length) touched = most_recent n touched := by
  unfold most_recent
  by_cases h : n ≤ touched.dedup.length
  · rw [Nat.min_eq_left h]
  · rw [Nat.min_eq_right (by omega), List.take_of_length_le (by simp),
      List.take_of_length_le (by simp; omega)]

theorem most_recent_nil (n : Nat) : most_recent n [] = [] := by
  simp [most_recent]

/-- The usage list of a new cache is empty, as is the history of touches. -/
theorem cache_new_recent (blocks block_size : Nat) :
    ([] : List Nat).map (entry_id (cache_new blocks block_size))
      = most_recent (cache_new blocks block_size).max_blocks [] := by
  rw [most_recent_nil]
  rfl
/-! ### The cache in ascending use -/

/-- C27: if `max_blocks ≥ 2` and every put of an identifier that no filled
slot holds brings one greater than every identifier held at that moment (puts
of resident identifiers and gets being unrestricted, every put reading
`length` bytes that its source holds), then a sequence of put and get calls on
a fresh cache returns whenever every length fits a block, and after it the
cache is well formed: there are `max_blocks` slots, the filled prefix is
strictly ascending by identifier, the usage list is a well-formed doubly
linked list over exactly the filled slots, and the storage regions of the
slots are pairwise disjoint parts of the arena, with pairwise distinct start
addresses for a positive block size. -/
theorem lru_cache_well_formed (blocks block_size : Nat) (ops : List CacheOp)
    (h2 : 2 ≤ blocks) (hasc : ascending_new (cache_new blocks block_size) ops)
    (hrd : ∀ op ∈ ops, op.readable) :
    ((∀ op ∈ ops, op.fits block_size) →
      ∃ c, cache_run (cache_new blocks block_size) ops = .ok c) ∧
    (∀ c, cache_run (cache_new blocks block_size) ops = .ok c →
      c.blocks.length = blocks ∧ c.max_blocks = blocks ∧ c.cur_blocks ≤ blocks ∧
      ids_ascending c ∧
      (∃ order, Linked c order ∧ ∀ x, x ∈ order ↔ x < c.cur_blocks) ∧
      regions_ok c ∧
      (0 < block_size → ∀ j k, j < blocks → k < blocks → j ≠ k →
        (blk_at c j).payload.data ≠ (blk_at c k).payload.data)) := by
  obtain ⟨r1, r2⟩ := run_well_formed ops (cache_new blocks block_size) [] []
    (cache_new_well_formed blocks block_size) h2 hasc hrd (cache_new_recent blocks block_size)
  refine ⟨r1, ?_⟩
  intro c hrun
  obtain ⟨order, hw, fmax, fbs, -⟩ := r2 c hrun
  have hmax : c.max_blocks = blocks := fmax
  have hbs : c.block_size = block_size := fbs
  refine ⟨by rw [hw.slots, hmax], hmax, by rw [← hmax]; exact hw.filled, hw.ascending,
    ⟨order, hw.linked, hw.covers⟩, hw.regions, ?_⟩
  intro hpos j k hj hk hjk
  have hlen : c.blocks.length = blocks := by rw [hw.slots, hmax]
  have := (hw.regions k (by rw [hlen]; exact hk)).2.2 j (by rw [hlen]; exact hj) hjk
  rw [hbs] at this
  omega

/-- C27 on the worked example with three blocks of eight bytes: after the puts
0, 1, 2, the get of 0 and the put 3, the array holds 0, 2, 3 and the usage
list visits the slots 2, 0, 1. -/
theorem lru_cache_well_formed_witness :
    (2 ≤ 3 ∧ ascending_new (cache_new 3 8) scenario_ops ∧
      (∀ op ∈ scenario_ops, op.readable) ∧ (∀ op ∈ scenario_ops, op.fits 8)) ∧
    cache_run (cache_new 3 8) scenario_ops = .ok scenario_cache ∧
    array_ids scenario_cache = [0, 2, 3] ∧ Linked scenario_cache [2, 0, 1] ∧
    ids_ascending scenario_cache ∧ regions_ok scenario_cache :=
  ⟨by decide, rfl, by decide, by decide,
    ((lru_cache_well_formed 3 8 scenario_ops (by decide) (by decide) (by decide)).2
      scenario_cache rfl).2.2.2.1,
    ((lru_cache_well_formed 3 8 scenario_ops (by decide) (by decide) (by decide)).2
      scenario_cache rfl).2.2.2.2.2.1⟩

/-- C28: if `max_blocks ≥ 2` and every put of an identifier that no filled
slot holds brings one greater than every identifier held at that moment, then
after a sequence of put and get calls on a fresh cache `lru_cache_get(id)`
returns an entry exactly when `id` is among the
`min (max_blocks, number of distinct identifiers put)` most recently touched
identifiers, where a put touches its identifier and a get touches it when it
returns an entry. -/
theorem lru_get_hits_recent (blocks block_size : Nat) (ops : List CacheOp) (id : Nat)
    (c : lru_cache) (h2 : 2 ≤ blocks)
    (hasc : ascending_new (cache_new blocks block_size) ops)
    (hrd : ∀ op ∈ ops, op.readable)
    (hrun : cache_run (cache_new blocks block_size) ops = .ok c) :
    get_hits c id = some (decide (id ∈ most_recent (min blocks (put_ids ops).dedup.length)
      (touches (cache_new blocks block_size) ops))) := by
  obtain ⟨-, r2⟩ := run_well_formed ops (cache_new blocks block_size) [] []
    (cache_new_well_formed blocks block_size) h2 hasc hrd (cache_new_recent blocks block_size)
  obtain ⟨order, hw, -, -, hmap⟩ := r2 c hrun
  have hmap' : order.map (entry_id c)
      = most_recent blocks (touches (cache_new blocks block_size) ops) := hmap
  have hsub := touches_subset ops (cache_new blocks block_size) [] []
    (cache_new_well_formed blocks block_size) h2 hasc hrd (cache_new_recent blocks block_size)
  have hsup := put_ids_subset ops (cache_new blocks block_size) c hrun
  have hlen : (put_ids ops).dedup.length
      = (touches (cache_new blocks block_size) ops).dedup.length := by
    apply dedup_length_congr
    intro x
    constructor
    · exact hsup x
    · intro hx
      rcases hsub x hx with h | h
      · exact h
      · simp at h
  rw [hlen, most_recent_min, ← hmap']
  by_cases hin : id ∈ array_ids c
  · obtain ⟨blk, c1, hget, -⟩ := get_hit_step c order id hw hin
    rw [get_hits_of_get c id _ _ hget]
    have : id ∈ order.map (entry_id c) := (mem_order_ids c order hw id).mpr hin
    simp [this]
  · have hget := get_miss_step c id hw.ascending hin
    rw [get_hits_of_get c id _ _ hget]
    have : id ∉ order.map (entry_id c) := fun h => hin ((mem_order_ids c order hw id).mp h)
    simp only [Option.isSome_none, this, decide_False]

/-- C28 on the worked example with three blocks of eight bytes: four distinct
identifiers were put, the touches are 0, 1, 2, 0, 3, the three most recent are
3, 0, 2, and the gets of 0 and of 1 hit and miss accordingly. -/
theorem lru_get_hits_recent_witness :
    (2 ≤ 3 ∧ ascending_new (cache_new 3 8) scenario_ops ∧
      (∀ op ∈ scenario_ops, op.readable) ∧
      cache_run (cache_new 3 8) scenario_ops = .ok scenario_cache) ∧
    touches (cache_new 3 8) scenario_ops = [0, 1, 2, 0, 3] ∧
    most_recent (min 3 (put_ids scenario_ops).dedup.length)
      (touches (cache_new 3 8) scenario_ops) = [3, 0, 2] ∧
    get_hits scenario_cache 0 = some true ∧ get_hits scenario_cache 1 = some false :=
  ⟨⟨by decide, by decide, by decide, rfl⟩, by decide, by decide,
    (lru_get_hits_recent 3 8 scenario_ops 0 scenario_cache (by decide) (by decide) (by decide)
      rfl).trans (by decide),
    (lru_get_hits_recent 3 8 scenario_ops 1 scenario_cache (by decide) (by decide) (by decide)
      rfl).trans (by decide)⟩
/-! ### The callback on a well-formed cache -/

/-- A put of an identifier above all resident ones, on a well-formed cache of
at least two slots: it returns the last slot of the filled prefix, the cache
is well formed afterwards, and the new identifier is the greatest. -/
theorem put_end_step (c : lru_cache) (order : List Nat) (id : Nat) (data : List Byte)
    (hw : well_formed c order) (h2 : 2 ≤ c.max_blocks) (hgt : ∀ x ∈ array_ids c, x < id)
    (hlen : data.length ≤ c.block_size) :
    ∃ k c1 order1, lru_cache_put c id (some data) data.length = .ok (k, c1) ∧
      well_formed c1 order1 ∧ c1.max_blocks = c.max_blocks ∧
      c1.block_size = c.block_size ∧ k + 1 = c1.cur_blocks ∧
      entry_id c1 k = id ∧ entry_size c1 k = data.length ∧ entry_bytes c1 k = data ∧
      (∀ x ∈ array_ids c1, x < id + 1) := by
  have hbound : ∀ (c1 : lru_cache) (order1 tl : List Nat), well_formed c1 order1 →
      order1.map (entry_id c1) = id :: tl → (∀ y ∈ tl, y ∈ order.map (entry_id c)) →
      ∀ x ∈ array_ids c1, x < id + 1 := by
    intro c1 order1 tl hw1 hmap htl x hx
    have := (mem_order_ids c1 order1 hw1 x).mpr hx
    rw [hmap, List.mem_cons] at this
    rcases this with h | h
    · omega
    · have := hgt x ((mem_order_ids c order hw x).mp (htl x h))
      omega
  by_cases hfree : c.cur_blocks < c.max_blocks
  · obtain ⟨c1, order1, hput, hwf, fcur, fmax, fbs, hmap, e1, e2, e3⟩ :=
      put_end_grow c order id data data.length hw hfree hgt hlen (le_refl _)
    refine ⟨_, c1, order1, hput, hwf, fmax, fbs, fcur.symm, e1, e2, ?_, ?_⟩
    · rw [e3, List.take_length]
    · exact hbound c1 order1 _ hwf hmap (fun y hy => hy)
  · have hfull : c.cur_blocks = c.max_blocks := by
      have := hw.filled
      omega
    obtain ⟨c1, order1, hput, hwf, fcur, fmax, fbs, hmap, e1, e2, e3⟩ :=
      put_end_full c order id data data.length hw hfull h2 hgt hlen (le_refl _)
    refine ⟨_, c1, order1, hput, hwf, fmax, fbs, ?_, e1, e2, ?_, ?_⟩
    · rw [fcur, hfull]; omega
    · rw [e3, List.take_length]
    · exact hbound c1 order1 _ hwf hmap (fun y hy => List.mem_of_mem_dropLast hy)

theorem read_from_file_some (file : PyFile) (k : Nat) (data : PyObject)
    (h : read_from_file file k = some data) :
    file k = some (.str (read_bytes file k)) ∧ data = .str (read_bytes file k) := by
  unfold read_from_file at h
  unfold read_bytes
  cases hf : file k with
  | none => rw [hf] at h; cases h
  | some o =>
    rw [hf] at h
    cases o with
    | other => simp [PyString_Check] at h
    | str b =>
      simp only [PyString_Check, if_true, Option.some.injEq] at h
      exact ⟨rfl, h.symm⟩

theorem read_from_file_str (file : PyFile) (k : Nat) (b : List Byte)
    (h : file k = some (.str b)) :
    read_from_file file k = some (.str b) ∧ read_bytes file k = b := by
  unfold read_from_file read_bytes
  rw [h]
  exact ⟨rfl, rfl⟩
/-- The loop that ends before its first iteration or at a read that returns
no string. -/
theorem walked_none (file : PyFile) (block id : Nat) (w : source_walk)
    (hid : id ≤ block + 1) (habove : ∀ x ∈ array_ids w.cache, x < id)
    (hstop : id ≤ block → read_from_file file w.reads = none) :
    walked file block id w
      { w with reads := w.reads + (if id ≤ block then 1 else 0) } 0 := by
  constructor
  · exact hid
  · intro k hk; omega
  · exact hstop
  · rfl
  · rfl
  · show w.puts = w.puts ++ []
    rw [List.append_nil]
  · rfl
  · rfl
  · trivial
  · exact habove
  · intro _; exact ⟨rfl, rfl⟩
  · intro h; omega

/-- One iteration that puts a block, followed by the rest of the loop. -/
theorem walked_cons (file : PyFile) (block id : Nat) (w w' : source_walk) (j k : Nat)
    (c1 : lru_cache) (habove : ∀ x ∈ array_ids w.cache, x < id)
    (hfile : file w.reads = some (.str (read_bytes file w.reads)))
    (hput : lru_cache_put w.cache id (some (read_bytes file w.reads))
      (read_bytes file w.reads).length = .ok (k, c1))
    (fmax : c1.max_blocks = w.cache.max_blocks) (fbs : c1.block_size = w.cache.block_size)
    (hk : k + 1 = c1.cur_blocks) (e1 : entry_id c1 k = id)
    (e2 : entry_size c1 k = (read_bytes file w.reads).length)
    (e3 : entry_bytes c1 k = read_bytes file w.reads)
    (hw : walked file block (id + 1)
      { cache := c1, entry := some k, reads := w.reads + 1,
        puts := w.puts ++ [.put id (read_bytes file w.reads) (read_bytes file w.reads).length] }
      w' j) :
    walked file block id w w' (j + 1) := by
  have hidx : ∀ m, w.reads + 1 + m = w.reads + (m + 1) := fun m => by omega
  constructor
  · have := hw.bound; omega
  · intro m hm
    cases m with
    | zero => exact hfile
    | succ m =>
      have := hw.good m (by omega)
      simp only [hidx] at this
      exact this
  · intro h
    have := hw.stop (by omega)
    simp only [hidx] at this
    exact this
  · rw [hw.max_eq]; exact fmax
  · rw [hw.size_eq]; exact fbs
  · rw [hw.puts_eq]
    simp only [source_puts, List.append_assoc, List.singleton_append]
  · rw [hw.reads_eq]
    have e : (id + 1 + j ≤ block) = (id + (j + 1) ≤ block) := by
      apply propext
      constructor <;> intro h <;> omega
    simp only [e]
    omega
  · simp only [source_puts, cache_run, cache_step, hput]
    exact hw.run_eq
  · simp only [source_puts, appends_at_end, hput]
    exact ⟨habove, hk, e1, hw.at_end⟩
  · intro x hx
    have := hw.above x hx
    omega
  · intro h; omega
  · intro _
    by_cases hj : j = 0
    · obtain ⟨h1, h2⟩ := hw.none_put hj
      simp only at h1 h2
      subst hj
      refine ⟨k, h1, ?_, ?_, ?_, ?_⟩
      · rw [h2]; exact hk
      · rw [h2, e1]; omega
      · rw [h2, e2]; rfl
      · rw [h2, e3]; rfl
    · obtain ⟨k', h1, h2, h3, h4, h5⟩ := hw.last_put (by omega)
      have hi : w.reads + 1 + j - 1 = w.reads + (j + 1) - 1 := by omega
      simp only [hi] at h4 h5
      exact ⟨k', h1, h2, by rw [h3]; omega, h4, h5⟩
/-- The loop of `get_source_block` on a well-formed cache of at least two
slots, entered with an identifier above all resident ones, for a file object
whose strings fit a block: with enough iterations allowed it returns, having
put consecutive blocks until `block` was reached or a read returned no
string, and the cache is well formed afterwards. -/
theorem source_loop_spec (file : PyFile) (block : Nat) (hb : block + 1 < ULONG_MOD) :
    ∀ (fuel id : Nat) (w : source_walk) (order : List Nat),
      well_formed w.cache order → 2 ≤ w.cache.max_blocks →
      (∀ k b, file k = some (.str b) → b.length ≤ w.cache.block_size) →
      (∀ x ∈ array_ids w.cache, x < id) → id ≤ block + 1 → block + 1 ≤ id + fuel →
      ∃ w' order' j, source_loop file block fuel id w = .ok w' ∧
        well_formed w'.cache order' ∧ walked file block id w w' j := by
  intro fuel
  induction fuel with
  | zero =>
    intro id w order hwf h2 hfit habove hid hfuel
    have hnot : ¬ id ≤ block := by omega
    refine ⟨w, order, 0, by simp [source_loop, hnot], hwf, ?_⟩
    have := walked_none file block id w hid habove (fun h => absurd h hnot)
    rw [if_neg hnot] at this
    exact this
  | succ fuel ih =>
    intro id w order hwf h2 hfit habove hid hfuel
    by_cases hle : id ≤ block
    · cases hread : read_from_file file w.reads with
      | none =>
        refine ⟨{ w with reads := w.reads + 1 }, order, 0, ?_, hwf, ?_⟩
        · simp only [source_loop, hle, if_true, hread]
        · have := walked_none file block id w hid habove (fun _ => hread)
          rw [if_pos hle] at this
          exact this
      | some data =>
        obtain ⟨hfile, hdata⟩ := read_from_file_some file w.reads data hread
        obtain ⟨k, c1, order1, hput, hwf1, fmax, fbs, hk, e1, e2, e3, habove1⟩ :=
          put_end_step w.cache order id (read_bytes file w.reads) hwf h2 habove
            (hfit _ _ hfile)
        have hadd : uadd id 1 = id + 1 := uadd_of_lt (by omega)
        obtain ⟨w', order', j, hloop, hwf', hwalk⟩ := ih (id + 1)
          { cache := c1, entry := some k, reads := w.reads + 1,
            puts := w.puts ++ [.put id (read_bytes file w.reads)
              (read_bytes file w.reads).length] }
          order1 hwf1 (by rw [fmax]; exact h2)
          (fun m b hm => by rw [fbs]; exact hfit m b hm) habove1 (by omega) (by omega)
        refine ⟨w', order', j + 1, ?_, hwf', ?_⟩
        · simp only [source_loop, hle, if_true, hread, hdata, PyString_AsStringAndSize, hput,
            hadd]
          exact hloop
        · exact walked_cons file block id w w' j k c1 habove hfile hput fmax fbs hk e1 e2 e3
            hwalk
    · refine ⟨w, order, 0, by simp [source_loop, hle], hwf, ?_⟩
      have := walked_none file block id w hid habove (fun h => absurd h hle)
      rw [if_neg hle] at this
      exact this
/-! ### The callback as a whole -/

/-- A lookup of an identifier that no filled slot holds returns `NULL` and
changes nothing, in every cache state. -/
theorem get_miss_any (c : lru_cache) (id : Nat) (hni : id ∉ array_ids c) :
    lru_cache_get c id = .ok (none, c) := by
  obtain ⟨r, hr, hcase⟩ := find_block_total c id
  have hneg : r < 0 := by
    rcases hcase with ⟨h0, hlt, hid⟩ | ⟨p, hp, -⟩
    · exact absurd ((mem_array_ids c id).mpr ⟨r.toNat, by omega, hid⟩) hni
    · omega
  simp [lru_cache_get, hr, hneg]

theorem source_loop_done (file : PyFile) (block fuel id : Nat) (w : source_walk)
    (h : ¬ id ≤ block) : source_loop file block fuel id w = .ok w := by
  cases fuel <;> simp [source_loop, h]

/-- The identifier the loop starts with, when the increment does not wrap
around, is above every resident identifier of a cache with ascending
identifiers. -/
theorem start_id (c : lru_cache) (hs : ids_ascending c)
    (hwrap : ∀ x ∈ array_ids c, x + 1 < ULONG_MOD) :
    (match lru_cache_last c with
      | some recent => uadd (entry_id c recent) 1
      | none => 0) = next_id c ∧
    (∀ x ∈ array_ids c, x < next_id c) := by
  unfold next_id lru_cache_last
  by_cases h0 : c.cur_blocks > 0
  · simp only [h0, if_true]
    have hlast : entry_id c (c.cur_blocks - 1) ∈ array_ids c :=
      (mem_array_ids c _).mpr ⟨c.cur_blocks - 1, by omega, rfl⟩
    refine ⟨uadd_of_lt (hwrap _ hlast), ?_⟩
    intro x hx
    obtain ⟨k, hk, rfl⟩ := (mem_array_ids c x).mp hx
    by_cases hkl : k = c.cur_blocks - 1
    · rw [hkl]; omega
    · have := ids_ascending_lt c hs k (c.cur_blocks - 1) (by omega) (by omega)
      omega
  · simp only [h0, if_false]
    refine ⟨trivial, ?_⟩
    intro x hx
    obtain ⟨k, hk, -⟩ := (mem_array_ids c x).mp hx
    omega

/-- The callback for a block that the cache holds: no read, no put, the block
becomes the most recently used one and is handed out. -/
theorem get_source_block_hit (t : Int) (fuel : Nat) (file : PyFile) (reads : Nat)
    (c c0 : lru_cache) (source : xd3_source) (block k : Nat)
    (hget : lru_cache_get c block = .ok (some k, c0)) :
    get_source_block t fuel file reads c source block
      = .ok { code := 0, cache := c0,
              source := { curblkno := entry_id c0 k, onblk := entry_size c0 k,
                          curblk := (blk_at c0 k).payload.data },
              reads := reads, puts := [] } := by
  simp only [get_source_block, hget]

/-- The callback after a lookup that misses, when the loop leaves `entry` at
the requested block. -/
theorem get_source_block_found (t : Int) (fuel : Nat) (file : PyFile) (reads : Nat)
    (c : lru_cache) (source : xd3_source) (block id0 k : Nat) (w : source_walk)
    (hget : lru_cache_get c block = .ok (none, c))
    (hid : (match lru_cache_last c with
      | some recent => uadd (entry_id c recent) 1
      | none => 0) = id0)
    (hloop : source_loop file block fuel id0
      { cache := c, entry := none, reads := reads, puts := [] } = .ok w)
    (hk : w.entry = some k) (he : entry_id w.cache k = block) :
    get_source_block t fuel file reads c source block
      = .ok { code := 0, cache := w.cache,
              source := { curblkno := entry_id w.cache k, onblk := entry_size w.cache k,
                          curblk := (blk_at w.cache k).payload.data },
              reads := w.reads, puts := w.puts } := by
  simp only [get_source_block, hget, hid, hloop, hk, he, ne_eq, not_true_eq_false, if_false]

/-- The callback after a lookup that misses, when the loop does not leave
`entry` at the requested block. -/
theorem get_source_block_lost (t : Int) (fuel : Nat) (file : PyFile) (reads : Nat)
    (c : lru_cache) (source : xd3_source) (block id0 : Nat) (w : source_walk)
    (hget : lru_cache_get c block = .ok (none, c))
    (hid : (match lru_cache_last c with
      | some recent => uadd (entry_id c recent) 1
      | none => 0) = id0)
    (hloop : source_loop file block fuel id0
      { cache := c, entry := none, reads := reads, puts := [] } = .ok w)
    (hk : ∀ k, w.entry = some k → entry_id w.cache k ≠ block) :
    get_source_block t fuel file reads c source block
      = .ok { code := t, cache := w.cache, source := source,
              reads := w.reads, puts := w.puts } := by
  simp only [get_source_block, hget, hid, hloop]
  cases he : w.entry with
  | none => simp only [he]
  | some k =>
    have := hk k he
    simp only [ne_eq, this, not_false_eq_true, if_true]
/-- The callback after a lookup that misses: it returns when the loop does,
with the cache, the reads and the puts of the loop, and with one of the two
result codes. -/
theorem get_source_block_after (t : Int) (fuel : Nat) (file : PyFile) (reads : Nat)
    (c : lru_cache) (source : xd3_source) (block id0 : Nat) (w : source_walk)
    (hget : lru_cache_get c block = .ok (none, c))
    (hid : (match lru_cache_last c with
      | some recent => uadd (entry_id c recent) 1
      | none => 0) = id0)
    (hloop : source_loop file block fuel id0
      { cache := c, entry := none, reads := reads, puts := [] } = .ok w) :
    ∃ r, get_source_block t fuel file reads c source block = .ok r ∧
      r.cache = w.cache ∧ r.reads = w.reads ∧ r.puts = w.puts := by
  by_cases h : ∃ k, w.entry = some k ∧ entry_id w.cache k = block
  · obtain ⟨k, hk, he⟩ := h
    exact ⟨_, get_source_block_found t fuel file reads c source block id0 k w hget hid hloop
      hk he, rfl, rfl, rfl⟩
  · refine ⟨_, get_source_block_lost t fuel file reads c source block id0 w hget hid hloop ?_,
      rfl, rfl, rfl⟩
    intro k hk he
    exact h ⟨k, hk, he⟩

/-- One call of the callback on a well-formed cache of at least two slots,
for a file object whose strings fit a block: it returns, the cache is well
formed afterwards, and the puts it made are puts of consecutive identifiers
at the end of the filled prefix. -/
theorem get_source_block_spec (t : Int) (fuel : Nat) (file : PyFile) (reads : Nat)
    (c : lru_cache) (order : List Nat) (source : xd3_source) (block : Nat)
    (hw : well_formed c order) (h2 : 2 ≤ c.max_blocks) (hb : block + 1 < ULONG_MOD)
    (hfuel : block < fuel) (hwrap : ∀ x ∈ array_ids c, x + 1 < ULONG_MOD)
    (hfit : ∀ k b, file k = some (.str b) → b.length ≤ c.block_size) :
    ∃ r order' j, get_source_block t fuel file reads c source block = .ok r ∧
      well_formed r.cache order' ∧ r.cache.max_blocks = c.max_blocks ∧
      r.cache.block_size = c.block_size ∧ appends_at_end c r.puts ∧
      r.puts = source_puts file reads (next_id c) j ∧
      (∀ x ∈ array_ids r.cache, x + 1 < ULONG_MOD) := by
  by_cases hin : block ∈ array_ids c
  · obtain ⟨blk, c1, hget, -, -, hwf, fcur, fmax, fbs, -, hpay, -⟩ :=
      get_hit_step c order block hw hin
    have hids : array_ids c1 = array_ids c := by
      apply array_ids_congr c c1 fcur
      intro x _
      show (blk_at c1 x).payload.id = (blk_at c x).payload.id
      rw [hpay]
    refine ⟨_, _, 0, get_source_block_hit t fuel file reads c c1 source block blk hget, hwf,
      fmax, fbs, trivial, rfl, ?_⟩
    show ∀ x ∈ array_ids c1, x + 1 < ULONG_MOD
    rw [hids]
    exact hwrap
  · have hget := get_miss_any c block hin
    obtain ⟨hid, habove⟩ := start_id c hw.ascending hwrap
    by_cases hnext : next_id c ≤ block + 1
    · obtain ⟨w, order', j, hloop, hwf, hwalk⟩ := source_loop_spec file block hb fuel
        (next_id c) { cache := c, entry := none, reads := reads, puts := [] } order hw h2
        hfit habove hnext (by omega)
      obtain ⟨r, hr, hc, -, hp⟩ :=
        get_source_block_after t fuel file reads c source block _ w hget hid hloop
      refine ⟨r, order', j, hr, by rw [hc]; exact hwf, by rw [hc]; exact hwalk.max_eq,
        by rw [hc]; exact hwalk.size_eq, by rw [hp, hwalk.puts_eq]; exact hwalk.at_end,
        by rw [hp, hwalk.puts_eq]; rfl, ?_⟩
      intro x hx
      rw [hc] at hx
      have h1 := hwalk.above x hx
      have h3 := hwalk.bound
      omega
    · have hloop := source_loop_done file block fuel (next_id c)
        { cache := c, entry := none, reads := reads, puts := [] } (by omega)
      obtain ⟨r, hr, hc, -, hp⟩ :=
        get_source_block_after t fuel file reads c source block _ _ hget hid hloop
      refine ⟨r, order, 0, hr, by rw [hc]; exact hw, by rw [hc], by rw [hc],
        by rw [hp]; trivial, by rw [hp]; rfl, ?_⟩
      rw [hc]
      exact hwrap

/-- Successive calls of the callback on a well-formed cache of at least two
slots: they all return, and every put is a put at the end of the filled
prefix. -/
theorem source_calls_spec (t : Int) (fuel : Nat) (file : PyFile) (blocks : List Nat) :
    ∀ (reads : Nat) (c : lru_cache) (order : List Nat) (source : xd3_source),
      well_formed c order → 2 ≤ c.max_blocks →
      (∀ block ∈ blocks, block + 1 < ULONG_MOD ∧ block < fuel) →
      (∀ x ∈ array_ids c, x + 1 < ULONG_MOD) →
      (∀ k b, file k = some (.str b) → b.length ≤ c.block_size) →
      ∃ rs, source_calls t fuel file reads c source blocks = .ok rs ∧
        rs.length = blocks.length ∧ calls_append file reads c rs := by
  induction blocks with
  | nil =>
    intro reads c order source _ _ _ _ _
    exact ⟨[], rfl, rfl, trivial⟩
  | cons block blocks ih =>
    intro reads c order source hw h2 hbl hwrap hfit
    obtain ⟨hb, hfuel⟩ := hbl block (List.mem_cons_self _ _)
    obtain ⟨r, order', j, hr, hwf, fmax, fbs, hat, hputs, hwrap'⟩ :=
      get_source_block_spec t fuel file reads c order source block hw h2 hb hfuel hwrap hfit
    obtain ⟨rs, hrs, hlen, hcalls⟩ := ih r.reads r.cache order' r.source hwf
      (by rw [fmax]; exact h2) (fun b hb => hbl b (List.mem_cons_of_mem _ hb)) hwrap'
      (fun k b h => by rw [fbs]; exact hfit k b h)
    refine ⟨r :: rs, ?_, by simp [hlen], hat, ⟨j, hputs⟩, hcalls⟩
    simp only [source_calls, hr, hrs]
/-! ### The claims about the callback -/

/-- C25: in a cache with ascending identifiers, `get_source_block` called for
a block that no filled slot holds and that is not greater than the highest
resident identifier (the increment of that identifier not wrapping around)
performs no read and no put, leaves the cache and `*source` unchanged, and
returns `XD3_TOOFARBACK`, however many iterations its loop is allowed. -/
theorem get_source_block_too_far_back (t : Int) (fuel : Nat) (file : PyFile) (reads : Nat)
    (c : lru_cache) (source : xd3_source) (block : Nat) (hs : ids_ascending c)
    (hni : block ∉ array_ids c) (hle : ∃ x ∈ array_ids c, block ≤ x)
    (hwrap : ∀ x ∈ array_ids c, x + 1 < ULONG_MOD) :
    get_source_block t fuel file reads c source block
      = .ok { code := t, cache := c, source := source, reads := reads, puts := [] } := by
  have hget := get_miss_any c block hni
  obtain ⟨hid, habove⟩ := start_id c hs hwrap
  obtain ⟨x, hx, hbx⟩ := hle
  have hlt : ¬ next_id c ≤ block := by
    have := habove x hx
    omega
  have hloop := source_loop_done file block fuel (next_id c)
    { cache := c, entry := none, reads := reads, puts := [] } hlt
  exact get_source_block_lost t fuel file reads c source block _ _ hget hid hloop
    (fun k hk => by cases hk)

/-- C25 on the cache of the worked example, which holds 0, 2, 3: block 1 has
fallen out of the window. -/
theorem get_source_block_too_far_back_witness :
    (ids_ascending scenario_cache ∧ 1 ∉ array_ids scenario_cache ∧
      (∃ x ∈ array_ids scenario_cache, 1 ≤ x) ∧
      (∀ x ∈ array_ids scenario_cache, x + 1 < ULONG_MOD)) ∧
    get_source_block (-17709) 10 file_two 0 scenario_cache source_zero 1
      = .ok { code := -17709, cache := scenario_cache, source := source_zero, reads := 0,
              puts := [] } :=
  ⟨by decide, get_source_block_too_far_back (-17709) 10 file_two 0 scenario_cache source_zero 1
    (by decide) (by decide) (by decide) (by decide)⟩

/-- C26, as stated, fails: the callback has two results, 0 and
`XD3_TOOFARBACK` (here -17709).  When the first read raises, the call for
block 0 on a new cache returns `XD3_TOOFARBACK`, the very result of the call
for block 1 on a cache that holds 0, 2, 3; and when the file has reached its
end, so that every read returns the empty string, the call for block 1 does
not stop: it puts two empty blocks and returns 0. -/
theorem source_exhausted_counterexample :
    (get_source_block (-17709) 10 file_failing 0 (cache_new 3 4) source_zero 0).toOption.map
      (fun r => (r.code, r.puts, r.reads)) = some (-17709, [], 1) ∧
    (get_source_block (-17709) 10 file_failing 0 scenario_cache source_zero 1).toOption.map
      (fun r => (r.code, r.puts, r.reads)) = some (-17709, [], 0) ∧
    (get_source_block (-17709) 10 file_at_end 0 (cache_new 3 4) source_zero 1).toOption.map
      (fun r => (r.code, r.puts, r.reads)) = some (0, [.put 0 [] 0, .put 1 [] 0], 2) := by
  decide

theorem next_id_le (c : lru_cache) (block : Nat) (habove : ∀ x ∈ array_ids c, x < block) :
    next_id c ≤ block := by
  unfold next_id lru_cache_last
  by_cases h0 : c.cur_blocks > 0
  · simp only [h0, if_true]
    have := habove _ ((mem_array_ids c _).mpr ⟨c.cur_blocks - 1, by omega, rfl⟩)
    omega
  · simp only [h0, if_false]
    exact Nat.zero_le _

/-- C26, amended: on a well-formed cache of at least two slots, for a block
`X` above every resident identifier (`X + 1` not wrapping around, the strings
read fitting a block, enough iterations allowed), `get_source_block` reads
and puts the blocks from the identifier after the last filled slot (0 for an
empty cache) through `X`, in order, one read each, as long as the reads return
strings, the empty string included.  When all of them do, it returns 0 and
`*source` describes block `X` with the bytes of the last read.  When a read
returns no string before block `X` has been read, the loop stops there, the
blocks put so far stay in the cache, `*source` is unchanged and the result is
`XD3_TOOFARBACK`, the same result as for a block that is too far back. -/
theorem get_source_block_backfill (t : Int) (fuel : Nat) (file : PyFile) (reads : Nat)
    (c : lru_cache) (order : List Nat) (source : xd3_source) (block : Nat)
    (hw : well_formed c order) (h2 : 2 ≤ c.max_blocks)
    (habove : ∀ x ∈ array_ids c, x < block) (hb : block + 1 < ULONG_MOD)
    (hfuel : block < fuel)
    (hfit : ∀ k b, file k = some (.str b) → b.length ≤ c.block_size) :
    ((∀ k, k < block + 1 - next_id c → ∃ b, file (reads + k) = some (.str b)) →
      ∃ r, get_source_block t fuel file reads c source block = .ok r ∧ r.code = 0 ∧
        r.puts = source_puts file reads (next_id c) (block + 1 - next_id c) ∧
        r.reads = reads + (block + 1 - next_id c) ∧
        cache_run c r.puts = .ok r.cache ∧
        r.source.curblkno = block ∧
        r.source.onblk = (read_bytes file (reads + (block - next_id c))).length ∧
        (r.cache.arena.drop r.source.curblk).take r.source.onblk
          = read_bytes file (reads + (block - next_id c))) ∧
    (∀ j, j < block + 1 - next_id c →
      (∀ k, k < j → ∃ b, file (reads + k) = some (.str b)) →
      read_from_file file (reads + j) = none →
      ∃ r, get_source_block t fuel file reads c source block = .ok r ∧ r.code = t ∧
        r.puts = source_puts file reads (next_id c) j ∧
        r.reads = reads + j + 1 ∧
        cache_run c r.puts = .ok r.cache ∧
        r.source = source) := by
  have hni : block ∉ array_ids c := fun h => Nat.lt_irrefl _ (habove block h)
  have hwrap : ∀ x ∈ array_ids c, x + 1 < ULONG_MOD := by
    intro x hx
    have := habove x hx
    omega
  have hget := get_miss_any c block hni
  obtain ⟨hid, hnext⟩ := start_id c hw.ascending hwrap
  have hle := next_id_le c block habove
  obtain ⟨w, order', j, hloop, -, hwalk⟩ := source_loop_spec file block hb fuel
    (next_id c) { cache := c, entry := none, reads := reads, puts := [] } order hw h2
    hfit hnext (by omega) (by omega)
  have hgood := hwalk.good
  have hstop := hwalk.stop
  have hbound := hwalk.bound
  have hputs : w.puts = source_puts file reads (next_id c) j := by
    rw [hwalk.puts_eq]; rfl
  have hreads := hwalk.reads_eq
  have hrun := hwalk.run_eq
  simp only at hgood hstop hreads hrun
  have hstr : ∀ k, (∃ b, file (reads + k) = some (.str b)) →
      read_from_file file (reads + k) ≠ none := by
    rintro k ⟨b, hb⟩ h
    rw [(read_from_file_str file _ b hb).1] at h
    cases h
  constructor
  · intro hall
    have hj : next_id c + j = block + 1 := by
      by_contra hne
      have hlt : next_id c + j ≤ block := by omega
      exact hstr j (hall j (by omega)) (hstop hlt)
    obtain ⟨k, hk, -, e1, e2, e3⟩ := hwalk.last_put (by omega)
    have e1' : entry_id w.cache k = block := by rw [e1]; omega
    have hres := get_source_block_found t fuel file reads c source block _ k w hget hid hloop
      hk e1'
    have hidx : reads + j - 1 = reads + (block - next_id c) := by omega
    simp only [hidx] at e2 e3
    refine ⟨_, hres, rfl, ?_, ?_, ?_, e1', e2, ?_⟩
    · show w.puts = _
      rw [hputs]
      congr 1
      omega
    · show w.reads = _
      rw [hreads, if_neg (by omega)]
      omega
    · show cache_run c w.puts = .ok w.cache
      rw [hputs]
      exact hrun
    · show (w.cache.arena.drop (blk_at w.cache k).payload.data).take (entry_size w.cache k) = _
      exact e3
  · intro j0 hj0 hgood0 hfail
    have hj : j = j0 := by
      by_contra hne
      rcases Nat.lt_or_gt_of_ne hne with h | h
      · exact hstr j (hgood0 j h) (hstop (by omega))
      · have := hgood j0 h
        rw [(read_from_file_str file _ _ this).1] at hfail
        cases hfail
    subst hj
    have hlost : ∀ k, w.entry = some k → entry_id w.cache k ≠ block := by
      intro k hk
      by_cases hz : j = 0
      · have := (hwalk.none_put hz).1
        rw [this] at hk
        cases hk
      · obtain ⟨k', hk', -, e1, -⟩ := hwalk.last_put (by omega)
        rw [hk] at hk'
        cases hk'
        rw [e1]
        omega
    have hres := get_source_block_lost t fuel file reads c source block _ w hget hid hloop
      hlost
    refine ⟨_, hres, rfl, hputs, ?_, ?_, rfl⟩
    · show w.reads = _
      rw [hreads, if_pos (by omega)]
    · show cache_run c w.puts = .ok w.cache
      rw [hputs]
      exact hrun
theorem file_two_fits : ∀ k b, file_two k = some (.str b) → b.length ≤ 4 := by
  intro k b h
  unfold file_two at h
  by_cases h0 : k = 0
  · rw [if_pos h0] at h
    cases h
    decide
  · rw [if_neg h0] at h
    by_cases h1 : k = 1
    · rw [if_pos h1] at h
      cases h
      decide
    · rw [if_neg h1] at h
      cases h

theorem file_two_good : ∀ k, k < 2 → ∃ b, file_two (0 + k) = some (.str b) := by
  intro k hk
  have : k = 0 ∨ k = 1 := by omega
  rcases this with h | h <;> subst h <;> exact ⟨_, rfl⟩

/-- C26, amended, on a new cache with three blocks of four bytes and a file
that holds "AAAA" and "BB": the call for block 1 reads twice, puts the blocks
0 and 1 and returns 0 with `*source` at block 1 of two bytes; the call for
block 2 reads three times, puts the blocks 0 and 1 and returns
`XD3_TOOFARBACK`. -/
theorem get_source_block_backfill_witness :
    (2 ≤ (cache_new 3 4).max_blocks ∧ (∀ x ∈ array_ids (cache_new 3 4), x < 1) ∧
      1 + 1 < ULONG_MOD ∧ 1 < 10 ∧ 1 + 1 - next_id (cache_new 3 4) = 2 ∧
      2 < 2 + 1 - next_id (cache_new 3 4) ∧ read_from_file file_two (0 + 2) = none) ∧
    (∃ r, get_source_block (-17709) 10 file_two 0 (cache_new 3 4) source_zero 1 = .ok r ∧
      r.code = 0 ∧
      r.puts = source_puts file_two 0 (next_id (cache_new 3 4))
        (1 + 1 - next_id (cache_new 3 4)) ∧
      r.reads = 0 + (1 + 1 - next_id (cache_new 3 4)) ∧
      cache_run (cache_new 3 4) r.puts = .ok r.cache ∧
      r.source.curblkno = 1 ∧
      r.source.onblk = (read_bytes file_two (0 + (1 - next_id (cache_new 3 4)))).length ∧
      (r.cache.arena.drop r.source.curblk).take r.source.onblk
        = read_bytes file_two (0 + (1 - next_id (cache_new 3 4)))) ∧
    (∃ r, get_source_block (-17709) 10 file_two 0 (cache_new 3 4) source_zero 2 = .ok r ∧
      r.code = -17709 ∧
      r.puts = source_puts file_two 0 (next_id (cache_new 3 4)) 2 ∧
      r.reads = 0 + 2 + 1 ∧
      cache_run (cache_new 3 4) r.puts = .ok r.cache ∧
      r.source = source_zero) ∧
    source_puts file_two 0 (next_id (cache_new 3 4)) 2
      = [.put 0 "AAAA".toList 4, .put 1 "BB".toList 2] :=
  ⟨by decide,
    (get_source_block_backfill (-17709) 10 file_two 0 (cache_new 3 4) [] source_zero 1
      (cache_new_well_formed 3 4) (by decide) (by decide) (by decide) (by decide)
      file_two_fits).1 file_two_good,
    (get_source_block_backfill (-17709) 10 file_two 0 (cache_new 3 4) [] source_zero 2
      (cache_new_well_formed 3 4) (by decide) (by decide) (by decide) (by decide)
      file_two_fits).2 2 (by decide) file_two_good (by decide),
    by decide⟩

/-- C29 at a failing input: with two slots and the puts 5 "CC", 3 "BB",
1 "AA", the get of 5 returns an entry, but its bytes are "AA", the bytes given
to the put of 1, not those of the put of 5. -/
theorem lru_entry_bytes_failure :
    observe (cache_new 2 4)
      [.put 5 "CC".toList 2, .put 3 "BB".toList 2, .put 1 "AA".toList 2] array_ids
      = some [1, 5] ∧
    observe (cache_new 2 4) [.put 5 "CC".toList 2, .put 3 "BB".toList 2]
      (fun c => get_entry c 5) = some (some (5, 2, "CC".toList)) ∧
    observe (cache_new 2 4)
      [.put 5 "CC".toList 2, .put 3 "BB".toList 2, .put 1 "AA".toList 2]
      (fun c => get_entry c 5) = some (some (5, 2, "AA".toList)) := by
  decide

/-- C30: in a cache of `MAX_SOURCE_BLOCKS` slots that is accessed only through
`get_source_block` (the requested blocks and the increments not wrapping
around, the strings read fitting a block, enough iterations allowed), every
call returns, and every `lru_cache_put` it issues brings an identifier greater
than every identifier resident at that moment and returns the last slot of
the filled prefix; the identifiers put by one call are consecutive and start
with the identifier after the last filled slot, or with 0 for an empty
cache. -/
theorem source_blocks_append (t : Int) (fuel : Nat) (file : PyFile) (block_size : Nat)
    (source : xd3_source) (blocks : List Nat)
    (hbl : ∀ block ∈ blocks, block + 1 < ULONG_MOD ∧ block < fuel)
    (hfit : ∀ k b, file k = some (.str b) → b.length ≤ block_size) :
    ∃ rs, source_calls t fuel file 0 (cache_new MAX_SOURCE_BLOCKS block_size) source blocks
        = .ok rs ∧
      rs.length = blocks.length ∧
      calls_append file 0 (cache_new MAX_SOURCE_BLOCKS block_size) rs :=
  source_calls_spec t fuel file blocks 0 (cache_new MAX_SOURCE_BLOCKS block_size) [] source
    (cache_new_well_formed MAX_SOURCE_BLOCKS block_size)
    (by show 2 ≤ MAX_SOURCE_BLOCKS; decide) hbl
    (fun x hx => by simp [array_ids, cache_new] at hx) hfit

/-- C30 on a file that holds "AAAA" and "BB", with blocks of four bytes: the
calls for the blocks 1, 0, 2 put 0 and 1, nothing, and nothing. -/
theorem source_blocks_append_witness :
    (∀ block ∈ [1, 0, 2], block + 1 < ULONG_MOD ∧ block < 10) ∧
    (∃ rs, source_calls (-17709) 10 file_two 0 (cache_new MAX_SOURCE_BLOCKS 4) source_zero
        [1, 0, 2] = .ok rs ∧
      rs.length = [1, 0, 2].length ∧
      calls_append file_two 0 (cache_new MAX_SOURCE_BLOCKS 4) rs) ∧
    (source_calls (-17709) 10 file_two 0 (cache_new MAX_SOURCE_BLOCKS 4) source_zero
        [1, 0, 2]).toOption.map (fun rs => rs.map (fun r => (r.code, r.puts)))
      = some [(0, [.put 0 "AAAA".toList 4, .put 1 "BB".toList 2]), (0, []), (-17709, [])] :=
  ⟨by decide,
    source_blocks_append (-17709) 10 file_two 4 source_zero [1, 0, 2] (by decide) file_two_fits,
    by decide⟩

/-! ### The consumed prefix right after an append -/

/-- C31: immediately after every `buffer_append` with `len > 0` that returns 1,
whatever the handle held before (a buffer `b` in any state, or nothing, in
which case `b` is the zeroed buffer that `calloc` returned), the handle holds a
buffer with `offset < 16777216` = `MAX_WASTEAGE`: either the append grew in
place, which it does only when the `offset` of `b` is below `MAX_WASTEAGE`, and
then `offset` is unchanged and `size` is `size + len`; or it compacted, and
then `offset` is 0 and `size` is `(size - offset) + len`. -/
theorem buffer_append_bounds_waste (calloc_ok alloc_ok : Bool)
    (buffer : Option (Option buf)) (data : List Byte) (len : Nat) (hlen : 0 < len)
    (hret : (buffer_append calloc_ok alloc_ok buffer data len).1 = 1) :
    ∃ b b1, (buffer = some (some b) ∨ (buffer = some none ∧ b = buf_zero)) ∧
      (buffer_append calloc_ok alloc_ok buffer data len).2 = some (some b1) ∧
      b1.offset < 16777216 ∧
      ((b.offset < 16777216 ∧ b1.offset = b.offset ∧ b1.size = uadd b.size len) ∨
        (b1.offset = 0 ∧ b1.size = uadd (usub b.size b.offset) len)) := by
  have h0 : len ≠ 0 := by omega
  have main : ∀ (co : Bool) (b : buf),
      (buffer_append co alloc_ok (some (some b)) data len).1 = 1 →
      ∃ b1, (buffer_append co alloc_ok (some (some b)) data len).2 = some (some b1) ∧
        b1.offset < 16777216 ∧
        ((b.offset < 16777216 ∧ b1.offset = b.offset ∧ b1.size = uadd b.size len) ∨
          (b1.offset = 0 ∧ b1.size = uadd (usub b.size b.offset) len)) := by
    intro co b hr
    cases alloc_ok with
    | false =>
      rw [buffer_append_no_alloc] at hr
      simp [h0] at hr
    | true =>
      obtain ⟨b1, h1, h2, h3⟩ := buffer_append_offset co b data len h0
      refine ⟨b1, by rw [h1], ?_⟩
      by_cases hg : b.offset < MIN_WASTEAGE ∨ (b.offset < MAX_WASTEAGE ∧ b.offset > b.size >>> 2)
      · rw [if_pos hg] at h2 h3
        have hb : b.offset < 16777216 := by
          rcases hg with hg | hg
          · have hmin : MIN_WASTEAGE < 16777216 := by decide
            omega
          · exact hg.1
        exact ⟨by rw [h2]; exact hb, Or.inl ⟨hb, h2, h3⟩⟩
      · rw [if_neg hg] at h2 h3
        exact ⟨by rw [h2]; decide, Or.inr ⟨h2, h3⟩⟩
  cases buffer with
  | none =>
    have h01 : (0 : Int) = 1 := hret
    exact absurd h01 (by decide)
  | some pb =>
    cases pb with
    | some b =>
      obtain ⟨b1, h⟩ := main calloc_ok b hret
      exact ⟨b, b1, Or.inl rfl, h⟩
    | none =>
      cases calloc_ok with
      | false =>
        rw [buffer_append_no_calloc] at hret
        simp at hret
      | true =>
        rw [buffer_append_fresh] at hret ⊢
        obtain ⟨b1, h⟩ := main true buf_zero hret
        exact ⟨buf_zero, b1, Or.inr ⟨rfl, rfl⟩, h⟩

/-- C31 on two buffers: "HELLO" with `offset` 3 grows in place when " WORLD"
is appended, and 32 MiB of which 16 MiB are consumed are compacted; both
appends return 1. -/
theorem buffer_append_bounds_waste_witness :
    (0 < 6 ∧
      (buffer_append true true (some (some hello_taken_buf)) " WORLD".toList 6).1 = 1 ∧
      (buffer_append true true (some (some half_taken_buf)) " WORLD".toList 6).1 = 1) ∧
    (∃ b b1, (some (some hello_taken_buf) = some (some b) ∨
        (some (some hello_taken_buf) = some none ∧ b = buf_zero)) ∧
      (buffer_append true true (some (some hello_taken_buf)) " WORLD".toList 6).2
        = some (some b1) ∧
      b1.offset < 16777216 ∧
      ((b.offset < 16777216 ∧ b1.offset = b.offset ∧ b1.size = uadd b.size 6) ∨
        (b1.offset = 0 ∧ b1.size = uadd (usub b.size b.offset) 6))) ∧
    (∃ b b1, (some (some half_taken_buf) = some (some b) ∨
        (some (some half_taken_buf) = some none ∧ b = buf_zero)) ∧
      (buffer_append true true (some (some half_taken_buf)) " WORLD".toList 6).2
        = some (some b1) ∧
      b1.offset < 16777216 ∧
      ((b.offset < 16777216 ∧ b1.offset = b.offset ∧ b1.size = uadd b.size 6) ∨
        (b1.offset = 0 ∧ b1.size = uadd (usub b.size b.offset) 6))) :=
  ⟨⟨by decide, by decide, by decide⟩,
    buffer_append_bounds_waste true true (some (some hello_taken_buf)) " WORLD".toList 6
      (by decide) (by decide),
    buffer_append_bounds_waste true true (some (some half_taken_buf)) " WORLD".toList 6
      (by decide) (by decide)⟩

end XDelta
